import Mathlib

/-!
# slowreverb-flutter: the native audio engine

A shallow embedding of `audio_engine.cpp` and `simple_reverb.cpp`
(android/app/src/main/cpp) and the properties of the ring buffer, the
parameter smoother and the reverb network.

Conventions of the embedding.

* `int`, `int32_t` and `int64_t` values are integers (`Int`), `size_t` values are
  naturals (`Nat`).  Every conversion the source writes (`static_cast<int>`,
  `static_cast<size_t>`, `static_cast<int64_t>`) is kept as a wrapping cast
  (`castInt32`, `castSizeT`, `castInt64`), so a theorem has to say in which range it
  is the identity.  The 64-bit frame cursors themselves are counted in `Int`.
* A `float*` is the list of the samples from the pointer onwards; `ptr += k` is
  `List.drop k`, and `memcpy` replaces a block of the destination list.
* `float` samples of the ring are moved but never computed with, so the ring is
  generic in the sample type.  The smoother and the reverb compute; they are stated
  over an arbitrary linearly ordered field `K` (exact arithmetic), which covers the
  reals and runs on the rationals.
* Where an integer is taken from a `float`, the lengths of the delay lines in
  `ensureLines`, exact arithmetic would give other integers than the code.  There every
  operation is rounded to binary32 (`roundF32`, round to nearest, ties to even) and
  `static_cast<size_t>` is kept as a cast (`floatToSizeT`); `SizeTConvertible` is the
  range in which the source defines that conversion.
-/

namespace SlowReverb

/-! ## Integer conversions -/

/-- Conversion to a 32-bit `int` (two's complement wrap). -/
def castInt32 (x : Int) : Int := (x + 2147483648) % 4294967296 - 2147483648

/-- Conversion to a 64-bit `int64_t` (two's complement wrap). -/
def castInt64 (x : Int) : Int :=
  (x + 9223372036854775808) % 18446744073709551616 - 9223372036854775808

/-- Conversion to a 64-bit `size_t` (reduction modulo 2^64). -/
def castSizeT (x : Int) : Nat := (x % 18446744073709551616).toNat

/-! ## Ring buffer (`audio_engine.cpp`, lines 276-365) -/

/-- The fields of `AudioEngine` the ring buffer code reads and writes. -/
structure RingState (α : Type) where
  /-- Field `channelCount_` (`int32_t`). -/
  channelCount : Int
  /-- Field `ringCapacityFrames_` (`size_t`). -/
  ringCapacityFrames : Nat
  /-- Field `decodeRing_`, the backing array of interleaved samples. -/
  decodeRing : List α
  /-- Field `ringWriteIndex_`, a frame cursor. -/
  ringWriteIndex : Int
  /-- Field `ringReadIndex_`, a frame cursor. -/
  ringReadIndex : Int

/-- Copy of `n` elements: `memcpy(dst + dstOff, src + srcOff, n * sizeof(float))`. -/
def memcpy {α : Type} (dst : List α) (dstOff : Nat) (src : List α) (srcOff n : Nat) : List α :=
  dst.take dstOff ++ ((src.drop srcOff).take n ++ dst.drop (dstOff + n))

/-- Method `AudioEngine::initRingBuffer`: two seconds of frames, zero filled, both
cursors at 0.  (The two scratch vectors it clears hold no ring state.) -/
def initRingBuffer {α : Type} [Zero α] (s : RingState α) (sampleRate channels : Int) :
    RingState α :=
  let ringCapacityFrames := castSizeT sampleRate * 2
  let samples := ringCapacityFrames * castSizeT channels
  { s with
    ringCapacityFrames := ringCapacityFrames
    decodeRing := List.replicate samples 0
    ringWriteIndex := 0
    ringReadIndex := 0 }

/-- Method `AudioEngine::writeFrames`: copy `frames` frames of `src` into the ring
from frame position `frameIndex % capacity`, split in two when they pass the end of
the backing array. -/
def writeFrames {α : Type} (s : RingState α) (frameIndex : Int) (src : List α) (frames : Int) :
    RingState α :=
  if frames ≤ 0 ∨ s.ringCapacityFrames = 0 then s
  else
    let capacity := s.ringCapacityFrames
    let channels := castSizeT s.channelCount
    let head := castSizeT (Int.tmod frameIndex (castInt64 capacity))
    let framesToEnd := castSizeT ((capacity : Int) - (head : Int))
    let firstFrames := min frames (castInt32 framesToEnd)
    let samplesFirst := castSizeT firstFrames * channels
    let ring1 := memcpy s.decodeRing (head * channels) src 0 samplesFirst
    let remainingFrames := frames - firstFrames
    let ring2 :=
      if remainingFrames > 0 then
        memcpy ring1 0 src samplesFirst (castSizeT remainingFrames * channels)
      else ring1
    { s with decodeRing := ring2 }

/-- Method `AudioEngine::readFrames`: copy `frames` frames of the ring from frame
position `frameIndex % capacity` to the start of `dst`; the result is `dst` after
the call. -/
def readFrames {α : Type} (s : RingState α) (frameIndex : Int) (dst : List α) (frames : Int) :
    List α :=
  if frames ≤ 0 ∨ s.ringCapacityFrames = 0 then dst
  else
    let capacity := s.ringCapacityFrames
    let channels := castSizeT s.channelCount
    let tail := castSizeT (Int.tmod frameIndex (castInt64 capacity))
    let framesToEnd := castSizeT ((capacity : Int) - (tail : Int))
    let firstFrames := min frames (castInt32 framesToEnd)
    let samplesFirst := castSizeT firstFrames * channels
    let dst1 := memcpy dst 0 s.decodeRing (tail * channels) samplesFirst
    let remainingFrames := frames - firstFrames
    if remainingFrames > 0 then
      memcpy dst1 samplesFirst s.decodeRing 0 (castSizeT remainingFrames * channels)
    else dst1

/-- Method `AudioEngine::pushToRing`, run to completion: the new state and the
returned frame count.  (The locals `read` and `used` the source updates after the
`fetch_add` are not read again.) -/
def pushToRing {α : Type} (s : RingState α) (data : List α) (frames : Int) :
    RingState α × Int :=
  if s.ringCapacityFrames = 0 ∨ frames ≤ 0 then (s, 0)
  else
    let capacity := s.ringCapacityFrames
    let oversized : Bool := decide (frames > castInt32 capacity)
    let skip := frames - castInt32 capacity
    let data1 := if oversized then data.drop (skip * s.channelCount).toNat else data
    let frames1 := if oversized then castInt32 capacity else frames
    let write := s.ringWriteIndex
    let read := s.ringReadIndex
    let used := castSizeT (write - read)
    let freeSpace := if capacity > used then capacity - used else 0
    let s1 :=
      if castSizeT frames1 > freeSpace then
        let drop := castSizeT frames1 - freeSpace
        { s with ringReadIndex := s.ringReadIndex + castInt64 drop }
      else s
    let s2 := writeFrames s1 write data1 frames1
    ({ s2 with ringWriteIndex := write + frames1 }, frames1)

/-- Method `AudioEngine::popFromRing`, run to completion: the new state, the
destination buffer after the call and the returned frame count. -/
def popFromRing {α : Type} (s : RingState α) (dst : List α) (maxFrames : Int) :
    RingState α × List α × Int :=
  if s.ringCapacityFrames = 0 ∨ maxFrames ≤ 0 then (s, dst, 0)
  else
    let write := s.ringWriteIndex
    let read := s.ringReadIndex
    let available := write - read
    if available ≤ 0 then (s, dst, 0)
    else
      let frames := min maxFrames (castInt32 available)
      let dst1 := readFrames s read dst frames
      ({ s with ringReadIndex := s.ringReadIndex + frames }, dst1, frames)

/-- One call on the ring, with its arguments. -/
inductive RingOp (α : Type) where
  | push (data : List α) (frames : Int)
  | pop (dst : List α) (maxFrames : Int)

/-- The state after one call. -/
def RingOp.apply {α : Type} (s : RingState α) : RingOp α → RingState α
  | .push data frames => (pushToRing s data frames).1
  | .pop dst maxFrames => (popFromRing s dst maxFrames).1

/-- The state after a sequence of calls executed one after another. -/
def runOps {α : Type} (s : RingState α) (ops : List (RingOp α)) : RingState α :=
  ops.foldl RingOp.apply s

/-- The cursor invariant `0 ≤ write - read ≤ capacity`. -/
def CursorInv {α : Type} (s : RingState α) : Prop :=
  0 ≤ s.ringWriteIndex - s.ringReadIndex ∧
    s.ringWriteIndex - s.ringReadIndex ≤ (s.ringCapacityFrames : Int)

/-- The frame counts of a run: frames accepted by the pushes (the sum of the values
`pushToRing` returned), frames delivered by the pops (the sum of the values
`popFromRing` returned) and unread frames dropped by the pushes (the sum of the
amounts by which a push advanced the read cursor). -/
structure RingTally where
  pushed : Int
  popped : Int
  dropped : Int

/-- The tally of the calls `ops` run from state `s`. -/
def ringTally {α : Type} (s : RingState α) : List (RingOp α) → RingTally
  | [] => ⟨0, 0, 0⟩
  | .push data frames :: ops =>
    let r := pushToRing s data frames
    let t := ringTally r.1 ops
    ⟨r.2 + t.pushed, t.popped, (r.1.ringReadIndex - s.ringReadIndex) + t.dropped⟩
  | .pop dst maxFrames :: ops =>
    let r := popFromRing s dst maxFrames
    let t := ringTally r.1 ops
    ⟨t.pushed, r.2.2 + t.popped, t.dropped⟩

/-- The samples each pop of a run delivers, in call order: the first
`count * channels` samples of its destination buffer after the call. -/
def ringDelivered {α : Type} (s : RingState α) : List (RingOp α) → List (List α)
  | [] => []
  | .push data frames :: ops => ringDelivered (pushToRing s data frames).1 ops
  | .pop dst maxFrames :: ops =>
    let r := popFromRing s dst maxFrames
    r.2.1.take (r.2.2 * s.channelCount).toNat :: ringDelivered r.1 ops

/-- A push whose source buffer holds the `frames` frames it announces. -/
def RingOp.WellFormed {α : Type} (channels : Int) : RingOp α → Prop
  | .push data frames => 0 < frames → (frames * channels).toNat ≤ data.length
  | .pop _ _ => True

/-! ## The bounded FIFO of the specification (section 4.1) -/

/-- The newest `n` elements of a list. -/
def keepNewest {α : Type} (n : Nat) (l : List α) : List α := l.drop (l.length - n)

/-- Drop-oldest bounded FIFO: the queued samples, oldest first, `channels` samples to
a frame, at most `capacity` frames. -/
structure BoundedFifo (α : Type) where
  capacity : Nat
  channels : Nat
  queue : List α

/-- Push of the specification: append the block, then keep the newest `capacity`
frames. -/
def BoundedFifo.push {α : Type} (q : BoundedFifo α) (block : List α) : BoundedFifo α :=
  { q with queue := keepNewest (q.capacity * q.channels) (q.queue ++ block) }

/-- Pop of the specification: remove `min maxFrames available` frames from the front
and deliver them. -/
def BoundedFifo.pop {α : Type} (q : BoundedFifo α) (maxFrames : Nat) :
    BoundedFifo α × List α :=
  let n := min maxFrames (q.queue.length / q.channels)
  ({ q with queue := q.queue.drop (n * q.channels) }, q.queue.take (n * q.channels))

/-- The block a push call announces: the first `frames` frames of its buffer. -/
def pushedBlock {α : Type} (channels : Nat) (data : List α) (frames : Int) : List α :=
  data.take (frames.toNat * channels)

/-- The samples each pop delivers when the calls `ops` are run on the bounded FIFO. -/
def fifoDelivered {α : Type} (q : BoundedFifo α) : List (RingOp α) → List (List α)
  | [] => []
  | .push data frames :: ops => fifoDelivered (q.push (pushedBlock q.channels data frames)) ops
  | .pop _ maxFrames :: ops =>
    let r := q.pop maxFrames.toNat
    r.2 :: fifoDelivered r.1 ops

/-- All samples a sequence of push calls announces, oldest first. -/
def pushedSamples {α : Type} (channels : Nat) : List (List α × Int) → List α
  | [] => []
  | (data, frames) :: rest => pushedBlock channels data frames ++ pushedSamples channels rest

/-- The number of frames a sequence of push calls announces. -/
def pushedFrames {α : Type} : List (List α × Int) → Nat
  | [] => 0
  | (_, frames) :: rest => frames.toNat + pushedFrames rest

/-- The refinement relation between the ring and the bounded FIFO: same geometry, the
cursor invariant, and the queue is what lies in the ring from the read cursor to the
write cursor, wrapping past the end of the backing array. -/
structure RingRel {α : Type} (s : RingState α) (q : BoundedFifo α) : Prop where
  cap : s.ringCapacityFrames = q.capacity
  capPos : 0 < q.capacity
  capLt : q.capacity < 2147483648
  chan : s.channelCount = (q.channels : Int)
  chanPos : 0 < q.channels
  chanLt : q.channels < 2147483648
  len : s.decodeRing.length = q.capacity * q.channels
  readNonneg : 0 ≤ s.ringReadIndex
  inv : CursorInv s
  content : q.queue = (s.decodeRing.rotate (s.ringReadIndex.toNat * q.channels)).take
    ((s.ringWriteIndex - s.ringReadIndex).toNat * q.channels)

/-- The bounded FIFO after the calls `ops`. -/
def fifoRun {α : Type} (q : BoundedFifo α) : List (RingOp α) → BoundedFifo α
  | [] => q
  | .push data frames :: ops => fifoRun (q.push (pushedBlock q.channels data frames)) ops
  | .pop _ maxFrames :: ops => fifoRun (q.pop maxFrames.toNat).1 ops

/-! ## Parameter smoother (`audio_engine.cpp`, lines 38-65 and 209-274) -/

/-- Library function `std::clamp(v, lo, hi)`. -/
def clamp {K : Type} [LinearOrder K] (v lo hi : K) : K :=
  if v < lo then lo else if hi < v then hi else v

/-- Library function `std::max(a, b)`. -/
def stdMax {K : Type} [LinearOrder K] (a b : K) : K := if a < b then b else a

/-- The target atomics and the smoothed current values of `AudioEngine`. -/
structure SmootherState (K : Type) where
  targetTempo : K
  targetPitch : K
  targetWet : K
  targetDecay : K
  targetTone : K
  targetRoom : K
  targetEcho : K
  currentTempo : K
  pitchSemi : K
  wetMix : K
  decaySeconds : K
  toneBalance : K
  roomSize : K
  echoMs : K

/-- The member initialisers of `audio_engine.h` (lines 69-73 and 77-85). -/
def SmootherState.initial {K : Type} [LinearOrderedField K] : SmootherState K where
  targetTempo := 1
  targetPitch := 0
  targetWet := 25 / 100
  targetDecay := 6
  targetTone := 6 / 10
  targetRoom := 8 / 10
  targetEcho := 0
  currentTempo := 1
  pitchSemi := 0
  wetMix := 25 / 100
  decaySeconds := 6
  toneBalance := 6 / 10
  roomSize := 8 / 10
  echoMs := 0

/-- Method `AudioEngine::setTempo`. -/
def setTempo {K : Type} [LinearOrderedField K] (s : SmootherState K) (tempo : K) :
    SmootherState K :=
  { s with targetTempo := clamp tempo (5 / 10) (15 / 10) }

/-- Method `AudioEngine::setPitchSemiTones`. -/
def setPitchSemiTones {K : Type} (s : SmootherState K) (semi : K) : SmootherState K :=
  { s with targetPitch := semi }

/-- Method `AudioEngine::setWet`. -/
def setWet {K : Type} [LinearOrderedField K] (s : SmootherState K) (wet : K) : SmootherState K :=
  { s with targetWet := clamp wet 0 1 }

/-- Method `AudioEngine::setDecay`. -/
def setDecay {K : Type} [LinearOrderedField K] (s : SmootherState K) (seconds : K) :
    SmootherState K :=
  { s with targetDecay := clamp seconds (2 / 10) 12 }

/-- Method `AudioEngine::setTone`. -/
def setTone {K : Type} [LinearOrderedField K] (s : SmootherState K) (tone : K) :
    SmootherState K :=
  { s with targetTone := clamp tone 0 1 }

/-- Method `AudioEngine::setRoomSize`. -/
def setRoomSize {K : Type} [LinearOrderedField K] (s : SmootherState K) (room : K) :
    SmootherState K :=
  { s with targetRoom := clamp room 0 1 }

/-- Method `AudioEngine::setEcho`. -/
def setEcho {K : Type} [LinearOrderedField K] (s : SmootherState K) (echoMs : K) :
    SmootherState K :=
  { s with targetEcho := stdMax 0 echoMs }

/-- One call of a setter of the control API, with its argument. -/
inductive SetterCall (K : Type) where
  | tempo (x : K)
  | pitch (x : K)
  | wet (x : K)
  | decay (x : K)
  | tone (x : K)
  | room (x : K)
  | echo (x : K)

/-- The state after one setter call. -/
def SetterCall.apply {K : Type} [LinearOrderedField K] (s : SmootherState K) :
    SetterCall K → SmootherState K
  | .tempo x => setTempo s x
  | .pitch x => setPitchSemiTones s x
  | .wet x => setWet s x
  | .decay x => setDecay s x
  | .tone x => setTone s x
  | .room x => setRoomSize s x
  | .echo x => setEcho s x

/-- The targets lie in their ranges. -/
def TargetsInRange {K : Type} [LinearOrderedField K] (s : SmootherState K) : Prop :=
  (5 / 10 ≤ s.targetTempo ∧ s.targetTempo ≤ 15 / 10) ∧
  (0 ≤ s.targetWet ∧ s.targetWet ≤ 1) ∧
  (2 / 10 ≤ s.targetDecay ∧ s.targetDecay ≤ 12) ∧
  (0 ≤ s.targetTone ∧ s.targetTone ≤ 1) ∧
  (0 ≤ s.targetRoom ∧ s.targetRoom ≤ 1) ∧
  0 ≤ s.targetEcho

/-- Method `AudioEngine::smoothTowards`. -/
def smoothTowards {K : Type} [LinearOrderedField K] (current target factor : K) : K :=
  let delta := target - current
  if |delta| < 1 / 10000 then target else current + delta * factor

/-- A reconfiguration call `updateSmoothedParameters` makes downstream: on the
time-stretch engine (`setTempo`, `setPitchSemiTones`) or on the reverb
(`setParameters`, which resizes the delay lines). -/
inductive DownstreamCall (K : Type) where
  | setTempo (tempo : K)
  | setPitchSemiTones (semi : K)
  | setParameters (wet decay tone room echo : K)

/-- Method `AudioEngine::updateSmoothedParameters`: the new state and the downstream
calls made, in order. -/
def updateSmoothedParameters {K : Type} [LinearOrderedField K] (s : SmootherState K) :
    SmootherState K × List (DownstreamCall K) :=
  let kTempoSmooth : K := 12 / 100
  let kReverbSmooth : K := 8 / 100
  let tempoTarget := s.targetTempo
  let pitchTarget := s.targetPitch
  let tempoNext := smoothTowards s.currentTempo tempoTarget kTempoSmooth
  let pitchNext := smoothTowards s.pitchSemi pitchTarget kTempoSmooth
  let tempoChanged : Bool := decide (|tempoNext - s.currentTempo| > 5 / 10000)
  let pitchChanged : Bool := decide (|pitchNext - s.pitchSemi| > 5 / 10000)
  let calls1 : List (DownstreamCall K) :=
    if tempoChanged || pitchChanged then
      (if tempoChanged then [DownstreamCall.setTempo tempoNext] else []) ++
        (if pitchChanged then [DownstreamCall.setPitchSemiTones pitchNext] else [])
    else []
  let s1 := { s with currentTempo := tempoNext, pitchSemi := pitchNext }
  let wetNext := smoothTowards s1.wetMix s1.targetWet kReverbSmooth
  let decayNext := smoothTowards s1.decaySeconds s1.targetDecay kReverbSmooth
  let toneNext := smoothTowards s1.toneBalance s1.targetTone kReverbSmooth
  let roomNext := smoothTowards s1.roomSize s1.targetRoom kReverbSmooth
  let echoNext := smoothTowards s1.echoMs s1.targetEcho kReverbSmooth
  let reverbNeedsUpdate : Bool :=
    decide (|wetNext - s1.wetMix| > 5 / 10000) ||
    decide (|decayNext - s1.decaySeconds| > 5 / 10000) ||
    decide (|toneNext - s1.toneBalance| > 5 / 10000) ||
    decide (|roomNext - s1.roomSize| > 5 / 10000) ||
    decide (|echoNext - s1.echoMs| > 5 / 10000)
  if reverbNeedsUpdate then
    ({ s1 with wetMix := wetNext, decaySeconds := decayNext, toneBalance := toneNext,
               roomSize := roomNext, echoMs := echoNext },
      calls1 ++ [DownstreamCall.setParameters wetNext decayNext toneNext roomNext echoNext])
  else (s1, calls1)

/-- The state after `n` calls of `updateSmoothedParameters` with no setter call in
between. -/
def advance {K : Type} [LinearOrderedField K] : Nat → SmootherState K → SmootherState K
  | 0, s => s
  | n + 1, s => advance n (updateSmoothedParameters s).1

/-! ## Reverb network (`simple_reverb.cpp`) -/

/-- A counted loop `for (int i = 0; i < n; ++i) body`, run on a state. -/
def forLoop {σ : Type} (n : Nat) (body : Nat → σ → σ) (s : σ) : σ :=
  (List.range n).foldl (fun acc i => body i acc) s

/-- Library function `std::vector::resize(n, v)`: the first `n` elements are kept,
missing ones are copies of `v`. -/
def vectorResize {α : Type} (l : List α) (n : Nat) (v : α) : List α :=
  l.take n ++ List.replicate (n - l.length) v

/-- The element reference `auto& x = v[j]` followed by an update of `x`. -/
def updateAt {α : Type} (l : List α) (j : Nat) (f : α → α) : List α :=
  match l[j]? with
  | some x => l.set j (f x)
  | none => l

/-- Struct `SimpleReverb::DelayLine`. -/
structure DelayLine (K : Type) where
  buffer : List K
  index : Nat
deriving Inhabited

/-- The fields of `SimpleReverb`. -/
structure SimpleReverb (K : Type) where
  sampleRate : Int
  channels : Int
  wet : K
  decay : K
  tone : K
  room : K
  echoMs : K
  combLines : List (DelayLine K)
  echoLines : List (DelayLine K)

/-- The member initialisers of `simple_reverb.h`. -/
def SimpleReverb.initial {K : Type} [LinearOrderedField K] : SimpleReverb K where
  sampleRate := 48000
  channels := 2
  wet := 25 / 100
  decay := 6 / 10
  tone := 6 / 10
  room := 8 / 10
  echoMs := 0
  combLines := []
  echoLines := []

/-- Constant `kCombCount`. -/
def kCombCount : Nat := 4

/-- Constant `kEchoCount`. -/
def kEchoCount : Nat := 2

/-- Table `combBaseMs` of `ensureLines`. -/
def combBaseMs (i : Nat) : Nat := [35, 47, 58, 67].getD i 0

/-- Table `echoBaseMs` of `ensureLines`. -/
def echoBaseMs (i : Nat) : Nat := [120, 180].getD i 0

/-- Rounding of a real to the nearest integer, a tie going to the even one. -/
def roundHalfEven {K : Type} [LinearOrderedField K] [FloorRing K] (y : K) : Int :=
  if y - (Int.floor y : K) < 1 / 2 then Int.floor y
  else if 1 / 2 < y - (Int.floor y : K) then Int.floor y + 1
  else if Int.floor y % 2 = 0 then Int.floor y
  else Int.floor y + 1

/-- The binary exponent of a binary32 number of the size of `x`: `floor(log2 |x|)`, and
`-126` in the subnormal range (and for 0). -/
def binary32Exponent {K : Type} [LinearOrderedField K] [FloorRing K] (x : K) : Int :=
  max (Int.log 2 |x|) (-126)

/-- The result of a `float` operation whose exact value is `x`: the binary32 number nearest
to `x`, a tie going to the even significand (24 significant bits, subnormals below
`2^-126`).  A value beyond the largest finite `float` stands for the infinity the operation
returns there; both lie outside the range of `size_t`. -/
def roundF32 {K : Type} [LinearOrderedField K] [FloorRing K] (x : K) : K :=
  (roundHalfEven (x / (2 : K) ^ (binary32Exponent x - 23)) : K)
    * (2 : K) ^ (binary32Exponent x - 23)

/-- Truncation towards zero, the integer a conversion of a `float` to an integer type
takes. -/
def truncToInt {K : Type} [LinearOrderedField K] [FloorRing K] (x : K) : Int :=
  if 0 ≤ x then Int.floor x else Int.ceil x

/-- The range in which `static_cast<size_t>(x)` of a `float` is defined: the truncated
value fits a `size_t`. -/
def SizeTConvertible {K : Type} [LinearOrderedField K] (x : K) : Prop :=
  -1 < x ∧ x < 18446744073709551616

/-- Conversion `static_cast<size_t>(x)` of a `float`: truncation, kept as a wrapping cast.
The source defines the conversion only for `SizeTConvertible x`; outside that range the
value chosen here has no counterpart in the source. -/
def floatToSizeT {K : Type} [LinearOrderedField K] [FloorRing K] (x : K) : Nat :=
  castSizeT (truncToInt x)

/-- The `float` expression `delayMs * sampleRate_ / 1000.0f` of the comb loop of
`ensureLines`, with `roomScale = 0.5f + room_ * 0.8f` and
`delayMs = combBaseMs[i] * roomScale`: every operation, the literal `0.8f` and the
conversion of `sampleRate_` round to binary32 (`0.5f`, `1000.0f` and the table values are
binary32 numbers). -/
def combDelaySamples {K : Type} [LinearOrderedField K] [FloorRing K] (r : SimpleReverb K)
    (i : Nat) : K :=
  let roomScale : K := roundF32 (1 / 2 + roundF32 (r.room * roundF32 (8 / 10)))
  let delayMs : K := roundF32 ((combBaseMs i : K) * roomScale)
  roundF32 (roundF32 (delayMs * roundF32 (r.sampleRate : K)) / 1000)

/-- The `float` expression `delayMs * sampleRate_ / 1000.0f` of the echo loop of
`ensureLines`, with `delayMs = echoBaseMs[i] + echoMs_`. -/
def echoDelaySamples {K : Type} [LinearOrderedField K] [FloorRing K] (r : SimpleReverb K)
    (i : Nat) : K :=
  let delayMs : K := roundF32 ((echoBaseMs i : K) + r.echoMs)
  roundF32 (roundF32 (delayMs * roundF32 (r.sampleRate : K)) / 1000)

/-- The length `ensureLines` gives comb line `i`:
`static_cast<size_t>(delayMs * sampleRate_ / 1000.0f) + 1`, the addition in `size_t`. -/
def combSamples {K : Type} [LinearOrderedField K] [FloorRing K] (r : SimpleReverb K) (i : Nat) :
    Nat :=
  (floatToSizeT (combDelaySamples r i) + 1) % 18446744073709551616

/-- The length `ensureLines` gives echo line `i`:
`static_cast<size_t>(delayMs * sampleRate_ / 1000.0f) + 1`, the addition in `size_t`. -/
def echoSamples {K : Type} [LinearOrderedField K] [FloorRing K] (r : SimpleReverb K) (i : Nat) :
    Nat :=
  (floatToSizeT (echoDelaySamples r i) + 1) % 18446744073709551616

/-- The body of the inner loops of `ensureLines`: resize the buffer, reduce the
cursor. -/
def resizeLine {K : Type} [Zero K] (samples : Nat) (line : DelayLine K) : DelayLine K :=
  ⟨vectorResize line.buffer samples 0, line.index % samples⟩

/-- Method `SimpleReverb::ensureLines`. -/
def ensureLines {K : Type} [LinearOrderedField K] [FloorRing K] (r : SimpleReverb K) :
    SimpleReverb K :=
  let comb0 := vectorResize r.combLines (castSizeT (r.channels * kCombCount)) default
  let comb := forLoop r.channels.toNat (fun ch lines =>
    forLoop kCombCount (fun i lines =>
      updateAt lines (ch * kCombCount + i) (resizeLine (combSamples r i))) lines) comb0
  let echo0 := vectorResize r.echoLines (castSizeT (r.channels * kEchoCount)) default
  let echo := forLoop r.channels.toNat (fun ch lines =>
    forLoop kEchoCount (fun i lines =>
      updateAt lines (ch * kEchoCount + i) (resizeLine (echoSamples r i))) lines) echo0
  { r with combLines := comb, echoLines := echo }

/-- Method `SimpleReverb::configure`. -/
def configure {K : Type} [LinearOrderedField K] [FloorRing K] (r : SimpleReverb K)
    (sampleRate channels : Int) : SimpleReverb K :=
  ensureLines { r with sampleRate := stdMax 1 sampleRate, channels := stdMax 1 channels }

/-- Method `SimpleReverb::setParameters`. -/
def setParameters {K : Type} [LinearOrderedField K] [FloorRing K] (r : SimpleReverb K)
    (wet decay tone room echo : K) : SimpleReverb K :=
  ensureLines { r with
    wet := clamp wet 0 1
    decay := clamp decay (1 / 10) 12
    tone := clamp tone 0 1
    room := clamp room 0 1
    echoMs := stdMax 0 echo }

/-- One tap of `process`: read the delayed sample at the cursor, write
`dry + delayed * gain` there and advance the cursor modulo the line length. -/
def tapLine {K : Type} [LinearOrderedField K] (dry gain : K) (line : DelayLine K) :
    DelayLine K :=
  let delayed := line.buffer.getD line.index 0
  ⟨line.buffer.set line.index (dry + delayed * gain), (line.index + 1) % line.buffer.length⟩

/-- The delayed sample a tap reads. -/
def delayedSample {K : Type} [Zero K] (lines : List (DelayLine K)) (j : Nat) : K :=
  match lines[j]? with
  | some line => line.buffer.getD line.index 0
  | none => 0

/-- The state of the sample loops of `process`: the delay lines, the interleaved
buffer and the accumulator `accum`. -/
structure ProcessState (K : Type) where
  combLines : List (DelayLine K)
  echoLines : List (DelayLine K)
  interleaved : List K
  accum : K

/-- The body of the two channel loops of `process` for one frame and channel. -/
def processSample {K : Type} [LinearOrderedField K] (channels : Nat) (wet combGain echoGain : K)
    (frame ch : Nat) (st : ProcessState K) : ProcessState K :=
  let dryMix := 1 - wet
  let idx := frame * channels + ch
  let dry := st.interleaved.getD idx 0
  let st0 := { st with accum := 0 }
  let st1 := forLoop kCombCount (fun i (s : ProcessState K) =>
    { s with
      combLines := updateAt s.combLines (ch * kCombCount + i) (tapLine dry combGain)
      accum := s.accum + delayedSample s.combLines (ch * kCombCount + i) }) st0
  let st2 := forLoop kEchoCount (fun i (s : ProcessState K) =>
    { s with
      echoLines := updateAt s.echoLines (ch * kEchoCount + i) (tapLine dry echoGain)
      accum := s.accum + delayedSample s.echoLines (ch * kEchoCount + i) * (5 / 10) }) st1
  let wetSample := st2.accum / ((kCombCount : K) + (kEchoCount : K) * (5 / 10))
  { st2 with interleaved := st2.interleaved.set idx (dry * dryMix + wetSample * wet) }

/-- Method `SimpleReverb::process`: the reverb and the interleaved buffer after the
call. -/
def process {K : Type} [LinearOrderedField K] (r : SimpleReverb K) (interleaved : List K)
    (frames : Int) : SimpleReverb K × List K :=
  if frames ≤ 0 ∨ r.wet ≤ 0 then (r, interleaved)
  else
    let combGain := clamp (r.decay / 8) (5 / 100) (9 / 10)
    let echoGain := clamp (2 / 10 + r.tone * (4 / 10)) (2 / 10) (7 / 10)
    let st := forLoop frames.toNat (fun frame st =>
      forLoop r.channels.toNat (fun ch st =>
        processSample r.channels.toNat r.wet combGain echoGain frame ch st) st)
      (⟨r.combLines, r.echoLines, interleaved, 0⟩ : ProcessState K)
    ({ r with combLines := st.combLines, echoLines := st.echoLines }, st.interleaved)

/-- One call on the reverb, with its arguments. -/
inductive ReverbOp (K : Type) where
  | setParameters (wet decay tone room echo : K)
  | process (interleaved : List K) (frames : Int)

/-- The reverb after one call. -/
def ReverbOp.apply {K : Type} [LinearOrderedField K] [FloorRing K] (r : SimpleReverb K) :
    ReverbOp K → SimpleReverb K
  | .setParameters wet decay tone room echo =>
    SlowReverb.setParameters r wet decay tone room echo
  | .process interleaved frames => (SlowReverb.process r interleaved frames).1

/-- The reverb after a sequence of calls. -/
def runReverb {K : Type} [LinearOrderedField K] [FloorRing K] (r : SimpleReverb K)
    (ops : List (ReverbOp K)) : SimpleReverb K :=
  ops.foldl ReverbOp.apply r

/-- Every delay line has a buffer of length at least 1 and a cursor inside it, and
there are `channels * 4` comb lines and `channels * 2` echo lines. -/
def LinesOk {K : Type} (r : SimpleReverb K) : Prop :=
  r.combLines.length = r.channels.toNat * kCombCount ∧
  r.echoLines.length = r.channels.toNat * kEchoCount ∧
  (∀ line ∈ r.combLines, 1 ≤ line.buffer.length ∧ line.index < line.buffer.length) ∧
  (∀ line ∈ r.echoLines, 1 ≤ line.buffer.length ∧ line.index < line.buffer.length)

/-- The parameters from which `ensureLines` computes the line lengths lie where every
conversion to `size_t` is defined: room size in `[0, 1]` (the range `setParameters` clamps
to), echo time in `[0, 2^40]` ms and a sample rate that is a non-negative `int32_t`. -/
def DelayInRange {K : Type} [LinearOrderedField K] (r : SimpleReverb K) : Prop :=
  0 ≤ r.room ∧ r.room ≤ 1 ∧ 0 ≤ r.echoMs ∧ r.echoMs ≤ 1099511627776 ∧
    0 ≤ r.sampleRate ∧ r.sampleRate < 2147483648

/-- A call whose echo time, if it sets one, is at most `E` ms. -/
def ReverbOp.EchoAtMost {K : Type} [LinearOrderedField K] (E : K) : ReverbOp K → Prop
  | .setParameters _ _ _ _ echo => echo ≤ E
  | .process _ _ => True

/-! ## Render callback (`audio_engine.cpp`, lines 154-191) -/

/-- The time-stretch engine (SoundTouch, an external library): the operations the
render path calls, on an abstract engine state `ST`.  `receiveSamples st buf max`
returns the new state, the buffer after the call and the number of frames received. -/
structure TimeStretch (ST K : Type) where
  setTempo : ST → K → ST
  setPitchSemiTones : ST → K → ST
  putSamples : ST → List K → Int → ST
  receiveSamples : ST → List K → Int → ST × List K × Int

/-- The fields of `AudioEngine` the render callback reads and writes; `channelCount_`
is the field of the ring state. -/
structure AudioEngine (ST K : Type) where
  params : SmootherState K
  ring : RingState K
  ringScratch : List K
  tempBuffer : List K
  soundTouch : ST
  reverb : SimpleReverb K
  playedFrames : Int

/-- One downstream call of `updateSmoothedParameters`, carried out on the engine. -/
def applyDownstream {ST K : Type} [LinearOrderedField K] [FloorRing K] (ts : TimeStretch ST K)
    (e : AudioEngine ST K) : DownstreamCall K → AudioEngine ST K
  | .setTempo tempo => { e with soundTouch := ts.setTempo e.soundTouch tempo }
  | .setPitchSemiTones semi => { e with soundTouch := ts.setPitchSemiTones e.soundTouch semi }
  | .setParameters wet decay tone room echo =>
    { e with reverb := SlowReverb.setParameters e.reverb wet decay tone room echo }

/-- The call `updateSmoothedParameters()` at the head of the callback, with its
downstream calls carried out. -/
def updateEngine {ST K : Type} [LinearOrderedField K] [FloorRing K] (ts : TimeStretch ST K)
    (e : AudioEngine ST K) : AudioEngine ST K :=
  let u := updateSmoothedParameters e.params
  u.2.foldl (applyDownstream ts) { e with params := u.1 }

/-- The loop `while (true)` that drains the ring into the time-stretch engine in
chunks of `kChunk = 1024` frames. -/
def drainLoop {ST K : Type} (ts : TimeStretch ST K) (e : AudioEngine ST K) : AudioEngine ST K :=
  if (popFromRing e.ring e.ringScratch 1024).2.2 ≤ 0 then
    { e with ring := (popFromRing e.ring e.ringScratch 1024).1
             ringScratch := (popFromRing e.ring e.ringScratch 1024).2.1 }
  else if (popFromRing e.ring e.ringScratch 1024).2.2 < 1024 then
    { e with ring := (popFromRing e.ring e.ringScratch 1024).1
             ringScratch := (popFromRing e.ring e.ringScratch 1024).2.1
             soundTouch := ts.putSamples e.soundTouch
               (popFromRing e.ring e.ringScratch 1024).2.1
               (popFromRing e.ring e.ringScratch 1024).2.2 }
  else
    drainLoop ts
      { e with ring := (popFromRing e.ring e.ringScratch 1024).1
               ringScratch := (popFromRing e.ring e.ringScratch 1024).2.1
               soundTouch := ts.putSamples e.soundTouch
                 (popFromRing e.ring e.ringScratch 1024).2.1
                 (popFromRing e.ring e.ringScratch 1024).2.2 }
termination_by (e.ring.ringWriteIndex - e.ring.ringReadIndex).toNat
decreasing_by
  rename_i h1 h2
  revert h1 h2
  unfold popFromRing
  dsimp only
  split_ifs with c1 c2
  · intro h1; exact absurd (le_refl (0 : Int)) h1
  · intro h1; exact absurd (le_refl (0 : Int)) h1
  · dsimp only
    intro h1 h2
    omega

/-- The part of the callback between `updateSmoothedParameters()` and the render
loop. -/
def drainRing {ST K : Type} [Zero K] (ts : TimeStretch ST K) (e : AudioEngine ST K) :
    AudioEngine ST K :=
  if e.ring.ringCapacityFrames > 0 then
    let scratch := vectorResize e.ringScratch (castSizeT 1024 * castSizeT e.ring.channelCount) 0
    drainLoop ts { e with ringScratch := scratch }
  else e

/-- The state of the loop `while (framesRemaining > 0)`: `outPos` is the offset of the
pointer `out` in the output buffer `audioData`. -/
structure RenderState (ST K : Type) where
  soundTouch : ST
  reverb : SimpleReverb K
  tempBuffer : List K
  audioData : List K
  outPos : Nat
  framesRemaining : Int

/-- The loop `while (framesRemaining > 0)` of the callback. -/
def renderLoop {ST K : Type} [LinearOrderedField K] (ts : TimeStretch ST K) (channelCount : Int)
    (st : RenderState ST K) : RenderState ST K :=
  if st.framesRemaining > 0 then
    if (ts.receiveSamples st.soundTouch st.tempBuffer st.framesRemaining).2.2 ≤ 0 then
      { st with
        soundTouch := (ts.receiveSamples st.soundTouch st.tempBuffer st.framesRemaining).1
        tempBuffer := (ts.receiveSamples st.soundTouch st.tempBuffer st.framesRemaining).2.1
        audioData :=
          memcpy st.audioData st.outPos
            (List.replicate (st.framesRemaining * channelCount).toNat 0) 0
            (st.framesRemaining * channelCount).toNat }
    else
      renderLoop ts channelCount
        { soundTouch := (ts.receiveSamples st.soundTouch st.tempBuffer st.framesRemaining).1
          reverb := (process st.reverb
            (ts.receiveSamples st.soundTouch st.tempBuffer st.framesRemaining).2.1
            (ts.receiveSamples st.soundTouch st.tempBuffer st.framesRemaining).2.2).1
          tempBuffer := (process st.reverb
            (ts.receiveSamples st.soundTouch st.tempBuffer st.framesRemaining).2.1
            (ts.receiveSamples st.soundTouch st.tempBuffer st.framesRemaining).2.2).2
          audioData := memcpy st.audioData st.outPos
            (process st.reverb
              (ts.receiveSamples st.soundTouch st.tempBuffer st.framesRemaining).2.1
              (ts.receiveSamples st.soundTouch st.tempBuffer st.framesRemaining).2.2).2 0
            (castSizeT (ts.receiveSamples st.soundTouch st.tempBuffer st.framesRemaining).2.2
              * castSizeT channelCount)
          outPos := st.outPos
            + ((ts.receiveSamples st.soundTouch st.tempBuffer st.framesRemaining).2.2
                * channelCount).toNat
          framesRemaining := st.framesRemaining
            - (ts.receiveSamples st.soundTouch st.tempBuffer st.framesRemaining).2.2 }
  else st
termination_by st.framesRemaining.toNat
decreasing_by
  rename_i h1 h2
  omega

/-- Method `AudioEngine::onAudioReady`: the engine and the output buffer `audioData`
after the callback. -/
def onAudioReady {ST K : Type} [LinearOrderedField K] [FloorRing K] (ts : TimeStretch ST K)
    (e : AudioEngine ST K) (audioData : List K) (numFrames : Int) :
    AudioEngine ST K × List K :=
  let e1 := updateEngine ts e
  let e2 := drainRing ts e1
  let st := renderLoop ts e2.ring.channelCount
    { soundTouch := e2.soundTouch, reverb := e2.reverb, tempBuffer := e2.tempBuffer,
      audioData := audioData, outPos := 0, framesRemaining := numFrames }
  ({ e2 with soundTouch := st.soundTouch, reverb := st.reverb, tempBuffer := st.tempBuffer,
             playedFrames := e2.playedFrames + numFrames },
    st.audioData)

/-- A time-stretch engine that only counts buffered frames: `putSamples` adds to the count,
`receiveSamples` hands out at most what is buffered, tempo and pitch changes are ignored.  Used
to run `onAudioReady` on concrete values. -/
def countingStretch : TimeStretch Nat ℚ where
  setTempo st _ := st
  setPitchSemiTones st _ := st
  putSamples st _ n := st + n.toNat
  receiveSamples st buf maxFrames :=
    (st - (min (st : Int) maxFrames).toNat, buf, min (st : Int) maxFrames)

/-- An engine at rest: stereo ring of capacity 4 whose cursors coincide (empty ring), nothing
buffered in the time-stretch engine, 10 frames played so far. -/
def idleEngine : AudioEngine Nat ℚ where
  params := SmootherState.initial
  ring := { channelCount := 2, ringCapacityFrames := 4, decodeRing := List.replicate 8 0,
            ringWriteIndex := 3, ringReadIndex := 3 }
  ringScratch := []
  tempBuffer := []
  soundTouch := 0
  reverb := SimpleReverb.initial
  playedFrames := 10

/-! ## Producer and consumer interleaved (`audio_engine.cpp`, lines 331-365)

One producer thread runs `pushToRing`, one consumer thread runs `popFromRing`.  Every atomic
load, store and `fetch_add` on `ringWriteIndex_` and `ringReadIndex_` is one step; the
arithmetic between two atomic operations touches only locals of the thread and is folded into
the step that follows it.  The sample copies `writeFrames` and `readFrames` touch no cursor and
are left out. -/

/-- Where the producer stands inside `pushToRing`, with the locals it holds there. -/
inductive ProducerPc where
  /-- Outside `pushToRing`. -/
  | idle
  /-- After `write = ringWriteIndex_.load()` (line 339); `frames` is already truncated. -/
  | loadedWrite (frames write : Int)
  /-- After `read = ringReadIndex_.load()` (line 340). -/
  | loadedRead (frames write read : Int)
  /-- After `ringReadIndex_.fetch_add(drop)` (line 345), before the store of line 351. -/
  | dropped (frames write : Int)
deriving DecidableEq

/-- Where the consumer stands inside `popFromRing`, with the locals it holds there. -/
inductive ConsumerPc where
  /-- Outside `popFromRing`. -/
  | idle
  /-- After `write = ringWriteIndex_.load()` (line 357). -/
  | loadedWrite (maxFrames write : Int)
  /-- After `read = ringReadIndex_.load()` (line 358) with `available > 0`; `frames` is the
  count about to be added to the read cursor. -/
  | loadedRead (frames : Int)
deriving DecidableEq

/-- The two shared cursors, the capacity, and the position of each thread. -/
structure SpscState where
  /-- Field `ringCapacityFrames_`. -/
  ringCapacityFrames : Nat
  /-- Field `ringWriteIndex_`. -/
  ringWriteIndex : Int
  /-- Field `ringReadIndex_`. -/
  ringReadIndex : Int
  /-- Position of the producer thread. -/
  producer : ProducerPc
  /-- Position of the consumer thread. -/
  consumer : ConsumerPc
deriving DecidableEq

/-- The thread that takes the next step.  The number is the chunk size of the call the thread
starts if it is idle (`frames` of `pushToRing`, `maxFrames` of `popFromRing`); a thread in the
middle of a call ignores it. -/
inductive Thread where
  | producer (frames : Int)
  | consumer (maxFrames : Int)
deriving DecidableEq

/-- One atomic step of the producer inside `pushToRing` (lines 331-353). -/
def producerStep (s : SpscState) (frames : Int) : SpscState :=
  match s.producer with
  | .idle =>
    if s.ringCapacityFrames = 0 ∨ frames ≤ 0 then s
    else
      let capacity := s.ringCapacityFrames
      let frames1 := if frames > castInt32 capacity then castInt32 capacity else frames
      { s with producer := .loadedWrite frames1 s.ringWriteIndex }
  | .loadedWrite frames1 write =>
    { s with producer := .loadedRead frames1 write s.ringReadIndex }
  | .loadedRead frames1 write read =>
    let capacity := s.ringCapacityFrames
    let used := castSizeT (write - read)
    let freeSpace := if capacity > used then capacity - used else 0
    if castSizeT frames1 > freeSpace then
      let drop := castSizeT frames1 - freeSpace
      { s with ringReadIndex := s.ringReadIndex + castInt64 drop,
               producer := .dropped frames1 write }
    else
      { s with ringWriteIndex := write + frames1, producer := .idle }
  | .dropped frames1 write =>
    { s with ringWriteIndex := write + frames1, producer := .idle }

/-- One atomic step of the consumer inside `popFromRing` (lines 355-365). -/
def consumerStep (s : SpscState) (maxFrames : Int) : SpscState :=
  match s.consumer with
  | .idle =>
    if s.ringCapacityFrames = 0 ∨ maxFrames ≤ 0 then s
    else { s with consumer := .loadedWrite maxFrames s.ringWriteIndex }
  | .loadedWrite maxFrames1 write =>
    let read := s.ringReadIndex
    let available := write - read
    if available ≤ 0 then { s with consumer := .idle }
    else { s with consumer := .loadedRead (min maxFrames1 (castInt32 available)) }
  | .loadedRead frames =>
    { s with ringReadIndex := s.ringReadIndex + frames, consumer := .idle }

/-- One step of the interleaving: the scheduled thread performs its next atomic operation. -/
def spscStep (s : SpscState) : Thread → SpscState
  | .producer frames => producerStep s frames
  | .consumer maxFrames => consumerStep s maxFrames

/-- The state reached from `s` by a schedule, one atomic step per entry. -/
def runSchedule (s : SpscState) (schedule : List Thread) : SpscState :=
  schedule.foldl spscStep s

/-- The state `initRingBuffer` leaves: both cursors at 0, no call in progress. -/
def spscInit (capacity : Nat) : SpscState :=
  { ringCapacityFrames := capacity, ringWriteIndex := 0, ringReadIndex := 0,
    producer := .idle, consumer := .idle }

/-- The cursor invariant `0 ≤ write − read ≤ capacity` on the shared cursors. -/
def SpscCursorInv (s : SpscState) : Prop :=
  0 ≤ s.ringWriteIndex - s.ringReadIndex ∧
    s.ringWriteIndex - s.ringReadIndex ≤ (s.ringCapacityFrames : Int)

instance (s : SpscState) : Decidable (SpscCursorInv s) := by
  unfold SpscCursorInv; infer_instance

/-- A schedule on a ring of capacity `capacity`: the producer fills the ring with one push of
`capacity` frames (three atomic steps), starts a push of one frame and loads both cursors; the
consumer then runs one whole pop of `capacity` frames; the producer resumes with its
`fetch_add` on the read cursor. -/
def overtakingSchedule (capacity : Int) : List Thread :=
  [.producer capacity, .producer capacity, .producer capacity,
   .producer 1, .producer 1,
   .consumer capacity, .consumer capacity, .consumer capacity,
   .producer 1]

/-- The frame count the consumer has decided to add to the read cursor but has not added
yet. -/
def consumerPending : ConsumerPc → Int
  | .loadedRead frames => frames
  | _ => 0

/-- What the consumer knows about its locals at each position. -/
def ConsumerOk (s : SpscState) : Prop :=
  match s.consumer with
  | .idle => True
  | .loadedWrite maxFrames write => 0 < maxFrames ∧ write ≤ s.ringWriteIndex
  | .loadedRead frames => 0 < frames

/-- What the producer knows about its locals at each position, together with the lower bound
on `write − read` that holds there: the frames the consumer is about to take are still in the
ring, except that between the `fetch_add` and the store of a dropping push the bound is on
`write + frames − read`. -/
def ProducerOk (s : SpscState) : Prop :=
  match s.producer with
  | .idle => consumerPending s.consumer ≤ s.ringWriteIndex - s.ringReadIndex
  | .loadedWrite frames write =>
    write = s.ringWriteIndex ∧ 0 < frames ∧ frames ≤ (s.ringCapacityFrames : Int) ∧
      consumerPending s.consumer ≤ s.ringWriteIndex - s.ringReadIndex
  | .loadedRead frames write read =>
    write = s.ringWriteIndex ∧ 0 < frames ∧ frames ≤ (s.ringCapacityFrames : Int) ∧
      read ≤ s.ringReadIndex ∧ 0 ≤ write - read ∧
      write - read ≤ (s.ringCapacityFrames : Int) ∧
      consumerPending s.consumer ≤ s.ringWriteIndex - s.ringReadIndex
  | .dropped frames write =>
    write = s.ringWriteIndex ∧ 0 < frames ∧
      s.ringWriteIndex + frames - s.ringReadIndex ≤ (s.ringCapacityFrames : Int) ∧
      consumerPending s.consumer ≤ s.ringWriteIndex + frames - s.ringReadIndex

/-- The inductive invariant of the interleaving: the upper bound of the cursor invariant and
the facts about the locals of both threads that keep it. -/
def SpscInductive (s : SpscState) : Prop :=
  s.ringWriteIndex - s.ringReadIndex ≤ (s.ringCapacityFrames : Int) ∧
    ConsumerOk s ∧ ProducerOk s

/-- The cursors of a ring state, with both threads outside their calls. -/
def spscOfRing {α : Type} (r : RingState α) : SpscState :=
  { ringCapacityFrames := r.ringCapacityFrames, ringWriteIndex := r.ringWriteIndex,
    ringReadIndex := r.ringReadIndex, producer := .idle, consumer := .idle }

/-- One whole `pushToRing` call of the producer with no consumer step in between: the
atomic steps are taken until the producer is idle again (at most four). -/
def runProducerCall (s : SpscState) (frames : Int) : SpscState :=
  let s1 := producerStep s frames
  if s1.producer = .idle then s1
  else
    let s3 := producerStep (producerStep s1 frames) frames
    if s3.producer = .idle then s3 else producerStep s3 frames

/-- One whole `popFromRing` call of the consumer with no producer step in between: the
atomic steps are taken until the consumer is idle again (at most three). -/
def runConsumerCall (s : SpscState) (maxFrames : Int) : SpscState :=
  let s1 := consumerStep s maxFrames
  if s1.consumer = .idle then s1
  else
    let s2 := consumerStep s1 maxFrames
    if s2.consumer = .idle then s2 else consumerStep s2 maxFrames

/-! ## Theorems: ring buffer cursors -/

theorem writeFrames_cursors {α : Type} (s : RingState α) (i : Int) (src : List α) (n : Int) :
    (writeFrames s i src n).ringWriteIndex = s.ringWriteIndex ∧
    (writeFrames s i src n).ringReadIndex = s.ringReadIndex ∧
    (writeFrames s i src n).ringCapacityFrames = s.ringCapacityFrames ∧
    (writeFrames s i src n).channelCount = s.channelCount := by
  unfold writeFrames
  split <;> simp

theorem pushToRing_capacity {α : Type} (s : RingState α) (data : List α) (frames : Int) :
    (pushToRing s data frames).1.ringCapacityFrames = s.ringCapacityFrames ∧
    (pushToRing s data frames).1.channelCount = s.channelCount := by
  unfold pushToRing
  split_ifs
  · simp
  · simp only [(writeFrames_cursors _ _ _ _).2.2.1, (writeFrames_cursors _ _ _ _).2.2.2]
    constructor <;> split_ifs <;> rfl

theorem popFromRing_capacity {α : Type} (s : RingState α) (dst : List α) (maxFrames : Int) :
    (popFromRing s dst maxFrames).1.ringCapacityFrames = s.ringCapacityFrames ∧
    (popFromRing s dst maxFrames).1.channelCount = s.channelCount := by
  unfold popFromRing
  split_ifs
  · simp
  · simp only []
    constructor <;> split_ifs <;> rfl

theorem castInt32_of_range (x : Int) (h0 : -2147483648 ≤ x) (h1 : x < 2147483648) :
    castInt32 x = x := by
  unfold castInt32; omega

theorem castInt64_of_range (x : Int) (h0 : -9223372036854775808 ≤ x)
    (h1 : x < 9223372036854775808) : castInt64 x = x := by
  unfold castInt64; omega

theorem castSizeT_of_range (x : Int) (h0 : 0 ≤ x) (h1 : x < 18446744073709551616) :
    (castSizeT x : Int) = x := by
  unfold castSizeT; omega

theorem castSizeT_natCast (n : Nat) (h1 : n < 18446744073709551616) :
    castSizeT (n : Int) = n := by
  unfold castSizeT; omega

/-- The cursors after a push, when the capacity fits an `int`. -/
theorem pushToRing_cursors {α : Type} (s : RingState α) (data : List α) (frames : Int)
    (hC : s.ringCapacityFrames < 2147483648) (hinv : CursorInv s)
    (hpos : ¬ (s.ringCapacityFrames = 0 ∨ frames ≤ 0)) :
    (pushToRing s data frames).1.ringWriteIndex
        = s.ringWriteIndex + min frames s.ringCapacityFrames ∧
    (pushToRing s data frames).1.ringReadIndex
        = max s.ringReadIndex
            (s.ringWriteIndex + min frames s.ringCapacityFrames - s.ringCapacityFrames) ∧
    (pushToRing s data frames).2 = min frames s.ringCapacityFrames := by
  obtain ⟨h0, h1⟩ := hinv
  unfold pushToRing
  rw [if_neg hpos]
  simp only [(writeFrames_cursors _ _ _ _).2.1]
  have hc : castInt32 (s.ringCapacityFrames : Int) = s.ringCapacityFrames :=
    castInt32_of_range _ (by omega) (by omega)
  rw [hc]
  have hu : (castSizeT (s.ringWriteIndex - s.ringReadIndex) : Int)
      = s.ringWriteIndex - s.ringReadIndex := castSizeT_of_range _ h0 (by omega)
  push_neg at hpos
  by_cases hov : frames > (s.ringCapacityFrames : Int)
  · have e1 : min frames (s.ringCapacityFrames : Int) = s.ringCapacityFrames :=
      min_eq_right (le_of_lt hov)
    rw [e1]
    simp only [hov, decide_True, if_true]
    rw [castSizeT_natCast _ (by omega)]
    refine ⟨trivial, ?_, trivial⟩
    split_ifs
    all_goals (try dsimp only)
    all_goals (try rw [castInt64_of_range _ (by omega) (by omega)])
    all_goals omega
  · have e1 : min frames (s.ringCapacityFrames : Int) = frames := min_eq_left (not_lt.mp hov)
    have hf : (castSizeT frames : Int) = frames := castSizeT_of_range _ (by omega) (by omega)
    rw [e1]
    simp only [hov, decide_False, if_false, Bool.false_eq_true]
    refine ⟨trivial, ?_, trivial⟩
    split_ifs
    all_goals (try dsimp only)
    all_goals (try rw [castInt64_of_range _ (by omega) (by omega)])
    all_goals omega

/-- The cursors and the return value of a pop, when the capacity fits an `int`. -/
theorem popFromRing_cursors {α : Type} (s : RingState α) (dst : List α) (maxFrames : Int)
    (hC : s.ringCapacityFrames < 2147483648) (hinv : CursorInv s)
    (hpos : ¬ (s.ringCapacityFrames = 0 ∨ maxFrames ≤ 0)) :
    (popFromRing s dst maxFrames).1.ringWriteIndex = s.ringWriteIndex ∧
    (popFromRing s dst maxFrames).1.ringReadIndex
        = s.ringReadIndex + min maxFrames (s.ringWriteIndex - s.ringReadIndex) ∧
    (popFromRing s dst maxFrames).2.2 = min maxFrames (s.ringWriteIndex - s.ringReadIndex) := by
  obtain ⟨h0, h1⟩ := hinv
  unfold popFromRing
  rw [if_neg hpos]
  push_neg at hpos
  simp only []
  rw [castInt32_of_range _ (by omega) (by omega)]
  split_ifs with h
  · refine ⟨rfl, ?_, ?_⟩ <;> simp only [] <;> omega
  · exact ⟨rfl, rfl, rfl⟩

theorem initRingBuffer_fields {α : Type} [Zero α] (s0 : RingState α) (sampleRate channels : Int)
    (hlo : 0 < sampleRate) (hhi : sampleRate < 1073741824) :
    ((initRingBuffer s0 sampleRate channels).ringCapacityFrames : Int) = 2 * sampleRate ∧
    (initRingBuffer s0 sampleRate channels).ringWriteIndex = 0 ∧
    (initRingBuffer s0 sampleRate channels).ringReadIndex = 0 ∧
    (initRingBuffer s0 sampleRate channels).channelCount = s0.channelCount := by
  have h := castSizeT_of_range sampleRate (by omega) (by omega)
  refine ⟨?_, rfl, rfl, rfl⟩
  simp only [initRingBuffer]
  push_cast
  omega

theorem RingOp.apply_capacity {α : Type} (s : RingState α) (op : RingOp α) :
    (op.apply s).ringCapacityFrames = s.ringCapacityFrames ∧
    (op.apply s).channelCount = s.channelCount := by
  cases op with
  | push data frames => exact pushToRing_capacity s data frames
  | pop dst maxFrames => exact popFromRing_capacity s dst maxFrames

theorem runOps_capacity {α : Type} (ops : List (RingOp α)) (s : RingState α) :
    (runOps s ops).ringCapacityFrames = s.ringCapacityFrames ∧
    (runOps s ops).channelCount = s.channelCount := by
  induction ops generalizing s with
  | nil => exact ⟨rfl, rfl⟩
  | cons op ops ih =>
    have h := ih (op.apply s)
    have h2 := RingOp.apply_capacity s op
    simp only [runOps, List.foldl_cons] at h ⊢
    exact ⟨h.1.trans h2.1, h.2.trans h2.2⟩

theorem RingOp.apply_cursorInv {α : Type} (s : RingState α) (op : RingOp α)
    (hC : s.ringCapacityFrames < 2147483648) (hinv : CursorInv s) :
    CursorInv (op.apply s) ∧ s.ringReadIndex ≤ (op.apply s).ringReadIndex := by
  have hcap := (RingOp.apply_capacity s op).1
  unfold CursorInv at hinv ⊢
  rw [hcap]
  cases op with
  | push data frames =>
    by_cases hpos : s.ringCapacityFrames = 0 ∨ frames ≤ 0
    · simp only [RingOp.apply, pushToRing, if_pos hpos]
      omega
    · obtain ⟨hw, hr, -⟩ := pushToRing_cursors s data frames hC hinv hpos
      simp only [RingOp.apply, hw, hr]
      push_neg at hpos
      omega
  | pop dst maxFrames =>
    by_cases hpos : s.ringCapacityFrames = 0 ∨ maxFrames ≤ 0
    · simp only [RingOp.apply, popFromRing, if_pos hpos]
      omega
    · obtain ⟨hw, hr, -⟩ := popFromRing_cursors s dst maxFrames hC hinv hpos
      simp only [RingOp.apply, hw, hr]
      push_neg at hpos
      omega

theorem runOps_cursorInv {α : Type} (ops : List (RingOp α)) (s : RingState α)
    (hC : s.ringCapacityFrames < 2147483648) (hinv : CursorInv s) :
    CursorInv (runOps s ops) ∧ s.ringReadIndex ≤ (runOps s ops).ringReadIndex := by
  induction ops generalizing s with
  | nil => exact ⟨hinv, le_refl _⟩
  | cons op ops ih =>
    have h1 := RingOp.apply_cursorInv s op hC hinv
    have h2 := ih (op.apply s) (by rw [(RingOp.apply_capacity s op).1]; exact hC) h1.1
    simp only [runOps, List.foldl_cons] at h2 ⊢
    exact ⟨h2.1, le_trans h1.2 h2.2⟩

/-- C1: on a ring initialised by `initRingBuffer` (capacity `2 * sampleRate > 0`, which
fits an `int`), after every finite sequence of `pushToRing` and `popFromRing` calls run
one after another, with any frame counts and buffers, the cursors satisfy
`0 ≤ write - read ≤ capacity`. -/
theorem ring_cursor_invariant {α : Type} [Zero α] (s0 : RingState α)
    (sampleRate channels : Int) (hlo : 0 < sampleRate) (hhi : sampleRate < 1073741824)
    (ops : List (RingOp α)) :
    let s := runOps (initRingBuffer s0 sampleRate channels) ops
    (s.ringCapacityFrames : Int) = 2 * sampleRate ∧
      0 ≤ s.ringWriteIndex - s.ringReadIndex ∧
      s.ringWriteIndex - s.ringReadIndex ≤ (s.ringCapacityFrames : Int) := by
  intro s
  obtain ⟨hc, hw, hr, -⟩ := initRingBuffer_fields s0 sampleRate channels hlo hhi
  have hinv : CursorInv (initRingBuffer s0 sampleRate channels) := by
    unfold CursorInv; rw [hw, hr]; omega
  have h := (runOps_cursorInv ops (initRingBuffer s0 sampleRate channels) (by omega) hinv).1
  have hcap := (runOps_capacity ops (initRingBuffer s0 sampleRate channels)).1
  exact ⟨by rw [show s.ringCapacityFrames = _ from hcap]; exact hc, h.1, h.2⟩

theorem ring_cursor_invariant_witness :
    let s := runOps (initRingBuffer (⟨1, 0, [], 0, 0⟩ : RingState Int) 2 1)
      [RingOp.push [1, 2, 3, 4, 5, 6] 6, RingOp.pop [0, 0] 2, RingOp.push [7, 8, 9] 3]
    (s.ringCapacityFrames : Int) = 2 * 2 ∧
      0 ≤ s.ringWriteIndex - s.ringReadIndex ∧
      s.ringWriteIndex - s.ringReadIndex ≤ (s.ringCapacityFrames : Int) :=
  ring_cursor_invariant (⟨1, 0, [], 0, 0⟩ : RingState Int) 2 1 (by decide) (by decide) _

/-! ## Theorems: the ring as a bounded FIFO -/

theorem memcpy_length {α : Type} (dst src : List α) (dOff sOff n : Nat)
    (h1 : dOff + n ≤ dst.length) (h2 : sOff + n ≤ src.length) :
    (memcpy dst dOff src sOff n).length = dst.length := by
  simp only [memcpy, List.length_append, List.length_take, List.length_drop]
  omega

theorem memcpy_getElemOpt {α : Type} (dst src : List α) (dOff sOff n i : Nat)
    (h1 : dOff + n ≤ dst.length) (h2 : sOff + n ≤ src.length) :
    (memcpy dst dOff src sOff n)[i]? =
      if i < dOff then dst[i]? else if i < dOff + n then src[sOff + (i - dOff)]? else dst[i]? := by
  simp only [memcpy, List.getElem?_append, List.getElem?_take, List.getElem?_drop,
    List.length_take, List.length_drop]
  split_ifs <;> first | rfl | omega | (congr 1; omega)

theorem readWrapped_take {α : Type} (L dst : List α) (T f m : Nat)
    (hT : T + f ≤ L.length) (hm : m ≤ T) (hwrap : 0 < m → T + f = L.length) :
    (memcpy (memcpy dst 0 L T f) f L 0 m).take (f + m) = (L.rotate T).take (f + m) := by
  rw [List.rotate_eq_drop_append_take (by omega)]
  apply List.ext_getElem?
  intro i
  simp only [memcpy, List.getElem?_append, List.getElem?_take, List.getElem?_drop,
    List.length_take, List.length_drop, List.length_append]
  rcases Nat.eq_zero_or_pos m with hm0 | hm0
  · subst hm0
    split_ifs <;> first | rfl | omega | (congr 1; omega)
  · have := hwrap hm0
    split_ifs <;> first | rfl | omega | (congr 1; omega)

theorem push_content {α : Type} (X S : List α) (U n d : Nat) (hU : U ≤ X.length)
    (hn : S.length = n) (hnN : n ≤ X.length) (hd : d = U + n - X.length) :
    ((S ++ (X.rotate U).drop n).rotate (X.length - U + d)).take (U + n - d)
      = (X.take U ++ S).drop d := by
  have hlen : (S ++ (X.rotate U).drop n).length = X.length := by
    simp only [List.length_append, List.length_drop, List.length_rotate]; omega
  rw [List.rotate_eq_drop_append_take (l := S ++ _) (by omega),
    List.rotate_eq_drop_append_take (by omega)]
  apply List.ext_getElem?
  intro i
  simp only [List.getElem?_append, List.getElem?_take, List.getElem?_drop,
    List.length_take, List.length_drop, List.length_append, hn]
  split_ifs <;> first | rfl | omega | (congr 1; omega) | (symm; apply List.getElem?_eq_none; omega) | (apply List.getElem?_eq_none; omega)

theorem pop_content {α : Type} (X : List α) (U k : Nat) (hU : U ≤ X.length) (hk : k ≤ U) :
    (X.rotate k).take (U - k) = (X.take U).drop k := by
  rw [List.rotate_eq_drop_append_take (by omega)]
  apply List.ext_getElem?
  intro i
  simp only [List.getElem?_append, List.getElem?_take, List.getElem?_drop,
    List.length_take, List.length_drop, List.length_append]
  split_ifs <;> first | rfl | omega | (congr 1; omega) | (symm; apply List.getElem?_eq_none; omega) | (apply List.getElem?_eq_none; omega)

theorem memcpy_zero {α : Type} (dst src : List α) (sOff : Nat) :
    memcpy dst 0 src sOff 0 = dst := by
  simp [memcpy]

theorem memcpy_zero_at {α : Type} (dst src : List α) (dOff sOff : Nat) :
    memcpy dst dOff src sOff 0 = dst := by
  simp [memcpy]

theorem rotate_frame_mod {α : Type} (L : List α) (C ch i : Nat) (hlen : L.length = C * ch) :
    L.rotate (i % C * ch) = L.rotate (i * ch) := by
  rw [← Nat.mul_mod_mul_right, ← hlen, List.rotate_mod]

theorem rotate_add_length {α : Type} (L : List α) (k : Nat) :
    L.rotate (k + L.length) = L.rotate k := by
  rw [← List.rotate_mod, Nat.add_mod_right, List.rotate_mod]


/-! ## Theorems: what a pop returns -/

theorem pushToRing_write {α : Type} (s : RingState α) (data : List α) (frames : Int) :
    (pushToRing s data frames).1.ringWriteIndex
      = s.ringWriteIndex + (pushToRing s data frames).2 := by
  unfold pushToRing
  split_ifs
  · simp
  · rfl

theorem popFromRing_read {α : Type} (s : RingState α) (dst : List α) (maxFrames : Int) :
    (popFromRing s dst maxFrames).1.ringReadIndex
      = s.ringReadIndex + (popFromRing s dst maxFrames).2.2 ∧
    (popFromRing s dst maxFrames).1.ringWriteIndex = s.ringWriteIndex := by
  unfold popFromRing
  split_ifs
  · simp
  · dsimp only
    split_ifs
    · simp
    · exact ⟨rfl, rfl⟩

theorem ringTally_cursors {α : Type} (ops : List (RingOp α)) (s : RingState α) :
    (runOps s ops).ringWriteIndex = s.ringWriteIndex + (ringTally s ops).pushed ∧
    (runOps s ops).ringReadIndex
      = s.ringReadIndex + (ringTally s ops).popped + (ringTally s ops).dropped := by
  induction ops generalizing s with
  | nil => simp [runOps, ringTally]
  | cons op ops ih =>
    cases op with
    | push data frames =>
      have h := ih (pushToRing s data frames).1
      have hw := pushToRing_write s data frames
      simp only [runOps, List.foldl_cons, RingOp.apply, ringTally] at h ⊢
      omega
    | pop dst maxFrames =>
      have h := ih (popFromRing s dst maxFrames).1
      have hr := popFromRing_read s dst maxFrames
      simp only [runOps, List.foldl_cons, RingOp.apply, ringTally] at h ⊢
      omega

/-- C3: in every state reached from `initRingBuffer` by a sequence of push and pop
calls, `popFromRing` with `maxFrames > 0` returns exactly `min maxFrames (write - read)`,
returns 0 when the ring is empty, advances the read cursor by the returned count and
leaves the write cursor alone; `write - read` is the number of frames pushed and not
yet popped or dropped, so the pop never returns more than that. -/
theorem popFromRing_returns_min {α : Type} [Zero α] (s0 : RingState α)
    (sampleRate channels : Int) (hlo : 0 < sampleRate) (hhi : sampleRate < 1073741824)
    (ops : List (RingOp α)) (dst : List α) (maxFrames : Int) (hmax : 0 < maxFrames) :
    let s := runOps (initRingBuffer s0 sampleRate channels) ops
    let t := ringTally (initRingBuffer s0 sampleRate channels) ops
    let r := popFromRing s dst maxFrames
    r.2.2 = min maxFrames (s.ringWriteIndex - s.ringReadIndex) ∧
      (s.ringWriteIndex = s.ringReadIndex → r.2.2 = 0) ∧
      r.1.ringReadIndex = s.ringReadIndex + r.2.2 ∧
      r.1.ringWriteIndex = s.ringWriteIndex ∧
      s.ringWriteIndex - s.ringReadIndex = t.pushed - t.popped - t.dropped ∧
      0 ≤ r.2.2 ∧ r.2.2 ≤ t.pushed - t.popped - t.dropped := by
  intro s t r
  obtain ⟨hc, hw, hr, -⟩ := initRingBuffer_fields s0 sampleRate channels hlo hhi
  have hinv0 : CursorInv (initRingBuffer s0 sampleRate channels) := by
    unfold CursorInv; rw [hw, hr]; omega
  have hinv : CursorInv s :=
    (runOps_cursorInv ops (initRingBuffer s0 sampleRate channels) (by omega) hinv0).1
  have hcap : s.ringCapacityFrames = (initRingBuffer s0 sampleRate channels).ringCapacityFrames :=
    (runOps_capacity ops (initRingBuffer s0 sampleRate channels)).1
  have hpos : ¬ (s.ringCapacityFrames = 0 ∨ maxFrames ≤ 0) := by
    rw [hcap]; omega
  obtain ⟨pw, pr, pret⟩ := popFromRing_cursors s dst maxFrames (by rw [hcap]; omega) hinv hpos
  obtain ⟨tw, tr⟩ := ringTally_cursors ops (initRingBuffer s0 sampleRate channels)
  rw [hw] at tw
  rw [hr] at tr
  have tw2 : s.ringWriteIndex = 0 + t.pushed := tw
  have tr2 : s.ringReadIndex = 0 + t.popped + t.dropped := tr
  have pret2 : r.2.2 = min maxFrames (s.ringWriteIndex - s.ringReadIndex) := pret
  have pr2 : r.1.ringReadIndex
      = s.ringReadIndex + min maxFrames (s.ringWriteIndex - s.ringReadIndex) := pr
  obtain ⟨i0, i1⟩ := hinv
  refine ⟨pret2, ?_, ?_, pw, ?_, ?_, ?_⟩ <;> omega

theorem popFromRing_returns_min_witness :
    let s := runOps (initRingBuffer (⟨1, 0, [], 0, 0⟩ : RingState Int) 2 1)
      [RingOp.push [1, 2, 3, 4, 5, 6] 6, RingOp.pop [0, 0, 0] 3]
    let t := ringTally (initRingBuffer (⟨1, 0, [], 0, 0⟩ : RingState Int) 2 1)
      [RingOp.push [1, 2, 3, 4, 5, 6] 6, RingOp.pop [0, 0, 0] 3]
    let r := popFromRing s [0, 0, 0, 0, 0] 5
    r.2.2 = min 5 (s.ringWriteIndex - s.ringReadIndex) ∧
      (s.ringWriteIndex = s.ringReadIndex → r.2.2 = 0) ∧
      r.1.ringReadIndex = s.ringReadIndex + r.2.2 ∧
      r.1.ringWriteIndex = s.ringWriteIndex ∧
      s.ringWriteIndex - s.ringReadIndex = t.pushed - t.popped - t.dropped ∧
      0 ≤ r.2.2 ∧ r.2.2 ≤ t.pushed - t.popped - t.dropped :=
  popFromRing_returns_min (⟨1, 0, [], 0, 0⟩ : RingState Int) 2 1 (by decide) (by decide)
    [RingOp.push [1, 2, 3, 4, 5, 6] 6, RingOp.pop [0, 0, 0] 3] [0, 0, 0, 0, 0] 5 (by decide)

/-! ## Theorems: frame copies as rotations of the ring -/

theorem writeWrapped_rotate {α : Type} (L src : List α) (T f m : Nat)
    (hT : T + f ≤ L.length) (hsrc : f + m ≤ src.length) (hm : m ≤ T)
    (hwrap : 0 < m → T + f = L.length) :
    (memcpy (memcpy L T src 0 f) 0 src f m).rotate T
      = src.take (f + m) ++ (L.rotate T).drop (f + m) := by
  have hl1 : (memcpy L T src 0 f).length = L.length := memcpy_length _ _ _ _ _ hT (by omega)
  have hl2 : (memcpy (memcpy L T src 0 f) 0 src f m).length = L.length := by
    rw [memcpy_length _ _ _ _ _ (by omega) (by omega), hl1]
  have g2 := fun i => memcpy_getElemOpt (memcpy L T src 0 f) src 0 f m i (by omega) (by omega)
  have g1 := fun i => memcpy_getElemOpt L src T 0 f i hT (by omega)
  rw [List.rotate_eq_drop_append_take (by omega), List.rotate_eq_drop_append_take (by omega)]
  apply List.ext_getElem?
  intro i
  simp only [List.getElem?_append, List.getElem?_take, List.getElem?_drop, List.length_take,
    List.length_drop, hl2, g2, g1]
  rcases Nat.eq_zero_or_pos m with hm0 | hm0
  · subst hm0
    split_ifs <;> first | rfl | omega | (congr 1; omega)
  · have := hwrap hm0
    split_ifs <;> first | rfl | omega | (congr 1; omega)

theorem cast_head (i : Int) (C : Nat) (hi : 0 ≤ i) (hC0 : 0 < C) (hC : C < 2147483648) :
    castSizeT (Int.tmod i (castInt64 (C : Int))) = i.toNat % C := by
  have h64 : castInt64 (C : Int) = C := castInt64_of_range _ (by omega) (by omega)
  have hmod : Int.tmod i (C : Int) = i % (C : Int) := Int.tmod_eq_emod hi (by omega)
  have hnat : ((i.toNat % C : Nat) : Int) = i % (C : Int) := by
    rw [Int.natCast_mod, Int.toNat_of_nonneg hi]
  have hlt : i.toNat % C < C := Nat.mod_lt _ hC0
  rw [h64, hmod, ← hnat]
  exact castSizeT_natCast _ (by clear hmod hnat h64; omega)

theorem cast_framesToEnd (C a : Nat) (ha : a < C) (hC : C < 2147483648) :
    castSizeT ((C : Int) - (a : Int)) = C - a := by
  have : (C : Int) - (a : Int) = ((C - a : Nat) : Int) := by omega
  rw [this, castSizeT_natCast (C - a) (by omega)]

theorem cast_firstFrames (n : Int) (C a : Nat) (hC : C < 2147483648) (hn : 0 < n) :
    min n (castInt32 ((C - a : Nat) : Int)) = ((min n.toNat (C - a) : Nat) : Int) := by
  rw [castInt32_of_range _ (by omega) (by omega)]
  omega

theorem cast_remaining (n : Int) (k : Nat) (hn : 0 < n) :
    n - ((min n.toNat k : Nat) : Int) = ((n.toNat - min n.toNat k : Nat) : Int) := by
  omega

/-- The ring after `writeFrames`, with the casts resolved. -/
theorem writeFrames_decodeRing {α : Type} (s : RingState α) (i : Int) (src : List α) (n : Int)
    (C ch : Nat) (hcap : s.ringCapacityFrames = C) (hC : C < 2147483648)
    (hch : s.channelCount = ch) (hchLt : ch < 2147483648)
    (hi : 0 ≤ i) (hn : 0 < n) (hnC : n ≤ C) :
    (writeFrames s i src n).decodeRing
      = memcpy (memcpy s.decodeRing (i.toNat % C * ch) src 0
            (min n.toNat (C - i.toNat % C) * ch))
          0 src (min n.toNat (C - i.toNat % C) * ch)
          ((n.toNat - min n.toNat (C - i.toNat % C)) * ch) := by
  have hCpos : 0 < C := by omega
  have hneg : ¬ (n ≤ 0 ∨ s.ringCapacityFrames = 0) := by omega
  unfold writeFrames
  rw [if_neg hneg]
  simp only [hcap, hch]
  have ha : i.toNat % C < C := Nat.mod_lt _ hCpos
  rw [cast_head i C hi hCpos hC, castSizeT_natCast ch (by omega),
    cast_framesToEnd C _ ha hC, cast_firstFrames n C _ hC hn,
    castSizeT_natCast (min n.toNat (C - i.toNat % C)) (by omega),
    cast_remaining n _ hn,
    castSizeT_natCast (n.toNat - min n.toNat (C - i.toNat % C)) (by omega)]
  split_ifs with hpos
  · rfl
  · have h0 : n.toNat - min n.toNat (C - i.toNat % C) = 0 := by omega
    rw [h0, Nat.zero_mul, memcpy_zero]

theorem wrap_bounds (C ch a n : Nat) (ha : a < C) (hn : n ≤ C) :
    a * ch + min n (C - a) * ch ≤ C * ch ∧
    min n (C - a) * ch + (n - min n (C - a)) * ch = n * ch ∧
    (n - min n (C - a)) * ch ≤ a * ch ∧
    (0 < (n - min n (C - a)) * ch → a * ch + min n (C - a) * ch = C * ch) := by
  refine ⟨?_, ?_, ?_, ?_⟩
  · rw [← Nat.add_mul]; exact Nat.mul_le_mul_right _ (by omega)
  · rw [← Nat.add_mul]; congr 1; omega
  · exact Nat.mul_le_mul_right _ (by omega)
  · intro hm
    have hm0 : 0 < n - min n (C - a) := Nat.pos_of_mul_pos_right hm
    rw [← Nat.add_mul]; congr 1; omega

theorem writeFrames_length_rotate {α : Type} (s : RingState α) (i : Int) (src : List α) (n : Int)
    (C ch : Nat) (hcap : s.ringCapacityFrames = C) (hC : C < 2147483648)
    (hch : s.channelCount = ch) (hchLt : ch < 2147483648)
    (hi : 0 ≤ i) (hn : 0 < n) (hnC : n ≤ C)
    (hlen : s.decodeRing.length = C * ch) (hsrc : n.toNat * ch ≤ src.length) :
    (writeFrames s i src n).decodeRing.length = C * ch ∧
    (writeFrames s i src n).decodeRing.rotate (i.toNat * ch)
      = src.take (n.toNat * ch) ++ (s.decodeRing.rotate (i.toNat * ch)).drop (n.toNat * ch) := by
  rw [writeFrames_decodeRing s i src n C ch hcap hC hch hchLt hi hn hnC]
  have hCpos : 0 < C := by omega
  have ha : i.toNat % C < C := Nat.mod_lt _ hCpos
  have hnN : n.toNat ≤ C := by omega
  obtain ⟨e1, e2, e3, e4⟩ := wrap_bounds C ch (i.toNat % C) n.toNat ha hnN
  have hl1 : (memcpy s.decodeRing (i.toNat % C * ch) src 0
      (min n.toNat (C - i.toNat % C) * ch)).length = s.decodeRing.length :=
    memcpy_length _ _ _ _ _ (by omega) (by omega)
  have hl2 : (memcpy (memcpy s.decodeRing (i.toNat % C * ch) src 0
      (min n.toNat (C - i.toNat % C) * ch)) 0 src (min n.toNat (C - i.toNat % C) * ch)
      ((n.toNat - min n.toNat (C - i.toNat % C)) * ch)).length = C * ch := by
    rw [memcpy_length _ _ _ _ _ (by omega) (by omega), hl1, hlen]
  refine ⟨hl2, ?_⟩
  rw [← rotate_frame_mod _ C ch i.toNat hlen, ← rotate_frame_mod _ C ch i.toNat hl2, ← e2]
  exact writeWrapped_rotate s.decodeRing src _ _ _ (by omega) (by omega) e3 (by omega)

/-- The samples `readFrames` delivers, with the casts resolved. -/
theorem readFrames_take {α : Type} (s : RingState α) (i : Int) (dst : List α) (n : Int)
    (C ch : Nat) (hcap : s.ringCapacityFrames = C) (hC : C < 2147483648)
    (hch : s.channelCount = ch) (hchLt : ch < 2147483648)
    (hi : 0 ≤ i) (hn : 0 < n) (hnC : n ≤ C) (hlen : s.decodeRing.length = C * ch) :
    (readFrames s i dst n).take (n.toNat * ch)
      = (s.decodeRing.rotate (i.toNat * ch)).take (n.toNat * ch) := by
  have hCpos : 0 < C := by omega
  have hneg : ¬ (n ≤ 0 ∨ s.ringCapacityFrames = 0) := by omega
  unfold readFrames
  rw [if_neg hneg]
  simp only [hcap, hch]
  have ha : i.toNat % C < C := Nat.mod_lt _ hCpos
  have hnN : n.toNat ≤ C := by omega
  rw [cast_head i C hi hCpos hC, castSizeT_natCast ch (by omega),
    cast_framesToEnd C _ ha hC, cast_firstFrames n C _ hC hn,
    castSizeT_natCast (min n.toNat (C - i.toNat % C)) (by omega),
    cast_remaining n _ hn,
    castSizeT_natCast (n.toNat - min n.toNat (C - i.toNat % C)) (by omega)]
  obtain ⟨e1, e2, e3, e4⟩ := wrap_bounds C ch (i.toNat % C) n.toNat ha hnN
  rw [← rotate_frame_mod _ C ch i.toNat hlen, ← e2,
    ← readWrapped_take s.decodeRing dst _ _ _ (by omega) e3 (by omega)]
  split_ifs with hpos
  · rfl
  · have h0 : n.toNat - min n.toNat (C - i.toNat % C) = 0 := by omega
    rw [h0, Nat.zero_mul, memcpy_zero_at]

/-! ## Theorems: the ring refines the bounded FIFO -/

theorem toNat_mul_natCast (f : Int) (ch : Nat) (hf : 0 ≤ f) :
    (f * (ch : Int)).toNat = f.toNat * ch := by
  obtain ⟨k, rfl⟩ := Int.eq_ofNat_of_zero_le hf
  have h : ((k : Int) * (ch : Int)) = ((k * ch : Nat) : Int) := by push_cast; rfl
  rw [h, Int.toNat_natCast, Int.toNat_natCast]

theorem keepNewest_of_le {α : Type} (n : Nat) (l : List α) (h : l.length ≤ n) :
    keepNewest n l = l := by
  unfold keepNewest
  rw [Nat.sub_eq_zero_of_le h, List.drop_zero]

/-- The ring array after a push is the one `writeFrames` leaves, on the truncated
source and frame count. -/
theorem pushToRing_decodeRing {α : Type} (s : RingState α) (data : List α) (frames : Int)
    (C : Nat) (hcap : s.ringCapacityFrames = C) (hC : C < 2147483648)
    (hpos : ¬ (s.ringCapacityFrames = 0 ∨ frames ≤ 0)) :
    ∃ s1 : RingState α, s1.ringCapacityFrames = C ∧ s1.channelCount = s.channelCount ∧
      s1.decodeRing = s.decodeRing ∧
      (pushToRing s data frames).1.decodeRing
        = (writeFrames s1 s.ringWriteIndex
            (if frames > (C : Int) then data.drop ((frames - C) * s.channelCount).toNat else data)
            (min frames C)).decodeRing := by
  unfold pushToRing
  rw [if_neg hpos]
  have hc : castInt32 (s.ringCapacityFrames : Int) = C := by
    rw [hcap]; exact castInt32_of_range _ (by omega) (by omega)
  simp only [hc]
  by_cases hov : frames > (C : Int)
  · have e1 : min frames (C : Int) = C := min_eq_right (le_of_lt hov)
    simp only [hov, decide_True, if_true, e1]
    refine ⟨_, ?_, ?_, ?_, rfl⟩ <;> split_ifs <;> first | rfl | exact hcap
  · have e1 : min frames (C : Int) = frames := min_eq_left (not_lt.mp hov)
    simp only [hov, decide_False, if_false, e1, Bool.false_eq_true]
    refine ⟨_, ?_, ?_, ?_, rfl⟩ <;> split_ifs <;> first | rfl | exact hcap
theorem keepNewest_append_take {α : Type} (Q data : List α) (N F : Nat)
    (hdata : F ≤ data.length) (hF : F ≤ N) :
    keepNewest N (Q ++ data.take F) = (Q ++ data.take F).drop (Q.length + F - N) := by
  unfold keepNewest
  rw [List.length_append, List.length_take, Nat.min_eq_left hdata]

theorem keepNewest_append_oversized {α : Type} (Q data : List α) (N F : Nat)
    (hQ : Q.length ≤ N) (hdata : F ≤ data.length) (hF : N < F) :
    keepNewest N (Q ++ data.take F) = (Q ++ (data.drop (F - N)).take N).drop Q.length := by
  unfold keepNewest
  apply List.ext_getElem?
  intro i
  simp only [List.getElem?_append, List.getElem?_take, List.getElem?_drop,
    List.length_take, List.length_drop, List.length_append]
  split_ifs <;> first | rfl | omega | (congr 1; omega) | (symm; apply List.getElem?_eq_none; omega) | (apply List.getElem?_eq_none; omega)

theorem RingRel.queue_length {α : Type} {s : RingState α} {q : BoundedFifo α}
    (h : RingRel s q) :
    q.queue.length = (s.ringWriteIndex - s.ringReadIndex).toNat * q.channels := by
  have h1 := h.inv.2
  rw [h.cap] at h1
  have h2 : (s.ringWriteIndex - s.ringReadIndex).toNat ≤ q.capacity := by omega
  have h3 := Nat.mul_le_mul_right q.channels h2
  rw [h.content, List.length_take, List.length_rotate, h.len]
  omega

theorem push_content_frames {α : Type} (L L2 S : List α) (C ch R U n : Nat)
    (hlen : L.length = C * ch) (hlen2 : L2.length = C * ch) (hU : U ≤ C) (hn : n ≤ C)
    (hS : S.length = n * ch)
    (hrot : L2.rotate ((R + U) * ch) = S ++ (L.rotate ((R + U) * ch)).drop (n * ch)) :
    (L2.rotate ((R + (U + n - C)) * ch)).take ((U + n - (U + n - C)) * ch)
      = ((L.rotate (R * ch)).take (U * ch) ++ S).drop ((U + n - C) * ch) := by
  have hXlen : (L.rotate (R * ch)).length = C * ch := by rw [List.length_rotate, hlen]
  have a1 : (R + U) * ch = R * ch + U * ch := Nat.add_mul _ _ _
  have a2 : (R + (U + n - C)) * ch = R * ch + (U + n - C) * ch := Nat.add_mul _ _ _
  have a3 : (U + n - C) * ch = U * ch + n * ch - C * ch := by
    rw [Nat.sub_mul, Nat.add_mul]
  have a4 : (U + n - (U + n - C)) * ch = U * ch + n * ch - (U + n - C) * ch := by
    rw [Nat.sub_mul, Nat.add_mul]
  have b1 : U * ch ≤ C * ch := Nat.mul_le_mul_right _ hU
  have b2 : n * ch ≤ C * ch := Nat.mul_le_mul_right _ hn
  have hX : L.rotate ((R + U) * ch) = (L.rotate (R * ch)).rotate (U * ch) := by
    rw [List.rotate_rotate, a1]
  have hL2 : L2.rotate ((R + (U + n - C)) * ch)
      = (L2.rotate ((R + U) * ch)).rotate (C * ch - U * ch + (U + n - C) * ch) := by
    rw [List.rotate_rotate]
    have e : (R + U) * ch + (C * ch - U * ch + (U + n - C) * ch)
        = (R + (U + n - C)) * ch + L2.length := by
      rw [hlen2]; omega
    rw [e, rotate_add_length]
  rw [hL2, hrot, hX, a4]
  have h := push_content (L.rotate (R * ch)) S (U * ch) (n * ch) ((U + n - C) * ch)
    (by omega) hS (by omega) (by omega)
  rw [hXlen] at h
  exact h

theorem fifo_push_eq {α : Type} (Q data : List α) (C ch F U : Nat)
    (hQ : Q.length = U * ch) (hU : U ≤ C) (hdata : F * ch ≤ data.length) :
    keepNewest (C * ch) (Q ++ data.take (F * ch))
      = (Q ++ (if C < F then data.drop ((F - C) * ch) else data).take (min F C * ch)).drop
          ((U + min F C - C) * ch) := by
  have b1 : U * ch ≤ C * ch := Nat.mul_le_mul_right _ hU
  by_cases hov : C < F
  · have e1 : min F C = C := by omega
    have e2 : U + C - C = U := by omega
    have e3 : (F - C) * ch = F * ch - C * ch := Nat.sub_mul _ _ _
    have b2 : C * ch ≤ F * ch := Nat.mul_le_mul_right _ (by omega)
    rw [if_pos hov, e1, e2, e3, ← hQ]
    rcases Nat.eq_zero_or_pos ch with h0 | h0
    · subst h0
      simp only [Nat.mul_zero] at hQ ⊢
      have : Q = [] := List.length_eq_zero.mp hQ
      subst this
      simp [keepNewest]
    · have b3 : C * ch < F * ch := Nat.mul_lt_mul_of_pos_right hov h0
      exact keepNewest_append_oversized Q data (C * ch) (F * ch) (by omega) hdata b3
  · have e1 : min F C = F := by omega
    have b2 : F * ch ≤ C * ch := Nat.mul_le_mul_right _ (by omega)
    have e3 : (U + F - C) * ch = Q.length + F * ch - C * ch := by
      rw [Nat.sub_mul, Nat.add_mul, hQ]
    rw [if_neg hov, e1, e3]
    exact keepNewest_append_take Q data (C * ch) (F * ch) hdata b2

theorem push_cursor_nat (w r frames : Int) (C : Nat) (hr : 0 ≤ r) (h0 : 0 ≤ w - r)
    (h1 : w - r ≤ C) (hf : 0 < frames) :
    w.toNat = r.toNat + (w - r).toNat ∧
    (max r (w + min frames (C : Int) - C)).toNat
      = r.toNat + ((w - r).toNat + min frames.toNat C - C) ∧
    (w + min frames (C : Int) - max r (w + min frames (C : Int) - C)).toNat
      = (w - r).toNat + min frames.toNat C - ((w - r).toNat + min frames.toNat C - C) ∧
    (min frames (C : Int)).toNat = min frames.toNat C ∧
    (w - r).toNat ≤ C := by
  omega

/-- A push keeps the refinement relation: the ring then holds what the bounded FIFO
holds after appending the block and keeping the newest `capacity` frames. -/
theorem pushToRing_refines {α : Type} (s : RingState α) (q : BoundedFifo α) (h : RingRel s q)
    (data : List α) (frames : Int)
    (hwf : RingOp.WellFormed s.channelCount (RingOp.push data frames)) :
    RingRel (pushToRing s data frames).1 (q.push (pushedBlock q.channels data frames)) := by
  have hql := h.queue_length
  obtain ⟨hcap, hcapPos, hcapLt, hchan, hchanPos, hchanLt, hlen, hr0, hinv, hcontent⟩ := h
  have hinv2 := hinv
  obtain ⟨hi0, hi1⟩ := hinv2
  rw [hcap] at hi1
  by_cases hf : frames ≤ 0
  · have e1 : pushToRing s data frames = (s, 0) := by
      unfold pushToRing; rw [if_pos (Or.inr hf)]
    have hUC : (s.ringWriteIndex - s.ringReadIndex).toNat ≤ q.capacity := by omega
    have hUch := Nat.mul_le_mul_right q.channels hUC
    have e2 : q.push (pushedBlock q.channels data frames) = q := by
      unfold BoundedFifo.push pushedBlock
      rw [Int.toNat_eq_zero.mpr hf, Nat.zero_mul, List.take_zero, List.append_nil,
        keepNewest_of_le _ _ (by omega)]
    rw [e1, e2]
    exact ⟨hcap, hcapPos, hcapLt, hchan, hchanPos, hchanLt, hlen, hr0, hinv, hcontent⟩
  · have hf0 : 0 < frames := not_le.mp hf
    have hpos : ¬ (s.ringCapacityFrames = 0 ∨ frames ≤ 0) := by omega
    have hCs : s.ringCapacityFrames < 2147483648 := by omega
    obtain ⟨hw, hr, -⟩ := pushToRing_cursors s data frames hCs hinv hpos
    obtain ⟨hc2, hch2⟩ := pushToRing_capacity s data frames
    obtain ⟨s1, h1cap, h1ch, h1ring, hring⟩ :=
      pushToRing_decodeRing s data frames q.capacity hcap hcapLt hpos
    have hwfN : frames.toNat * q.channels ≤ data.length := by
      have := hwf hf0
      rwa [hchan, toNat_mul_natCast _ _ (le_of_lt hf0)] at this
    rw [hcap] at hw hr
    obtain ⟨eW, eR2, eU2, eN, hUC⟩ := push_cursor_nat s.ringWriteIndex s.ringReadIndex frames
      q.capacity hr0 hi0 hi1 hf0
    have hn0 : 0 < min frames (q.capacity : Int) := by omega
    have hnC : min frames (q.capacity : Int) ≤ q.capacity := min_le_right _ _
    have hdata1 : (if frames > (q.capacity : Int) then
          data.drop ((frames - q.capacity) * s.channelCount).toNat else data)
        = (if q.capacity < frames.toNat then
            data.drop ((frames.toNat - q.capacity) * q.channels) else data) := by
      by_cases hov : frames > (q.capacity : Int)
      · have hov2 : q.capacity < frames.toNat := by omega
        have e : (frames - (q.capacity : Int)).toNat = frames.toNat - q.capacity := by omega
        rw [if_pos hov, if_pos hov2, hchan, toNat_mul_natCast _ _ (by omega), e]
      · have hov2 : ¬ q.capacity < frames.toNat := by omega
        rw [if_neg hov, if_neg hov2]
    rw [hdata1] at hring
    have hsrc : (min frames (q.capacity : Int)).toNat * q.channels
        ≤ (if q.capacity < frames.toNat then
            data.drop ((frames.toNat - q.capacity) * q.channels) else data).length := by
      rw [eN]
      by_cases hov2 : q.capacity < frames.toNat
      · have b : q.capacity * q.channels ≤ frames.toNat * q.channels :=
          Nat.mul_le_mul_right _ (by omega)
        rw [if_pos hov2, List.length_drop, Nat.sub_mul, Nat.min_eq_right (by omega)]
        omega
      · rw [if_neg hov2, Nat.min_eq_left (by omega)]
        exact hwfN
    obtain ⟨hlen2, hrot⟩ := writeFrames_length_rotate s1 s.ringWriteIndex _ _ q.capacity
      q.channels h1cap hcapLt (h1ch.trans hchan) hchanLt (by omega) hn0 hnC
      (by rw [h1ring]; exact hlen) hsrc
    rw [← hring, h1ring, eW, eN] at hrot
    rw [← hring] at hlen2
    refine ⟨hc2.trans hcap, hcapPos, hcapLt, hch2.trans hchan, hchanPos, hchanLt, hlen2, ?_, ?_, ?_⟩
    · rw [hr]; exact le_trans hr0 (le_max_left _ _)
    · exact (RingOp.apply_cursorInv s (RingOp.push data frames) hCs hinv).1
    · simp only [BoundedFifo.push, pushedBlock]
      rw [hw, hr, eR2, eU2]
      have hSlen : ((if q.capacity < frames.toNat then
            data.drop ((frames.toNat - q.capacity) * q.channels) else data).take
          (min frames.toNat q.capacity * q.channels)).length
          = min frames.toNat q.capacity * q.channels := by
        rw [List.length_take, ← eN]
        exact Nat.min_eq_left hsrc
      have hpc := push_content_frames s.decodeRing (pushToRing s data frames).1.decodeRing _
        q.capacity q.channels s.ringReadIndex.toNat (s.ringWriteIndex - s.ringReadIndex).toNat
        (min frames.toNat q.capacity) hlen hlen2 hUC (Nat.min_le_right _ _) hSlen hrot
      rw [hpc, ← hcontent]
      exact fifo_push_eq q.queue data q.capacity q.channels frames.toNat _ hql hUC hwfN

theorem pop_cursor_nat (w r m : Int) (hr : 0 ≤ r) (h0 : 0 ≤ w - r) (hm : 0 < m) :
    (r + min m (w - r)).toNat = r.toNat + min m.toNat (w - r).toNat ∧
    (w - (r + min m (w - r))).toNat = (w - r).toNat - min m.toNat (w - r).toNat ∧
    (min m (w - r)).toNat = min m.toNat (w - r).toNat := by
  omega

theorem popFromRing_decodeRing {α : Type} (s : RingState α) (dst : List α) (maxFrames : Int) :
    (popFromRing s dst maxFrames).1.decodeRing = s.decodeRing := by
  unfold popFromRing
  split_ifs
  · rfl
  · dsimp only
    split_ifs <;> rfl

/-- The destination buffer after a pop that finds frames. -/
theorem popFromRing_dst {α : Type} (s : RingState α) (dst : List α) (maxFrames : Int)
    (hC : s.ringCapacityFrames < 2147483648) (hinv : CursorInv s)
    (hpos : ¬ (s.ringCapacityFrames = 0 ∨ maxFrames ≤ 0))
    (havail : 0 < s.ringWriteIndex - s.ringReadIndex) :
    (popFromRing s dst maxFrames).2.1
      = readFrames s s.ringReadIndex dst (min maxFrames (s.ringWriteIndex - s.ringReadIndex)) := by
  obtain ⟨h0, h1⟩ := hinv
  unfold popFromRing
  rw [if_neg hpos]
  dsimp only
  rw [if_neg (not_le.mpr havail), castInt32_of_range _ (by omega) (by omega)]
theorem pop_content_frames {α : Type} (L : List α) (C ch R U k : Nat)
    (hlen : L.length = C * ch) (hU : U ≤ C) (hk : k ≤ U) :
    (L.rotate ((R + k) * ch)).take ((U - k) * ch)
      = ((L.rotate (R * ch)).take (U * ch)).drop (k * ch) ∧
    ((L.rotate (R * ch)).take (U * ch)).take (k * ch) = (L.rotate (R * ch)).take (k * ch) := by
  have hXlen : (L.rotate (R * ch)).length = C * ch := by rw [List.length_rotate, hlen]
  have b1 : U * ch ≤ C * ch := Nat.mul_le_mul_right _ hU
  have b2 : k * ch ≤ U * ch := Nat.mul_le_mul_right _ hk
  constructor
  · rw [Nat.add_mul, ← List.rotate_rotate, Nat.sub_mul]
    exact pop_content (L.rotate (R * ch)) (U * ch) (k * ch) (by omega) b2
  · rw [List.take_take, Nat.min_eq_left b2]

/-- A pop keeps the refinement relation and delivers the front frames of the bounded
FIFO. -/
theorem popFromRing_refines {α : Type} (s : RingState α) (q : BoundedFifo α) (h : RingRel s q)
    (dst : List α) (maxFrames : Int) :
    RingRel (popFromRing s dst maxFrames).1 (q.pop maxFrames.toNat).1 ∧
    (popFromRing s dst maxFrames).2.1.take
        ((popFromRing s dst maxFrames).2.2 * s.channelCount).toNat
      = (q.pop maxFrames.toNat).2 := by
  have hql := h.queue_length
  obtain ⟨hcap, hcapPos, hcapLt, hchan, hchanPos, hchanLt, hlen, hr0, hinv, hcontent⟩ := h
  have hinv2 := hinv
  obtain ⟨hi0, hi1⟩ := hinv2
  rw [hcap] at hi1
  have hUC : (s.ringWriteIndex - s.ringReadIndex).toNat ≤ q.capacity := by omega
  have hdiv : q.queue.length / q.channels = (s.ringWriteIndex - s.ringReadIndex).toNat := by
    rw [hql, Nat.mul_div_cancel _ hchanPos]
  have hCs : s.ringCapacityFrames < 2147483648 := by omega
  by_cases hm : maxFrames ≤ 0
  · have e1 : popFromRing s dst maxFrames = (s, dst, 0) := by
      unfold popFromRing; rw [if_pos (Or.inr hm)]
    have e2 : q.pop maxFrames.toNat = (q, []) := by
      unfold BoundedFifo.pop
      simp [Int.toNat_eq_zero.mpr hm]
    rw [e1, e2]
    exact ⟨⟨hcap, hcapPos, hcapLt, hchan, hchanPos, hchanLt, hlen, hr0, hinv, hcontent⟩, by simp⟩
  · have hm0 : 0 < maxFrames := not_le.mp hm
    have hpos : ¬ (s.ringCapacityFrames = 0 ∨ maxFrames ≤ 0) := by omega
    obtain ⟨hw, hr, hret⟩ := popFromRing_cursors s dst maxFrames hCs hinv hpos
    obtain ⟨hc2, hch2⟩ := popFromRing_capacity s dst maxFrames
    have hring := popFromRing_decodeRing s dst maxFrames
    obtain ⟨eR, eU, eK⟩ := pop_cursor_nat s.ringWriteIndex s.ringReadIndex maxFrames hr0 hi0 hm0
    obtain ⟨pc1, pc2⟩ := pop_content_frames s.decodeRing q.capacity q.channels
      s.ringReadIndex.toNat (s.ringWriteIndex - s.ringReadIndex).toNat
      (min maxFrames.toNat (s.ringWriteIndex - s.ringReadIndex).toNat) hlen hUC
      (Nat.min_le_right _ _)
    have hq1 : (q.pop maxFrames.toNat).1.queue = q.queue.drop
        (min maxFrames.toNat (s.ringWriteIndex - s.ringReadIndex).toNat * q.channels) := by
      unfold BoundedFifo.pop
      rw [hdiv]
    have hq2 : (q.pop maxFrames.toNat).2 = q.queue.take
        (min maxFrames.toNat (s.ringWriteIndex - s.ringReadIndex).toNat * q.channels) := by
      unfold BoundedFifo.pop
      rw [hdiv]
    refine ⟨⟨hc2.trans hcap, hcapPos, hcapLt, hch2.trans hchan, hchanPos, hchanLt,
      by rw [hring]; exact hlen, ?_, ?_, ?_⟩, ?_⟩
    · rw [hr]; omega
    · exact (RingOp.apply_cursorInv s (RingOp.pop dst maxFrames) hCs hinv).1
    · rw [hq1]
      show q.queue.drop _ = List.take (_ * q.channels) (List.rotate _ (_ * q.channels))
      rw [hw, hr, hring, eR, eU, pc1, ← hcontent]
    · rw [hq2, hret, hchan, toNat_mul_natCast _ _ (by omega), eK, hcontent, pc2]
      by_cases hav : 0 < s.ringWriteIndex - s.ringReadIndex
      · rw [popFromRing_dst s dst maxFrames hCs hinv hpos hav, ← eK]
        exact readFrames_take s s.ringReadIndex dst _ q.capacity q.channels hcap hcapLt hchan
          hchanLt hr0 (by omega) (by omega) hlen
      · have hU0 : (s.ringWriteIndex - s.ringReadIndex).toNat = 0 := by omega
        rw [hU0, Nat.min_zero, Nat.zero_mul, List.take_zero, List.take_zero]

theorem initRingBuffer_rel {α : Type} [Zero α] (s0 : RingState α) (sampleRate channels : Int)
    (hlo : 0 < sampleRate) (hhi : sampleRate < 1073741824)
    (hch0 : 0 < channels) (hch1 : channels < 2147483648) (hs0 : s0.channelCount = channels) :
    RingRel (initRingBuffer s0 sampleRate channels)
      ⟨(initRingBuffer s0 sampleRate channels).ringCapacityFrames, channels.toNat, []⟩ := by
  obtain ⟨hc, hw, hr, hch⟩ := initRingBuffer_fields s0 sampleRate channels hlo hhi
  have hcs : castSizeT channels = channels.toNat := by
    have := castSizeT_of_range channels (by omega) (by omega)
    omega
  refine ⟨rfl, ?_, ?_, ?_, ?_, ?_, ?_, ?_, ?_, ?_⟩
  · show 0 < (initRingBuffer s0 sampleRate channels).ringCapacityFrames
    omega
  · show (initRingBuffer s0 sampleRate channels).ringCapacityFrames < 2147483648
    omega
  · show (initRingBuffer s0 sampleRate channels).channelCount = ((channels.toNat : Nat) : Int)
    rw [hch, hs0]; omega
  · show 0 < channels.toNat
    omega
  · show channels.toNat < 2147483648
    omega
  · show (initRingBuffer s0 sampleRate channels).decodeRing.length
      = (initRingBuffer s0 sampleRate channels).ringCapacityFrames * channels.toNat
    simp only [initRingBuffer, List.length_replicate, hcs]
  · rw [hr]
  · unfold CursorInv; rw [hw, hr]; omega
  · show ([] : List α) = _
    rw [hw, hr]
    simp

theorem ring_simulation {α : Type} (ops : List (RingOp α)) (s : RingState α)
    (q : BoundedFifo α) (h : RingRel s q)
    (hwf : ∀ op ∈ ops, RingOp.WellFormed s.channelCount op) :
    ringDelivered s ops = fifoDelivered q ops ∧ RingRel (runOps s ops) (fifoRun q ops) := by
  induction ops generalizing s q with
  | nil => exact ⟨rfl, h⟩
  | cons op ops ih =>
    have hop := hwf op (List.mem_cons_self _ _)
    have hrest : ∀ o ∈ ops, RingOp.WellFormed s.channelCount o :=
      fun o ho => hwf o (List.mem_cons_of_mem _ ho)
    cases op with
    | push data frames =>
      have hstep := pushToRing_refines s q h data frames hop
      have hch := (pushToRing_capacity s data frames).2
      have := ih (pushToRing s data frames).1 _ hstep (by rw [hch]; exact hrest)
      exact ⟨this.1, this.2⟩
    | pop dst maxFrames =>
      obtain ⟨hstep, hdel⟩ := popFromRing_refines s q h dst maxFrames
      have hch := (popFromRing_capacity s dst maxFrames).2
      have := ih (popFromRing s dst maxFrames).1 _ hstep (by rw [hch]; exact hrest)
      refine ⟨?_, this.2⟩
      show _ :: _ = _ :: _
      rw [hdel, this.1]
theorem keepNewest_keepNewest_append {α : Type} (N : Nat) (A B : List α) :
    keepNewest N (keepNewest N A ++ B) = keepNewest N (A ++ B) := by
  unfold keepNewest
  apply List.ext_getElem?
  intro i
  simp only [List.getElem?_append, List.getElem?_drop, List.length_drop, List.length_append]
  split_ifs <;> first | rfl | omega | (congr 1; omega)

theorem keepNewest_length {α : Type} (N : Nat) (A : List α) :
    (keepNewest N A).length = min N A.length := by
  unfold keepNewest
  rw [List.length_drop]
  omega

theorem pushedBlock_length {α : Type} (ch : Nat) (data : List α) (frames : Int)
    (hwf : RingOp.WellFormed (ch : Int) (RingOp.push data frames)) :
    (pushedBlock ch data frames).length = frames.toNat * ch := by
  unfold pushedBlock
  rw [List.length_take]
  by_cases hf : 0 < frames
  · have := hwf hf
    rw [toNat_mul_natCast _ _ (le_of_lt hf)] at this
    omega
  · rw [Int.toNat_eq_zero.mpr (not_lt.mp hf)]
    simp

theorem pushedSamples_length {α : Type} (ch : Nat) (pushes : List (List α × Int))
    (hwf : ∀ p ∈ pushes, RingOp.WellFormed (ch : Int) (RingOp.push p.1 p.2)) :
    (pushedSamples ch pushes).length = pushedFrames pushes * ch := by
  induction pushes with
  | nil => simp [pushedSamples, pushedFrames]
  | cons p rest ih =>
    obtain ⟨data, frames⟩ := p
    have h1 := pushedBlock_length ch data frames (hwf _ (List.mem_cons_self _ _))
    have h2 := ih (fun p hp => hwf p (List.mem_cons_of_mem _ hp))
    simp only [pushedSamples, pushedFrames, List.length_append, h1, h2, Nat.add_mul]

theorem fifoRun_pushes {α : Type} (pushes : List (List α × Int)) (q : BoundedFifo α)
    (hq : q.queue.length ≤ q.capacity * q.channels) :
    (fifoRun q (pushes.map (fun p => RingOp.push p.1 p.2))).queue
      = keepNewest (q.capacity * q.channels) (q.queue ++ pushedSamples q.channels pushes) := by
  induction pushes generalizing q with
  | nil =>
    simp only [List.map_nil, fifoRun, pushedSamples, List.append_nil]
    exact (keepNewest_of_le _ _ hq).symm
  | cons p rest ih =>
    obtain ⟨data, frames⟩ := p
    simp only [List.map_cons, fifoRun, pushedSamples]
    rw [ih]
    · simp only [BoundedFifo.push]
      rw [keepNewest_keepNewest_append, List.append_assoc]
    · simp only [BoundedFifo.push]
      rw [keepNewest_length]
      exact Nat.min_le_left _ _
/-- C2: run one call after another on a ring initialised by `initRingBuffer`,
`pushToRing` and `popFromRing` refine the drop-oldest bounded FIFO: for every call
sequence in which each push buffer holds the frames it announces, each pop delivers
exactly what the FIFO (append the block, keep the newest `capacity` frames, pop from the
front) delivers, also across the wrap of the backing array.  In particular, after pushes
announcing at least `capacity` frames in total and no pop, a pop of `capacity` frames
returns `capacity` and delivers the newest `capacity` frames pushed, in order. -/
theorem ring_refines_bounded_fifo {α : Type} [Zero α] (s0 : RingState α)
    (sampleRate channels : Int) (hlo : 0 < sampleRate) (hhi : sampleRate < 1073741824)
    (hch0 : 0 < channels) (hch1 : channels < 2147483648) (hs0 : s0.channelCount = channels) :
    (∀ ops : List (RingOp α), (∀ op ∈ ops, RingOp.WellFormed channels op) →
      ringDelivered (initRingBuffer s0 sampleRate channels) ops
        = fifoDelivered
            ⟨(initRingBuffer s0 sampleRate channels).ringCapacityFrames, channels.toNat, []⟩
            ops) ∧
    (∀ (pushes : List (List α × Int)) (dst : List α),
      (∀ p ∈ pushes, RingOp.WellFormed channels (RingOp.push p.1 p.2)) →
      (initRingBuffer s0 sampleRate channels).ringCapacityFrames ≤ pushedFrames pushes →
      (popFromRing
          (runOps (initRingBuffer s0 sampleRate channels)
            (pushes.map (fun p => RingOp.push p.1 p.2)))
          dst (initRingBuffer s0 sampleRate channels).ringCapacityFrames).2.2
        = (initRingBuffer s0 sampleRate channels).ringCapacityFrames ∧
      (popFromRing
          (runOps (initRingBuffer s0 sampleRate channels)
            (pushes.map (fun p => RingOp.push p.1 p.2)))
          dst (initRingBuffer s0 sampleRate channels).ringCapacityFrames).2.1.take
          ((initRingBuffer s0 sampleRate channels).ringCapacityFrames * channels.toNat)
        = keepNewest ((initRingBuffer s0 sampleRate channels).ringCapacityFrames * channels.toNat)
            (pushedSamples channels.toNat pushes)) := by
  have hrel0 := initRingBuffer_rel s0 sampleRate channels hlo hhi hch0 hch1 hs0
  obtain ⟨hc, hw, hr, hch⟩ := initRingBuffer_fields s0 sampleRate channels hlo hhi
  have hchi : (initRingBuffer s0 sampleRate channels).channelCount = channels := hch.trans hs0
  generalize initRingBuffer s0 sampleRate channels = init at *
  have hchN : ((channels.toNat : Nat) : Int) = channels := by omega
  constructor
  · intro ops hwf
    exact (ring_simulation ops init _ hrel0 (by rw [hchi]; exact hwf)).1
  · intro pushes dst hwf htotal
    have hwfops : ∀ op ∈ pushes.map (fun p => RingOp.push p.1 p.2),
        RingOp.WellFormed init.channelCount op := by
      intro op hop
      obtain ⟨p, hp, rfl⟩ := List.mem_map.mp hop
      rw [hchi]; exact hwf p hp
    obtain ⟨-, hrel⟩ := ring_simulation _ init _ hrel0 hwfops
    have hqueue := fifoRun_pushes pushes
      (⟨init.ringCapacityFrames, channels.toNat, []⟩ : BoundedFifo α) (Nat.zero_le _)
    rw [List.nil_append] at hqueue
    have hplen := pushedSamples_length channels.toNat pushes (by rw [hchN]; exact hwf)
    have hcapS := (runOps_capacity (pushes.map (fun p => RingOp.push p.1 p.2)) init).1
    have hchS := (runOps_capacity (pushes.map (fun p => RingOp.push p.1 p.2)) init).2
    generalize runOps init (pushes.map (fun p => RingOp.push p.1 p.2)) = s at *
    generalize fifoRun (⟨init.ringCapacityFrames, channels.toNat, []⟩ : BoundedFifo α)
      (pushes.map (fun p => RingOp.push p.1 p.2)) = qf at *
    have hqcap : qf.capacity = init.ringCapacityFrames := by rw [← hrel.cap, hcapS]
    have hqch : qf.channels = channels.toNat := by
      have := hrel.chan
      rw [hchS, hchi] at this
      omega
    have hchpos : 0 < channels.toNat := by omega
    have hqlen : qf.queue.length = init.ringCapacityFrames * channels.toNat := by
      change qf.queue = keepNewest (init.ringCapacityFrames * channels.toNat) _ at hqueue
      rw [hqueue, keepNewest_length, hplen]
      exact Nat.min_eq_left (Nat.mul_le_mul_right _ htotal)
    have hU : (s.ringWriteIndex - s.ringReadIndex).toNat = init.ringCapacityFrames := by
      have := hrel.queue_length
      rw [hqlen, hqch] at this
      exact (Nat.eq_of_mul_eq_mul_right hchpos this).symm
    have hCpos : 0 < init.ringCapacityFrames := by omega
    have hpos : ¬ (s.ringCapacityFrames = 0 ∨ (init.ringCapacityFrames : Int) ≤ 0) := by
      rw [hcapS]; omega
    obtain ⟨-, -, hret⟩ := popFromRing_cursors s dst init.ringCapacityFrames
      (by rw [hcapS]; omega) hrel.inv hpos
    have hret2 : (popFromRing s dst init.ringCapacityFrames).2.2 = init.ringCapacityFrames := by
      rw [hret]; omega
    refine ⟨hret2, ?_⟩
    have hdel := (popFromRing_refines s qf hrel dst init.ringCapacityFrames).2
    rw [hret2, hchS, hchi, ← hchN, toNat_mul_natCast _ _ (by omega), Int.toNat_natCast] at hdel
    have hall : (qf.pop init.ringCapacityFrames).2 = qf.queue := by
      unfold BoundedFifo.pop
      dsimp only
      rw [hqlen, hqch, Nat.mul_div_cancel _ hchpos, Nat.min_self]
      exact List.take_of_length_le (le_of_eq hqlen)
    rw [hdel, hall]
    exact hqueue

theorem ring_refines_bounded_fifo_witness :
    (0 : Int) < 2 ∧ (2 : Int) < 1073741824 ∧ (0 : Int) < 1 ∧ (1 : Int) < 2147483648 ∧
    (∀ op ∈ ([RingOp.push [1, 2, 3] 3, RingOp.pop [0, 0, 0, 0] 2,
        RingOp.push [4, 5, 6, 7, 8, 9] 6, RingOp.pop [0, 0, 0, 0] 4] : List (RingOp Int)),
      RingOp.WellFormed (1 : Int) op) ∧
    ringDelivered (initRingBuffer (⟨1, 0, [], 0, 0⟩ : RingState Int) 2 1)
        [RingOp.push [1, 2, 3] 3, RingOp.pop [0, 0, 0, 0] 2,
          RingOp.push [4, 5, 6, 7, 8, 9] 6, RingOp.pop [0, 0, 0, 0] 4]
      = fifoDelivered
          ⟨(initRingBuffer (⟨1, 0, [], 0, 0⟩ : RingState Int) 2 1).ringCapacityFrames,
            (1 : Int).toNat, []⟩
          [RingOp.push [1, 2, 3] 3, RingOp.pop [0, 0, 0, 0] 2,
            RingOp.push [4, 5, 6, 7, 8, 9] 6, RingOp.pop [0, 0, 0, 0] 4] :=
  have hwf : ∀ op ∈ ([RingOp.push [1, 2, 3] 3, RingOp.pop [0, 0, 0, 0] 2,
        RingOp.push [4, 5, 6, 7, 8, 9] 6, RingOp.pop [0, 0, 0, 0] 4] : List (RingOp Int)),
      RingOp.WellFormed (1 : Int) op := by
    intro op hop
    simp only [List.mem_cons, List.mem_singleton, List.not_mem_nil, or_false] at hop
    rcases hop with rfl | rfl | rfl | rfl <;> simp [RingOp.WellFormed]
  ⟨by decide, by decide, by decide, by decide, hwf,
    (ring_refines_bounded_fifo (⟨1, 0, [], 0, 0⟩ : RingState Int) 2 1 (by decide) (by decide)
      (by decide) (by decide) rfl).1 _ hwf⟩

/-! ## Theorems: parameter smoother -/

theorem clamp_range {K : Type} [LinearOrder K] (v lo hi : K) (h : lo ≤ hi) :
    lo ≤ clamp v lo hi ∧ clamp v lo hi ≤ hi ∧ (lo ≤ v → v ≤ hi → clamp v lo hi = v) := by
  unfold clamp
  refine ⟨?_, ?_, ?_⟩
  · split_ifs with h1 h2
    · exact le_refl _
    · exact h
    · exact not_lt.mp h1
  · split_ifs with h1 h2
    · exact h
    · exact le_refl _
    · exact not_lt.mp h2
  · intro h1 h2
    rw [if_neg (not_lt.mpr h1), if_neg (not_lt.mpr h2)]

theorem stdMax_range {K : Type} [LinearOrder K] (a v : K) :
    a ≤ stdMax a v ∧ (a ≤ v → stdMax a v = v) := by
  unfold stdMax
  refine ⟨?_, ?_⟩
  · split_ifs with h1
    · exact le_of_lt h1
    · exact le_refl _
  · intro h
    split_ifs with h1
    · rfl
    · exact le_antisymm h (not_lt.mp h1)

theorem initial_targetsInRange {K : Type} [LinearOrderedField K] :
    TargetsInRange (SmootherState.initial : SmootherState K) := by
  unfold TargetsInRange SmootherState.initial
  norm_num

theorem SetterCall.apply_targetsInRange {K : Type} [LinearOrderedField K] (s : SmootherState K)
    (c : SetterCall K) (h : TargetsInRange s) : TargetsInRange (c.apply s) := by
  obtain ⟨h1, h2, h3, h4, h5, h6⟩ := h
  cases c with
  | tempo x =>
    have := clamp_range x (5 / 10 : K) (15 / 10) (by norm_num)
    exact ⟨⟨this.1, this.2.1⟩, h2, h3, h4, h5, h6⟩
  | pitch x => exact ⟨h1, h2, h3, h4, h5, h6⟩
  | wet x =>
    have := clamp_range x (0 : K) 1 (by norm_num)
    exact ⟨h1, ⟨this.1, this.2.1⟩, h3, h4, h5, h6⟩
  | decay x =>
    have := clamp_range x (2 / 10 : K) 12 (by norm_num)
    exact ⟨h1, h2, ⟨this.1, this.2.1⟩, h4, h5, h6⟩
  | tone x =>
    have := clamp_range x (0 : K) 1 (by norm_num)
    exact ⟨h1, h2, h3, ⟨this.1, this.2.1⟩, h5, h6⟩
  | room x =>
    have := clamp_range x (0 : K) 1 (by norm_num)
    exact ⟨h1, h2, h3, h4, ⟨this.1, this.2.1⟩, h6⟩
  | echo x =>
    exact ⟨h1, h2, h3, h4, h5, (stdMax_range (0 : K) x).1⟩

theorem runSetters_targetsInRange {K : Type} [LinearOrderedField K]
    (calls : List (SetterCall K)) (s : SmootherState K) (h : TargetsInRange s) :
    TargetsInRange (calls.foldl SetterCall.apply s) := by
  induction calls generalizing s with
  | nil => exact h
  | cons c rest ih => exact ih _ (SetterCall.apply_targetsInRange s c h)

theorem clamp_eq_max_min {K : Type} [LinearOrder K] (v lo hi : K) (h : lo ≤ hi) :
    clamp v lo hi = max lo (min v hi) := by
  unfold clamp
  split_ifs with h1 h2
  · rw [min_eq_left (le_trans (le_of_lt h1) h), max_eq_left (le_of_lt h1)]
  · rw [min_eq_right (le_of_lt h2), max_eq_right h]
  · rw [min_eq_left (not_lt.mp h2), max_eq_right (not_lt.mp h1)]

theorem stdMax_eq_max {K : Type} [LinearOrder K] (a b : K) : stdMax a b = max a b := by
  unfold stdMax
  split_ifs with h1
  · rw [max_eq_right (le_of_lt h1)]
  · rw [max_eq_left (not_lt.mp h1)]

/-- C10: after a setter call the stored target is the argument clamped into the
parameter's range: the argument itself when it lies in the range, the lower bound when it
lies below and the upper bound when it lies above, that is `max lo (min x hi)` (tempo in
[0.5, 1.5]; wet, tone and room in [0, 1]; decay in [0.2, 12]), and `max 0 x` for the echo
time.  So the stored value is in the range, an argument already in range is stored
unchanged, and in every state reached from the initial one by setter calls all these targets
lie in their ranges. -/
theorem setters_store_clamped_target {K : Type} [LinearOrderedField K] :
    (∀ (s : SmootherState K) (x : K),
      (setTempo s x).targetTempo = max (5 / 10) (min x (15 / 10)) ∧
      (setWet s x).targetWet = max 0 (min x 1) ∧
      (setDecay s x).targetDecay = max (2 / 10) (min x 12) ∧
      (setTone s x).targetTone = max 0 (min x 1) ∧
      (setRoomSize s x).targetRoom = max 0 (min x 1) ∧
      (setEcho s x).targetEcho = max 0 x) ∧
    (∀ (s : SmootherState K) (x : K),
      (5 / 10 ≤ (setTempo s x).targetTempo ∧ (setTempo s x).targetTempo ≤ 15 / 10 ∧
        (5 / 10 ≤ x → x ≤ 15 / 10 → (setTempo s x).targetTempo = x)) ∧
      (0 ≤ (setWet s x).targetWet ∧ (setWet s x).targetWet ≤ 1 ∧
        (0 ≤ x → x ≤ 1 → (setWet s x).targetWet = x)) ∧
      (2 / 10 ≤ (setDecay s x).targetDecay ∧ (setDecay s x).targetDecay ≤ 12 ∧
        (2 / 10 ≤ x → x ≤ 12 → (setDecay s x).targetDecay = x)) ∧
      (0 ≤ (setTone s x).targetTone ∧ (setTone s x).targetTone ≤ 1 ∧
        (0 ≤ x → x ≤ 1 → (setTone s x).targetTone = x)) ∧
      (0 ≤ (setRoomSize s x).targetRoom ∧ (setRoomSize s x).targetRoom ≤ 1 ∧
        (0 ≤ x → x ≤ 1 → (setRoomSize s x).targetRoom = x)) ∧
      (0 ≤ (setEcho s x).targetEcho ∧ (0 ≤ x → (setEcho s x).targetEcho = x))) ∧
    (∀ calls : List (SetterCall K),
      TargetsInRange (calls.foldl SetterCall.apply (SmootherState.initial : SmootherState K))) := by
  refine ⟨fun s x => ⟨?_, ?_, ?_, ?_, ?_, ?_⟩, fun s x => ⟨?_, ?_, ?_, ?_, ?_, ?_⟩, fun calls =>
    runSetters_targetsInRange calls _ initial_targetsInRange⟩
  · exact clamp_eq_max_min x (5 / 10 : K) (15 / 10) (by norm_num)
  · exact clamp_eq_max_min x (0 : K) 1 (by norm_num)
  · exact clamp_eq_max_min x (2 / 10 : K) 12 (by norm_num)
  · exact clamp_eq_max_min x (0 : K) 1 (by norm_num)
  · exact clamp_eq_max_min x (0 : K) 1 (by norm_num)
  · exact stdMax_eq_max (0 : K) x
  · exact clamp_range x (5 / 10 : K) (15 / 10) (by norm_num)
  · exact clamp_range x (0 : K) 1 (by norm_num)
  · exact clamp_range x (2 / 10 : K) 12 (by norm_num)
  · exact clamp_range x (0 : K) 1 (by norm_num)
  · exact clamp_range x (0 : K) 1 (by norm_num)
  · exact stdMax_range (0 : K) x

/-- C5: for every current value, target and smoothing factor `f` with `0 < f < 1` (in
particular 0.12 and 0.08), `smoothTowards current target f` lies between `current` and
`target`, is no further from the target than `current` was, and is strictly nearer
whenever `current` differs from `target` (exact arithmetic in any linearly ordered
field). -/
theorem smoothTowards_no_overshoot {K : Type} [LinearOrderedField K] (current target f : K)
    (hf0 : 0 < f) (hf1 : f < 1) :
    (min current target ≤ smoothTowards current target f ∧
      smoothTowards current target f ≤ max current target) ∧
    |target - smoothTowards current target f| ≤ |target - current| ∧
    (current ≠ target →
      |target - smoothTowards current target f| < |target - current|) := by
  unfold smoothTowards
  dsimp only
  split_ifs with h
  · refine ⟨⟨min_le_right _ _, le_max_right _ _⟩, ?_, ?_⟩
    · rw [sub_self, abs_zero]; exact abs_nonneg _
    · intro hne
      rw [sub_self, abs_zero]
      exact abs_pos.mpr (sub_ne_zero.mpr (Ne.symm hne))
  · have heq : target - (current + (target - current) * f) = (target - current) * (1 - f) := by
      ring
    have h1f : 0 < 1 - f := sub_pos.mpr hf1
    have habs : |target - (current + (target - current) * f)|
        = |target - current| * (1 - f) := by
      rw [heq, abs_mul, abs_of_pos h1f]
    have hpos : 0 < |target - current| :=
      lt_of_lt_of_le (by norm_num) (not_lt.mp h)
    refine ⟨?_, ?_, ?_⟩
    · rcases le_total current target with hle | hle
      · have hd : 0 ≤ target - current := sub_nonneg.mpr hle
        rw [min_eq_left hle, max_eq_right hle]
        constructor
        · linarith [mul_nonneg hd (le_of_lt hf0)]
        · nlinarith [mul_nonneg hd (le_of_lt h1f)]
      · have hd : 0 ≤ current - target := sub_nonneg.mpr hle
        rw [min_eq_right hle, max_eq_left hle]
        constructor
        · nlinarith [mul_nonneg hd (le_of_lt h1f)]
        · nlinarith [mul_nonneg hd (le_of_lt hf0)]
    · rw [habs]
      nlinarith [mul_pos hpos hf0]
    · intro _
      rw [habs]
      nlinarith [mul_pos hpos hf0]

theorem smoothTowards_no_overshoot_witness :
    (0 : ℚ) < 12 / 100 ∧ (12 / 100 : ℚ) < 1 ∧
    ((min (1 : ℚ) (3 / 2) ≤ smoothTowards 1 (3 / 2) (12 / 100) ∧
      smoothTowards (1 : ℚ) (3 / 2) (12 / 100) ≤ max 1 (3 / 2)) ∧
    |(3 / 2 : ℚ) - smoothTowards 1 (3 / 2) (12 / 100)| ≤ |(3 / 2 : ℚ) - 1| ∧
    ((1 : ℚ) ≠ 3 / 2 →
      |(3 / 2 : ℚ) - smoothTowards 1 (3 / 2) (12 / 100)| < |(3 / 2 : ℚ) - 1|)) :=
  ⟨by norm_num, by norm_num,
    smoothTowards_no_overshoot (1 : ℚ) (3 / 2) (12 / 100) (by norm_num) (by norm_num)⟩
theorem smoothTowards_self {K : Type} [LinearOrderedField K] (c f : K) :
    smoothTowards c c f = c := by
  unfold smoothTowards
  simp

/-- C6: if every parameter's target equals its current value, one call of
`updateSmoothedParameters` makes no downstream call (no `setTempo`, no
`setPitchSemiTones`, no `setParameters`, hence no delay line is resized) and leaves the
state, in particular every current value, unchanged. -/
theorem update_at_target_no_reconfiguration {K : Type} [LinearOrderedField K]
    (s : SmootherState K)
    (hTempo : s.targetTempo = s.currentTempo) (hPitch : s.targetPitch = s.pitchSemi)
    (hWet : s.targetWet = s.wetMix) (hDecay : s.targetDecay = s.decaySeconds)
    (hTone : s.targetTone = s.toneBalance) (hRoom : s.targetRoom = s.roomSize)
    (hEcho : s.targetEcho = s.echoMs) :
    updateSmoothedParameters s = (s, []) := by
  cases s
  dsimp only at hTempo hPitch hWet hDecay hTone hRoom hEcho
  subst hTempo hPitch hWet hDecay hTone hRoom hEcho
  unfold updateSmoothedParameters
  simp only [smoothTowards_self, sub_self, abs_zero]
  norm_num

theorem update_at_target_no_reconfiguration_witness :
    (SmootherState.initial : SmootherState ℚ).targetTempo = SmootherState.initial.currentTempo ∧
    (SmootherState.initial : SmootherState ℚ).targetPitch = SmootherState.initial.pitchSemi ∧
    (SmootherState.initial : SmootherState ℚ).targetWet = SmootherState.initial.wetMix ∧
    (SmootherState.initial : SmootherState ℚ).targetDecay = SmootherState.initial.decaySeconds ∧
    (SmootherState.initial : SmootherState ℚ).targetTone = SmootherState.initial.toneBalance ∧
    (SmootherState.initial : SmootherState ℚ).targetRoom = SmootherState.initial.roomSize ∧
    (SmootherState.initial : SmootherState ℚ).targetEcho = SmootherState.initial.echoMs ∧
    updateSmoothedParameters (SmootherState.initial : SmootherState ℚ)
      = (SmootherState.initial, []) :=
  ⟨rfl, rfl, rfl, rfl, rfl, rfl, rfl,
    update_at_target_no_reconfiguration SmootherState.initial rfl rfl rfl rfl rfl rfl rfl⟩
theorem update_preserves_targets {K : Type} [LinearOrderedField K] (s : SmootherState K) :
    (updateSmoothedParameters s).1.targetTempo = s.targetTempo ∧
    (updateSmoothedParameters s).1.targetPitch = s.targetPitch ∧
    (updateSmoothedParameters s).1.targetWet = s.targetWet ∧
    (updateSmoothedParameters s).1.currentTempo
      = smoothTowards s.currentTempo s.targetTempo (12 / 100) ∧
    (updateSmoothedParameters s).1.pitchSemi
      = smoothTowards s.pitchSemi s.targetPitch (12 / 100) := by
  unfold updateSmoothedParameters
  dsimp only
  split_ifs <;> exact ⟨rfl, rfl, rfl, rfl, rfl⟩

/-- The state after `setWet(0.255)` on the initial state is a fixed point of
`updateSmoothedParameters`: the wet step 0.0004 is below the 0.0005 threshold, so the
reverb branch assigns nothing. -/
theorem update_after_setWet_stalls :
    updateSmoothedParameters (setWet (SmootherState.initial : SmootherState ℚ) (255 / 1000))
      = (setWet SmootherState.initial (255 / 1000), []) := by
  unfold updateSmoothedParameters setWet SmootherState.initial smoothTowards clamp
  norm_num [abs_lt, abs_of_nonneg, abs_of_pos]

/-- C4 (failing input): from the initial state, after `setWet(0.255)` and no further
setter call, the current wet mix stays at 0.25 after any number of
`updateSmoothedParameters` calls and never equals its target 0.255. -/
theorem wet_mix_never_reaches_target (n : Nat) :
    (advance n (setWet (SmootherState.initial : SmootherState ℚ) (255 / 1000))).wetMix = 25 / 100 ∧
    (advance n (setWet (SmootherState.initial : SmootherState ℚ) (255 / 1000))).targetWet
      = 255 / 1000 ∧
    (advance n (setWet (SmootherState.initial : SmootherState ℚ) (255 / 1000))).wetMix
      ≠ (advance n (setWet (SmootherState.initial : SmootherState ℚ) (255 / 1000))).targetWet := by
  have hfix : advance n (setWet (SmootherState.initial : SmootherState ℚ) (255 / 1000))
      = setWet SmootherState.initial (255 / 1000) := by
    induction n with
    | zero => rfl
    | succ k ih =>
      show advance k (updateSmoothedParameters _).1 = _
      rw [update_after_setWet_stalls]
      exact ih
  rw [hfix]
  unfold setWet SmootherState.initial clamp
  norm_num
theorem smoothTowards_step {K : Type} [LinearOrderedField K] (c t f : K)
    (hf0 : 0 < f) (hf1 : f < 1) :
    (|t - c| < 1 / 10000 → smoothTowards c t f = t) ∧
    |t - smoothTowards c t f| ≤ (1 - f) * |t - c| := by
  have h1f : 0 < 1 - f := sub_pos.mpr hf1
  unfold smoothTowards
  dsimp only
  constructor
  · intro h; rw [if_pos h]
  · split_ifs with h
    · rw [sub_self, abs_zero]; exact mul_nonneg (le_of_lt h1f) (abs_nonneg _)
    · have heq : t - (c + (t - c) * f) = (1 - f) * (t - c) := by ring
      rw [heq, abs_mul, abs_of_pos h1f]

theorem smoothTowards_iterate_bound {K : Type} [LinearOrderedField K] (t f : K)
    (hf0 : 0 < f) (hf1 : f < 1) (c : K) (n : Nat) :
    |t - (fun x => smoothTowards x t f)^[n] c| ≤ (1 - f) ^ n * |t - c| := by
  have h1f : 0 ≤ 1 - f := le_of_lt (sub_pos.mpr hf1)
  induction n with
  | zero => simp
  | succ k ih =>
    rw [Function.iterate_succ_apply', pow_succ]
    calc |t - smoothTowards ((fun x => smoothTowards x t f)^[k] c) t f|
        ≤ (1 - f) * |t - (fun x => smoothTowards x t f)^[k] c| :=
          (smoothTowards_step _ t f hf0 hf1).2
      _ ≤ (1 - f) * ((1 - f) ^ k * |t - c|) := mul_le_mul_of_nonneg_left ih h1f
      _ = (1 - f) ^ k * (1 - f) * |t - c| := by ring

/-- Iterating `smoothTowards` alone reaches the target exactly after finitely many
steps and stays there (in an Archimedean field). -/
theorem smoothTowards_iterate_converges {K : Type} [LinearOrderedField K] [Archimedean K]
    (t f : K) (hf0 : 0 < f) (hf1 : f < 1) (c : K) :
    ∃ n : Nat, ∀ m, n ≤ m → (fun x => smoothTowards x t f)^[m] c = t := by
  have h1f0 : 0 ≤ 1 - f := le_of_lt (sub_pos.mpr hf1)
  have h1f1 : 1 - f < 1 := by linarith
  have hden : 0 < |t - c| + 1 := by linarith [abs_nonneg (t - c)]
  obtain ⟨n, hn⟩ := exists_pow_lt_of_lt_one
    (show (0 : K) < 1 / 10000 / (|t - c| + 1) from div_pos (by norm_num) hden) h1f1
  have hsmall : |t - (fun x => smoothTowards x t f)^[n] c| < 1 / 10000 := by
    have h1 := smoothTowards_iterate_bound t f hf0 hf1 c n
    have h2 : (1 - f) ^ n * (|t - c| + 1) < 1 / 10000 := by
      rwa [lt_div_iff₀ hden] at hn
    have h3 : (1 - f) ^ n * |t - c| ≤ (1 - f) ^ n * (|t - c| + 1) :=
      mul_le_mul_of_nonneg_left (by linarith) (pow_nonneg h1f0 n)
    linarith
  refine ⟨n + 1, fun m hm => ?_⟩
  obtain ⟨k, rfl⟩ : ∃ k, m = n + 1 + k := ⟨m - (n + 1), by omega⟩
  induction k with
  | zero =>
    rw [Nat.add_zero, Function.iterate_succ_apply']
    exact (smoothTowards_step _ t f hf0 hf1).1 hsmall
  | succ j ih =>
    rw [← Nat.add_assoc, Function.iterate_succ_apply', ih (by omega)]
    exact smoothTowards_self t f

theorem advance_tempo_pitch {K : Type} [LinearOrderedField K] (n : Nat) (s : SmootherState K) :
    (advance n s).targetTempo = s.targetTempo ∧ (advance n s).targetPitch = s.targetPitch ∧
    (advance n s).currentTempo
      = (fun x => smoothTowards x s.targetTempo (12 / 100))^[n] s.currentTempo ∧
    (advance n s).pitchSemi
      = (fun x => smoothTowards x s.targetPitch (12 / 100))^[n] s.pitchSemi := by
  induction n generalizing s with
  | zero => exact ⟨rfl, rfl, rfl, rfl⟩
  | succ k ih =>
    obtain ⟨h1, h2, -, h4, h5⟩ := update_preserves_targets s
    obtain ⟨i1, i2, i3, i4⟩ := ih (updateSmoothedParameters s).1
    rw [h1] at i1 i3
    rw [h2] at i2 i4
    rw [h4] at i3
    rw [h5] at i4
    exact ⟨i1, i2, by rw [Function.iterate_succ_apply]; exact i3,
      by rw [Function.iterate_succ_apply]; exact i4⟩

/-- The part of C4 the code keeps: with no target change, the current tempo and the
current pitch equal their targets exactly after finitely many
`updateSmoothedParameters` calls, and from then on. -/
theorem tempo_and_pitch_converge {K : Type} [LinearOrderedField K] [Archimedean K]
    (s : SmootherState K) :
    ∃ n : Nat, ∀ m, n ≤ m →
      (advance m s).currentTempo = (advance m s).targetTempo ∧
      (advance m s).pitchSemi = (advance m s).targetPitch := by
  obtain ⟨n1, h1⟩ := smoothTowards_iterate_converges s.targetTempo (12 / 100)
    (by norm_num) (by norm_num) s.currentTempo
  obtain ⟨n2, h2⟩ := smoothTowards_iterate_converges s.targetPitch (12 / 100)
    (by norm_num) (by norm_num) s.pitchSemi
  refine ⟨max n1 n2, fun m hm => ?_⟩
  obtain ⟨a1, a2, a3, a4⟩ := advance_tempo_pitch m s
  rw [a1, a2, a3, a4]
  exact ⟨h1 m (le_trans (le_max_left _ _) hm), h2 m (le_trans (le_max_right _ _) hm)⟩

/-! ## Theorems: binary32 rounding -/

theorem roundHalfEven_le {K : Type} [LinearOrderedField K] [FloorRing K]
    (y : K) (N : Int) (h : y ≤ N) : roundHalfEven y ≤ N := by
  have hfl : Int.floor y ≤ N := Int.cast_le.mp (le_trans (Int.floor_le y) h)
  have hstep : ¬ (y - (Int.floor y : K) < 1 / 2) → Int.floor y + 1 ≤ N := by
    intro hfrac
    rcases lt_or_eq_of_le hfl with hlt | heq
    · omega
    · exfalso
      apply hfrac
      have hy : y = (Int.floor y : K) := le_antisymm (by rw [heq]; exact h) (Int.floor_le y)
      rw [← hy, sub_self]
      norm_num
  unfold roundHalfEven
  split_ifs with c1 c2 c3
  · exact hfl
  · exact hstep c1
  · exact hfl
  · exact hstep c1

theorem roundHalfEven_ge {K : Type} [LinearOrderedField K] [FloorRing K]
    (y : K) (N : Int) (h : (N : K) ≤ y) : N ≤ roundHalfEven y := by
  have hfl : N ≤ Int.floor y := Int.le_floor.mpr h
  unfold roundHalfEven
  split_ifs <;> omega

theorem roundHalfEven_intCast {K : Type} [LinearOrderedField K] [FloorRing K]
    (n : Int) : roundHalfEven (n : K) = n := by
  exact le_antisymm (roundHalfEven_le _ _ le_rfl) (roundHalfEven_ge _ _ le_rfl)

theorem roundHalfEven_near {K : Type} [LinearOrderedField K] [FloorRing K]
    (y : K) (n : Int) (h : |y - n| < 1 / 2) : roundHalfEven y = n := by
  rw [abs_lt] at h
  obtain ⟨h1, h2⟩ := h
  rcases le_or_lt (n : K) y with hge | hlt
  · have hfl : Int.floor y = n := by
      rw [Int.floor_eq_iff]
      constructor
      · exact hge
      · linarith
    unfold roundHalfEven
    rw [hfl, if_pos (by linarith)]
  · have hfl : Int.floor y = n - 1 := by
      rw [Int.floor_eq_iff]
      push_cast
      constructor <;> linarith
    unfold roundHalfEven
    rw [hfl]
    push_cast
    rw [if_neg (by linarith), if_pos (by linarith)]
    omega

theorem two_zpow_pos {K : Type} [LinearOrderedField K] (k : Int) : (0 : K) < (2 : K) ^ k := zpow_pos (by norm_num) k

theorem roundF32_nonneg {K : Type} [LinearOrderedField K] [FloorRing K]
    (x : K) (h : 0 ≤ x) : 0 ≤ roundF32 x := by
  unfold roundF32
  apply mul_nonneg _ (two_zpow_pos _).le
  have : (0 : Int) ≤ roundHalfEven (x / (2 : K) ^ (binary32Exponent x - 23)) := by
    apply roundHalfEven_ge
    rw [Int.cast_zero]
    exact div_nonneg h (two_zpow_pos _).le
  exact_mod_cast this

theorem two_zpow_natCast {K : Type} [LinearOrderedField K] (n : Int) (hn : 0 ≤ n) :
    (2 : K) ^ n = (((2 : Int) ^ n.toNat : Int) : K) := by
  obtain ⟨m, rfl⟩ := Int.eq_ofNat_of_zero_le hn
  rw [Int.toNat_natCast, zpow_natCast]
  push_cast
  rfl

theorem binary32Exponent_ge {K : Type} [LinearOrderedField K] [FloorRing K]
    (x : K) : -126 ≤ binary32Exponent x := le_max_right _ _

theorem binary32Exponent_le {K : Type} [LinearOrderedField K] [FloorRing K]
    (x : K) (k : Int) (hk : -126 ≤ k) (hpos : 0 < |x|)
    (h : |x| < (2 : K) ^ (k + 1)) : binary32Exponent x ≤ k := by
  unfold binary32Exponent
  apply max_le _ hk
  have := (Int.lt_zpow_iff_log_lt (b := 2) (by norm_num) hpos).mp (by exact_mod_cast h)
  omega

theorem binary32Exponent_eq {K : Type} [LinearOrderedField K] [FloorRing K]
    (x : K) (e : Int) (he : -126 ≤ e) (h1 : (2 : K) ^ e ≤ |x|)
    (h2 : |x| < (2 : K) ^ (e + 1)) : binary32Exponent x = e := by
  have hpos : 0 < |x| := lt_of_lt_of_le (two_zpow_pos e) h1
  apply le_antisymm (binary32Exponent_le x e he hpos h2)
  unfold binary32Exponent
  apply le_max_of_le_left
  exact (Int.zpow_le_iff_le_log (b := 2) (by norm_num) hpos).mp (by exact_mod_cast h1)

/-- Rounding never crosses a power of two from below. -/
theorem roundF32_le_two_zpow {K : Type} [LinearOrderedField K] [FloorRing K]
    (x : K) (k : Int) (hk : -149 ≤ k) (h : x ≤ (2 : K) ^ k) :
    roundF32 x ≤ (2 : K) ^ k := by
  rcases le_or_lt x 0 with hx | hx
  · unfold roundF32
    have : roundHalfEven (x / (2 : K) ^ (binary32Exponent x - 23)) ≤ (0 : Int) := by
      apply roundHalfEven_le
      rw [Int.cast_zero]
      exact div_nonpos_of_nonpos_of_nonneg hx (two_zpow_pos _).le
    have h2 : ((roundHalfEven (x / (2 : K) ^ (binary32Exponent x - 23)) : Int) : K) ≤ 0 := by
      exact_mod_cast this
    exact le_trans (mul_nonpos_of_nonpos_of_nonneg h2 (two_zpow_pos _).le) (two_zpow_pos _).le
  · have he : binary32Exponent x ≤ max k (-126) := by
      apply binary32Exponent_le x _ (le_max_right _ _) (abs_pos.mpr hx.ne')
      rw [abs_of_pos hx]
      apply lt_of_le_of_lt h
      apply zpow_lt_zpow_right₀ (by norm_num)
      have := le_max_left k (-126)
      omega
    have hexp : 0 ≤ k - (binary32Exponent x - 23) := by
      rcases le_total k (-126) with hc | hc
      · rw [max_eq_right hc] at he; omega
      · rw [max_eq_left hc] at he; omega
    have hq := two_zpow_pos (K := K) (binary32Exponent x - 23)
    have hsplit : (2 : K) ^ k =
        (((2 : Int) ^ (k - (binary32Exponent x - 23)).toNat : Int) : K)
          * (2 : K) ^ (binary32Exponent x - 23) := by
      rw [← two_zpow_natCast _ hexp, ← zpow_add₀ (by norm_num)]
      congr 1
      omega
    unfold roundF32
    rw [hsplit]
    apply mul_le_mul_of_nonneg_right _ hq.le
    have : roundHalfEven (x / (2 : K) ^ (binary32Exponent x - 23)) ≤
        (2 : Int) ^ (k - (binary32Exponent x - 23)).toNat := by
      apply roundHalfEven_le
      rw [div_le_iff₀ hq, ← hsplit]
      exact h
    exact_mod_cast this

/-- Rounding never crosses a power of two (in the normal range) from above. -/
theorem roundF32_ge_two_zpow {K : Type} [LinearOrderedField K] [FloorRing K]
    (x : K) (k : Int) (hk : -126 ≤ k) (h : (2 : K) ^ k ≤ x) :
    (2 : K) ^ k ≤ roundF32 x := by
  have hx : 0 < x := lt_of_lt_of_le (two_zpow_pos k) h
  have hlog : k ≤ Int.log 2 x :=
    (Int.zpow_le_iff_le_log (b := 2) (by norm_num) hx).mp (by exact_mod_cast h)
  have he : binary32Exponent x = Int.log 2 x := by
    unfold binary32Exponent
    rw [abs_of_pos hx]
    exact max_eq_left (by omega)
  have hle : (2 : K) ^ (Int.log 2 x) ≤ x := by
    have := Int.zpow_log_le_self (b := 2) (by norm_num) hx
    exact_mod_cast this
  have hq := two_zpow_pos (K := K) (binary32Exponent x - 23)
  have hsplit : (2 : K) ^ (Int.log 2 x) =
      (((2 : Int) ^ (23 : Nat) : Int) : K) * (2 : K) ^ (binary32Exponent x - 23) := by
    have h23 : (((2 : Int) ^ (23 : Nat) : Int) : K) = (2 : K) ^ (23 : Int) := by
      norm_num
    rw [h23, ← zpow_add₀ (by norm_num), he]
    congr 1
    omega
  have h1 : (2 : K) ^ k ≤ (2 : K) ^ (Int.log 2 x) := zpow_le_zpow_right₀ (by norm_num) hlog
  apply le_trans h1
  rw [hsplit]
  unfold roundF32
  apply mul_le_mul_of_nonneg_right _ hq.le
  have : (2 : Int) ^ (23 : Nat) ≤ roundHalfEven (x / (2 : K) ^ (binary32Exponent x - 23)) := by
    apply roundHalfEven_ge
    rw [le_div_iff₀ hq, ← hsplit]
    exact hle
  exact_mod_cast this

theorem roundF32_zero {K : Type} [LinearOrderedField K] [FloorRing K] : roundF32 (0 : K) = 0 := by
  unfold roundF32
  rw [zero_div]
  have := roundHalfEven_intCast (K := K) 0
  rw [Int.cast_zero] at this
  rw [this, Int.cast_zero, zero_mul]

/-- A value `m * 2^k` with `|m| < 2^24` and `k ≥ -149` is a binary32 number: rounding leaves
it as it is. -/
theorem roundF32_of_representable {K : Type} [LinearOrderedField K] [FloorRing K]
    (m k : Int) (hm : |m| < 16777216) (hk : -149 ≤ k) :
    roundF32 ((m : K) * (2 : K) ^ k) = (m : K) * (2 : K) ^ k := by
  rcases eq_or_ne m 0 with hm0 | hm0
  · rw [hm0, Int.cast_zero, zero_mul, roundF32_zero]
  have hq := two_zpow_pos (K := K) (binary32Exponent ((m : K) * (2 : K) ^ k) - 23)
  have hxpos : 0 < |(m : K) * (2 : K) ^ k| :=
    abs_pos.mpr (mul_ne_zero (Int.cast_ne_zero.mpr hm0) (two_zpow_pos k).ne')
  have hlt : |(m : K) * (2 : K) ^ k| < (2 : K) ^ (max (k + 23) (-126) + 1) := by
    rw [abs_mul, abs_of_pos (a := (2 : K) ^ k) (two_zpow_pos k)]
    have h1 : |(m : K)| < (2 : K) ^ (24 : Int) := by
      have : ((|m| : Int) : K) < ((16777216 : Int) : K) := Int.cast_lt.mpr hm
      rw [Int.cast_abs] at this
      calc |(m : K)| < ((16777216 : Int) : K) := this
        _ = (2 : K) ^ (24 : Int) := by norm_num
    calc |(m : K)| * (2 : K) ^ k < (2 : K) ^ (24 : Int) * (2 : K) ^ k :=
          mul_lt_mul_of_pos_right h1 (two_zpow_pos k)
      _ = (2 : K) ^ (k + 23 + 1) := by
          rw [← zpow_add₀ (by norm_num)]
          congr 1
          omega
      _ ≤ (2 : K) ^ (max (k + 23) (-126) + 1) := by
          apply zpow_le_zpow_right₀ (by norm_num)
          have := le_max_left (k + 23) (-126)
          omega
  have he := binary32Exponent_le _ _ (le_max_right (k + 23) (-126)) hxpos hlt
  have hexp : 0 ≤ k - (binary32Exponent ((m : K) * (2 : K) ^ k) - 23) := by
    rcases le_total (k + 23) (-126) with hc | hc
    · rw [max_eq_right hc] at he; omega
    · rw [max_eq_left hc] at he; omega
  have hsplit : (2 : K) ^ k =
      (((2 : Int) ^ (k - (binary32Exponent ((m : K) * (2 : K) ^ k) - 23)).toNat : Int) : K)
        * (2 : K) ^ (binary32Exponent ((m : K) * (2 : K) ^ k) - 23) := by
    rw [← two_zpow_natCast _ hexp, ← zpow_add₀ (by norm_num)]
    congr 1
    omega
  have hy : (m : K) * (2 : K) ^ k / (2 : K) ^ (binary32Exponent ((m : K) * (2 : K) ^ k) - 23)
      = ((m * (2 : Int) ^ (k - (binary32Exponent ((m : K) * (2 : K) ^ k) - 23)).toNat : Int) : K)
      := by
    rw [div_eq_iff hq.ne']
    rw [Int.cast_mul, mul_assoc, ← hsplit]
  unfold roundF32
  rw [hy, roundHalfEven_intCast, Int.cast_mul, mul_assoc, ← hsplit]

theorem roundF32_natCast {K : Type} [LinearOrderedField K] [FloorRing K]
    (n : Nat) (hn : n < 16777216) : roundF32 (n : K) = n := by
  have := roundF32_of_representable (K := K) (n : Int) 0 (by rw [abs_of_nonneg] <;> omega)
    (by omega)
  simpa using this

/-- Evaluation of a rounding: if `x` lies in the binade of `2^e` and `n` is the integer
nearest to `x / 2^(e - 23)`, the rounded value is `n * 2^(e - 23)`. -/
theorem roundF32_eq_of_near {K : Type} [LinearOrderedField K] [FloorRing K]
    (x : K) (e n : Int) (he : -126 ≤ e) (h1 : (2 : K) ^ e ≤ |x|)
    (h2 : |x| < (2 : K) ^ (e + 1)) (h3 : |x / (2 : K) ^ (e - 23) - n| < 1 / 2) :
    roundF32 x = (n : K) * (2 : K) ^ (e - 23) := by
  unfold roundF32
  rw [binary32Exponent_eq x e he h1 h2, roundHalfEven_near _ n h3]

/-! ## Theorems: the float delay and its conversion to a length -/

theorem combBaseMs_le (i : Nat) : combBaseMs i ≤ 67 := by
  unfold combBaseMs
  rcases i with _ | _ | _ | _ | _ <;> simp

theorem echoBaseMs_le (i : Nat) : echoBaseMs i ≤ 180 := by
  unfold echoBaseMs
  rcases i with _ | _ | _ <;> simp

/-- Rounding keeps a value between 0 and a power of two there. -/
theorem roundF32_mem {K : Type} [LinearOrderedField K] [FloorRing K] (x : K) (k : Int)
    (hk : -149 ≤ k) (h0 : 0 ≤ x) (h : x ≤ (2 : K) ^ k) :
    0 ≤ roundF32 x ∧ roundF32 x ≤ (2 : K) ^ k :=
  ⟨roundF32_nonneg x h0, roundF32_le_two_zpow x k hk h⟩

theorem roundF32_sampleRate {K : Type} [LinearOrderedField K] [FloorRing K] (n : Int)
    (h0 : 0 ≤ n) (h1 : n < 2147483648) :
    0 ≤ roundF32 (n : K) ∧ roundF32 (n : K) ≤ (2 : K) ^ (31 : Int) := by
  apply roundF32_mem _ _ (by norm_num)
  · exact_mod_cast h0
  · have : (n : K) ≤ ((2147483648 : Int) : K) := Int.cast_le.mpr (le_of_lt h1)
    calc (n : K) ≤ ((2147483648 : Int) : K) := this
      _ = (2 : K) ^ (31 : Int) := by norm_num

/-- In the range where the conversion is defined (and a little below its upper end),
`static_cast<size_t>` takes the integer part. -/
theorem floatToSizeT_eq_floor {K : Type} [LinearOrderedField K] [FloorRing K] (x : K)
    (h0 : 0 ≤ x) (h1 : x ≤ (2 : K) ^ (63 : Int)) :
    floatToSizeT x = Nat.floor x ∧ Nat.floor x ≤ 9223372036854775808 := by
  have hfl : Nat.floor x ≤ 9223372036854775808 := by
    apply Nat.floor_le_of_le
    calc x ≤ (2 : K) ^ (63 : Int) := h1
      _ = ((9223372036854775808 : Nat) : K) := by norm_num
  refine ⟨?_, hfl⟩
  unfold floatToSizeT truncToInt
  rw [if_pos h0]
  have hi : Int.floor x = ((Nat.floor x : Nat) : Int) := (Int.natCast_floor_eq_floor h0).symm
  rw [hi]
  unfold castSizeT
  omega

theorem samples_of_range {K : Type} [LinearOrderedField K] [FloorRing K] (x : K)
    (h0 : 0 ≤ x) (h1 : x ≤ (2 : K) ^ (63 : Int)) :
    (floatToSizeT x + 1) % 18446744073709551616 = Nat.floor x + 1 := by
  obtain ⟨e, hle⟩ := floatToSizeT_eq_floor x h0 h1
  rw [e]
  omega

theorem combDelaySamples_range {K : Type} [LinearOrderedField K] [FloorRing K]
    (r : SimpleReverb K) (hr : DelayInRange r) (i : Nat) :
    0 ≤ combDelaySamples r i ∧ combDelaySamples r i ≤ (2 : K) ^ (39 : Int) := by
  obtain ⟨hr0, hr1, -, -, hs0, hs1⟩ := hr
  have c8 := roundF32_mem (8 / 10 : K) 0 (by norm_num) (by norm_num) (by norm_num)
  have hm1 := roundF32_mem (r.room * roundF32 (8 / 10)) 0 (by norm_num)
    (mul_nonneg hr0 c8.1) (by
      have := mul_le_mul hr1 c8.2 c8.1 (by norm_num : (0 : K) ≤ 1)
      simpa using this)
  have hscale := roundF32_mem (1 / 2 + roundF32 (r.room * roundF32 (8 / 10))) 1 (by norm_num)
    (by linarith [hm1.1]) (by
      have := hm1.2
      norm_num at this ⊢
      linarith)
  have hb0 : (0 : K) ≤ (combBaseMs i : K) := Nat.cast_nonneg _
  have hb1 : (combBaseMs i : K) ≤ (2 : K) ^ (7 : Int) := by
    have : (combBaseMs i : K) ≤ ((67 : Nat) : K) := Nat.cast_le.mpr (combBaseMs_le i)
    calc (combBaseMs i : K) ≤ ((67 : Nat) : K) := this
      _ ≤ (2 : K) ^ (7 : Int) := by norm_num
  have hdelay := roundF32_mem
    ((combBaseMs i : K) * roundF32 (1 / 2 + roundF32 (r.room * roundF32 (8 / 10)))) 8
    (by norm_num) (mul_nonneg hb0 hscale.1) (by
      have := mul_le_mul hb1 hscale.2 hscale.1 (by positivity : (0 : K) ≤ (2 : K) ^ (7 : Int))
      calc _ ≤ (2 : K) ^ (7 : Int) * (2 : K) ^ (1 : Int) := this
        _ = (2 : K) ^ (8 : Int) := by norm_num)
  have hsr := roundF32_sampleRate (K := K) r.sampleRate hs0 hs1
  have hprod := roundF32_mem
    (roundF32 ((combBaseMs i : K) * roundF32 (1 / 2 + roundF32 (r.room * roundF32 (8 / 10))))
      * roundF32 (r.sampleRate : K)) 39
    (by norm_num) (mul_nonneg hdelay.1 hsr.1) (by
      have := mul_le_mul hdelay.2 hsr.2 hsr.1 (by positivity : (0 : K) ≤ (2 : K) ^ (8 : Int))
      calc _ ≤ (2 : K) ^ (8 : Int) * (2 : K) ^ (31 : Int) := this
        _ = (2 : K) ^ (39 : Int) := by norm_num)
  unfold combDelaySamples
  dsimp only
  apply roundF32_mem _ _ (by norm_num)
  · exact div_nonneg hprod.1 (by norm_num)
  · calc _ ≤ roundF32 (roundF32 ((combBaseMs i : K)
          * roundF32 (1 / 2 + roundF32 (r.room * roundF32 (8 / 10))))
          * roundF32 (r.sampleRate : K)) :=
        div_le_self hprod.1 (by norm_num)
      _ ≤ (2 : K) ^ (39 : Int) := hprod.2

theorem echoDelaySamples_range {K : Type} [LinearOrderedField K] [FloorRing K]
    (r : SimpleReverb K) (hr : DelayInRange r) (i : Nat) :
    0 ≤ echoDelaySamples r i ∧ echoDelaySamples r i ≤ (2 : K) ^ (63 : Int) := by
  obtain ⟨-, -, he0, he1, hs0, hs1⟩ := hr
  have hb0 : (0 : K) ≤ (echoBaseMs i : K) := Nat.cast_nonneg _
  have hb1 : (echoBaseMs i : K) ≤ 180 := by
    have : (echoBaseMs i : K) ≤ ((180 : Nat) : K) := Nat.cast_le.mpr (echoBaseMs_le i)
    simpa using this
  have hdelay := roundF32_mem ((echoBaseMs i : K) + r.echoMs) 41 (by norm_num)
    (add_nonneg hb0 he0) (by
      calc (echoBaseMs i : K) + r.echoMs ≤ 180 + 1099511627776 := add_le_add hb1 he1
        _ ≤ (2 : K) ^ (41 : Int) := by norm_num)
  have hsr := roundF32_sampleRate (K := K) r.sampleRate hs0 hs1
  have hprod := roundF32_mem
    (roundF32 ((echoBaseMs i : K) + r.echoMs) * roundF32 (r.sampleRate : K)) 72
    (by norm_num) (mul_nonneg hdelay.1 hsr.1) (by
      have := mul_le_mul hdelay.2 hsr.2 hsr.1 (by positivity : (0 : K) ≤ (2 : K) ^ (41 : Int))
      calc _ ≤ (2 : K) ^ (41 : Int) * (2 : K) ^ (31 : Int) := this
        _ = (2 : K) ^ (72 : Int) := by norm_num)
  unfold echoDelaySamples
  dsimp only
  apply roundF32_mem _ _ (by norm_num)
  · exact div_nonneg hprod.1 (by norm_num)
  · rw [div_le_iff₀ (by norm_num)]
    calc _ ≤ (2 : K) ^ (72 : Int) := hprod.2
      _ ≤ (2 : K) ^ (63 : Int) * 1000 := by norm_num

/-- With the parameters in range the comb line length is the integer part of the `float`
delay plus one; in particular it is at least 1. -/
theorem combSamples_eq {K : Type} [LinearOrderedField K] [FloorRing K] (r : SimpleReverb K)
    (hr : DelayInRange r) (i : Nat) :
    combSamples r i = Nat.floor (combDelaySamples r i) + 1 := by
  obtain ⟨h0, h1⟩ := combDelaySamples_range r hr i
  unfold combSamples
  exact samples_of_range _ h0 (le_trans h1 (by norm_num))

/-- With the parameters in range the echo line length is the integer part of the `float`
delay plus one; in particular it is at least 1. -/
theorem echoSamples_eq {K : Type} [LinearOrderedField K] [FloorRing K] (r : SimpleReverb K)
    (hr : DelayInRange r) (i : Nat) :
    echoSamples r i = Nat.floor (echoDelaySamples r i) + 1 := by
  obtain ⟨h0, h1⟩ := echoDelaySamples_range r hr i
  unfold echoSamples
  exact samples_of_range _ h0 h1

/-! ## Theorems: reverb delay lines -/

theorem forLoop_succ {σ : Type} (n : Nat) (body : Nat → σ → σ) (s : σ) :
    forLoop (n + 1) body s = body n (forLoop n body s) := by
  unfold forLoop
  rw [List.range_succ, List.foldl_append]
  rfl

/-- Invariant rule for counted loops. -/
theorem forLoop_inv {σ : Type} (P : Nat → σ → Prop) (n : Nat) (body : Nat → σ → σ) (s : σ)
    (h0 : P 0 s) (hstep : ∀ i, i < n → ∀ t, P i t → P (i + 1) (body i t)) :
    P n (forLoop n body s) := by
  induction n with
  | zero => exact h0
  | succ k ih =>
    rw [forLoop_succ]
    exact hstep k (Nat.lt_succ_self k) _
      (ih (fun i hi t ht => hstep i (Nat.lt_succ_of_lt hi) t ht))

theorem vectorResize_length {α : Type} (l : List α) (n : Nat) (v : α) :
    (vectorResize l n v).length = n := by
  unfold vectorResize
  rw [List.length_append, List.length_take, List.length_replicate]
  omega

theorem vectorResize_getElemOpt {α : Type} (l : List α) (n : Nat) (v : α) (j : Nat) :
    (vectorResize l n v)[j]? = if j < n then some (l.getD j v) else none := by
  unfold vectorResize
  rw [List.getElem?_append, List.length_take, List.getElem?_take, List.getElem?_replicate,
    List.getD_eq_getElem?_getD]
  by_cases hj : j < n
  · by_cases hl : j < l.length
    · have h1 : j < min n l.length := by omega
      rw [if_pos h1, if_pos hj, if_pos hj, List.getElem?_eq_getElem hl]
      rfl
    · have h1 : ¬ j < min n l.length := by omega
      have h2 : j - min n l.length < n - l.length := by omega
      rw [if_neg h1, if_pos h2, if_pos hj, List.getElem?_eq_none (not_lt.mp hl)]
      rfl
  · have h1 : ¬ j < min n l.length := by omega
    have h2 : ¬ j - min n l.length < n - l.length := by omega
    rw [if_neg h1, if_neg h2, if_neg hj]

theorem updateAt_length {α : Type} (l : List α) (j : Nat) (f : α → α) :
    (updateAt l j f).length = l.length := by
  unfold updateAt
  split
  · rw [List.length_set]
  · rfl

theorem updateAt_getElemOpt {α : Type} (l : List α) (j : Nat) (f : α → α) (m : Nat) :
    (updateAt l j f)[m]? = if m = j then (l[j]?).map f else l[m]? := by
  unfold updateAt
  split
  · next x hx =>
    rw [List.getElem?_set]
    by_cases hm : m = j
    · subst hm
      have hlt : m < l.length := by
        by_contra hc
        rw [List.getElem?_eq_none (not_lt.mp hc)] at hx
        exact Option.noConfusion hx
      rw [if_pos rfl, if_pos rfl, if_pos hlt, hx]
      rfl
    · rw [if_neg (fun h => hm h.symm), if_neg hm]
  · next hx =>
    by_cases hm : m = j
    · subst hm
      rw [if_pos rfl, hx]
      rfl
    · rw [if_neg hm]
/-- The two nested loops of `ensureLines` update line `m` with the body for
`i = m % c`, for every `m < n * c`. -/
theorem nestedUpdate_getElemOpt {α : Type} (n c : Nat) (g : Nat → α → α) (base : List α)
    (m : Nat) :
    (forLoop n (fun ch lines =>
        forLoop c (fun i lines => updateAt lines (ch * c + i) (g i)) lines) base)[m]?
      = if m < n * c then (base[m]?).map (g (m % c)) else base[m]? := by
  revert m
  refine forLoop_inv
    (fun k s => ∀ m, s[m]? = if m < k * c then (base[m]?).map (g (m % c)) else base[m]?)
    n _ base ?_ ?_
  · intro m
    rw [Nat.zero_mul, if_neg (Nat.not_lt_zero _)]
  · intro ch _ t ht
    have hinner := forLoop_inv
      (fun i s => ∀ m, s[m]? = if m < ch * c + i then (base[m]?).map (g (m % c)) else base[m]?)
      c (fun i lines => updateAt lines (ch * c + i) (g i)) t ht ?_
    · intro m
      rw [hinner m, Nat.succ_mul]
    · intro i hi s hs m
      rw [updateAt_getElemOpt]
      by_cases hm : m = ch * c + i
      · subst hm
        have hmod : (ch * c + i) % c = i := by
          rw [Nat.mul_comm, Nat.mul_add_mod, Nat.mod_eq_of_lt hi]
        rw [if_pos rfl, hs, if_neg (lt_irrefl _), if_pos (by omega), hmod]
      · rw [if_neg hm, hs]
        by_cases h1 : m < ch * c + i
        · rw [if_pos h1, if_pos (by omega)]
        · rw [if_neg h1, if_neg (by omega)]

theorem nestedUpdate_length {α : Type} (n c : Nat) (g : Nat → α → α) (base : List α) :
    (forLoop n (fun ch lines =>
        forLoop c (fun i lines => updateAt lines (ch * c + i) (g i)) lines) base).length
      = base.length := by
  refine forLoop_inv (fun _ s => s.length = base.length) n _ base rfl ?_
  intro ch _ t ht
  refine forLoop_inv (fun _ s => s.length = base.length) c _ t ht ?_
  intro i _ s hs
  rw [updateAt_length, hs]
theorem updateAt_forall {α : Type} (P : α → Prop) (l : List α) (j : Nat) (f : α → α)
    (hf : ∀ x, P x → P (f x)) (h : ∀ x ∈ l, P x) : ∀ x ∈ updateAt l j f, P x := by
  unfold updateAt
  split
  · next y hy =>
    intro x hx
    rcases List.mem_or_eq_of_mem_set hx with h1 | h1
    · exact h x h1
    · rw [h1]
      exact hf y (h y (List.getElem?_mem hy))
  · exact h

theorem resizeLine_ok {K : Type} [Zero K] (samples : Nat) (hs : 1 ≤ samples)
    (line : DelayLine K) :
    (resizeLine samples line).buffer.length = samples ∧
    1 ≤ (resizeLine samples line).buffer.length ∧
    (resizeLine samples line).index < (resizeLine samples line).buffer.length := by
  unfold resizeLine
  dsimp only
  rw [vectorResize_length]
  exact ⟨rfl, hs, Nat.mod_lt _ hs⟩

theorem tapLine_ok {K : Type} [LinearOrderedField K] (dry gain : K) (line : DelayLine K)
    (h : 1 ≤ line.buffer.length ∧ line.index < line.buffer.length) :
    1 ≤ (tapLine dry gain line).buffer.length ∧
    (tapLine dry gain line).index < (tapLine dry gain line).buffer.length := by
  unfold tapLine
  dsimp only
  rw [List.length_set]
  exact ⟨h.1, Nat.mod_lt _ h.1⟩

/-- The per-sample body of `process` keeps the number of lines and keeps every line's
cursor inside its buffer. -/
theorem processSample_linesOk {K : Type} [LinearOrderedField K] (channels : Nat)
    (wet combGain echoGain : K) (frame ch : Nat) (st : ProcessState K) (nc ne : Nat)
    (h : st.combLines.length = nc ∧ st.echoLines.length = ne ∧
      (∀ line ∈ st.combLines, 1 ≤ line.buffer.length ∧ line.index < line.buffer.length) ∧
      (∀ line ∈ st.echoLines, 1 ≤ line.buffer.length ∧ line.index < line.buffer.length)) :
    (processSample channels wet combGain echoGain frame ch st).combLines.length = nc ∧
    (processSample channels wet combGain echoGain frame ch st).echoLines.length = ne ∧
    (∀ line ∈ (processSample channels wet combGain echoGain frame ch st).combLines,
      1 ≤ line.buffer.length ∧ line.index < line.buffer.length) ∧
    (∀ line ∈ (processSample channels wet combGain echoGain frame ch st).echoLines,
      1 ≤ line.buffer.length ∧ line.index < line.buffer.length) := by
  unfold processSample
  dsimp only
  refine forLoop_inv (fun _ (s : ProcessState K) =>
    s.combLines.length = nc ∧ s.echoLines.length = ne ∧
      (∀ line ∈ s.combLines, 1 ≤ line.buffer.length ∧ line.index < line.buffer.length) ∧
      (∀ line ∈ s.echoLines, 1 ≤ line.buffer.length ∧ line.index < line.buffer.length))
    kEchoCount _ _ ?_ ?_
  · refine forLoop_inv (fun _ (s : ProcessState K) =>
      s.combLines.length = nc ∧ s.echoLines.length = ne ∧
        (∀ line ∈ s.combLines, 1 ≤ line.buffer.length ∧ line.index < line.buffer.length) ∧
        (∀ line ∈ s.echoLines, 1 ≤ line.buffer.length ∧ line.index < line.buffer.length))
      kCombCount _ _ h ?_
    intro i _ s hs
    exact ⟨by dsimp only; rw [updateAt_length]; exact hs.1, hs.2.1,
      updateAt_forall _ _ _ _ (fun x hx => tapLine_ok _ _ x hx) hs.2.2.1, hs.2.2.2⟩
  · intro i _ s hs
    exact ⟨hs.1, by dsimp only; rw [updateAt_length]; exact hs.2.1, hs.2.2.1,
      updateAt_forall _ _ _ _ (fun x hx => tapLine_ok _ _ x hx) hs.2.2.2⟩

theorem process_fields {K : Type} [LinearOrderedField K] (r : SimpleReverb K)
    (interleaved : List K) (frames : Int) :
    (process r interleaved frames).1.channels = r.channels ∧
    (process r interleaved frames).1.sampleRate = r.sampleRate ∧
    (process r interleaved frames).1.wet = r.wet ∧
    (process r interleaved frames).1.decay = r.decay ∧
    (process r interleaved frames).1.tone = r.tone := by
  unfold process
  split_ifs
  · exact ⟨rfl, rfl, rfl, rfl, rfl⟩
  · exact ⟨rfl, rfl, rfl, rfl, rfl⟩

theorem process_linesOk {K : Type} [LinearOrderedField K] (r : SimpleReverb K)
    (interleaved : List K) (frames : Int) (h : LinesOk r) :
    LinesOk (process r interleaved frames).1 := by
  unfold LinesOk
  rw [(process_fields r interleaved frames).1]
  unfold process
  split_ifs
  · exact h
  · dsimp only
    refine forLoop_inv (fun _ (s : ProcessState K) =>
      s.combLines.length = r.channels.toNat * kCombCount ∧
      s.echoLines.length = r.channels.toNat * kEchoCount ∧
        (∀ line ∈ s.combLines, 1 ≤ line.buffer.length ∧ line.index < line.buffer.length) ∧
        (∀ line ∈ s.echoLines, 1 ≤ line.buffer.length ∧ line.index < line.buffer.length))
      frames.toNat _ _ h ?_
    intro frame _ s hs
    refine forLoop_inv (fun _ (s : ProcessState K) =>
      s.combLines.length = r.channels.toNat * kCombCount ∧
      s.echoLines.length = r.channels.toNat * kEchoCount ∧
        (∀ line ∈ s.combLines, 1 ≤ line.buffer.length ∧ line.index < line.buffer.length) ∧
        (∀ line ∈ s.echoLines, 1 ≤ line.buffer.length ∧ line.index < line.buffer.length))
      r.channels.toNat _ _ hs ?_
    intro ch _ t ht
    exact processSample_linesOk _ _ _ _ _ _ t _ _ ht
theorem castSizeT_channels (c : Int) (k : Nat) (hk : k ≤ 4) (h0 : 0 ≤ c) (h1 : c < 536870912) :
    castSizeT (c * (k : Int)) = c.toNat * k := by
  obtain ⟨n, rfl⟩ := Int.eq_ofNat_of_zero_le h0
  have hn : n < 536870912 := by omega
  have hle : n * k ≤ n * 4 := Nat.mul_le_mul_left n hk
  have h : ((n : Int) * (k : Int)) = ((n * k : Nat) : Int) := by push_cast; rfl
  rw [h, Int.toNat_natCast]
  exact castSizeT_natCast _ (by omega)

theorem ensureLines_fields {K : Type} [LinearOrderedField K] [FloorRing K] (r : SimpleReverb K) :
    (ensureLines r).channels = r.channels ∧ (ensureLines r).sampleRate = r.sampleRate ∧
    (ensureLines r).wet = r.wet ∧ (ensureLines r).decay = r.decay ∧
    (ensureLines r).tone = r.tone ∧ (ensureLines r).room = r.room ∧
    (ensureLines r).echoMs = r.echoMs :=
  ⟨rfl, rfl, rfl, rfl, rfl, rfl, rfl⟩

/-- What `ensureLines` leaves in the comb lines: `channels * 4` lines, line `m` being
the old line `m` (a fresh empty line if there was none) resized for tap `m % 4`. -/
theorem ensureLines_comb {K : Type} [LinearOrderedField K] [FloorRing K] (r : SimpleReverb K)
    (h0 : 0 ≤ r.channels) (h1 : r.channels < 536870912) :
    (ensureLines r).combLines.length = r.channels.toNat * kCombCount ∧
    ∀ m, (ensureLines r).combLines[m]?
      = if m < r.channels.toNat * kCombCount then
          some (resizeLine (combSamples r (m % kCombCount)) (r.combLines.getD m default))
        else none := by
  have hcast := castSizeT_channels r.channels kCombCount (by decide) h0 h1
  unfold ensureLines
  dsimp only
  rw [hcast]
  constructor
  · rw [nestedUpdate_length, vectorResize_length]
  · intro m
    rw [nestedUpdate_getElemOpt, vectorResize_getElemOpt]
    split_ifs <;> rfl

/-- What `ensureLines` leaves in the echo lines. -/
theorem ensureLines_echo {K : Type} [LinearOrderedField K] [FloorRing K] (r : SimpleReverb K)
    (h0 : 0 ≤ r.channels) (h1 : r.channels < 536870912) :
    (ensureLines r).echoLines.length = r.channels.toNat * kEchoCount ∧
    ∀ m, (ensureLines r).echoLines[m]?
      = if m < r.channels.toNat * kEchoCount then
          some (resizeLine (echoSamples r (m % kEchoCount)) (r.echoLines.getD m default))
        else none := by
  have hcast := castSizeT_channels r.channels kEchoCount (by decide) h0 h1
  unfold ensureLines
  dsimp only
  rw [hcast]
  constructor
  · rw [nestedUpdate_length, vectorResize_length]
  · intro m
    rw [nestedUpdate_getElemOpt, vectorResize_getElemOpt]
    split_ifs <;> rfl

theorem ensureLines_linesOk {K : Type} [LinearOrderedField K] [FloorRing K]
    (r : SimpleReverb K) (h0 : 0 ≤ r.channels) (h1 : r.channels < 536870912)
    (hr : DelayInRange r) : LinesOk (ensureLines r) := by
  obtain ⟨hcl, hc⟩ := ensureLines_comb r h0 h1
  obtain ⟨hel, he⟩ := ensureLines_echo r h0 h1
  refine ⟨hcl, hel, ?_, ?_⟩
  · intro line hline
    obtain ⟨m, hm⟩ := List.mem_iff_getElem?.mp hline
    rw [hc m] at hm
    split_ifs at hm
    cases hm
    exact (resizeLine_ok _ (by rw [combSamples_eq r hr]; exact Nat.succ_le_succ (Nat.zero_le _))
      _).2
  · intro line hline
    obtain ⟨m, hm⟩ := List.mem_iff_getElem?.mp hline
    rw [he m] at hm
    split_ifs at hm
    cases hm
    exact (resizeLine_ok _ (by rw [echoSamples_eq r hr]; exact Nat.succ_le_succ (Nat.zero_le _))
      _).2

theorem process_delay_fields {K : Type} [LinearOrderedField K] (r : SimpleReverb K)
    (interleaved : List K) (frames : Int) :
    (process r interleaved frames).1.room = r.room ∧
    (process r interleaved frames).1.echoMs = r.echoMs := by
  unfold process
  split_ifs
  · exact ⟨rfl, rfl⟩
  · exact ⟨rfl, rfl⟩

theorem ReverbOp.apply_channels {K : Type} [LinearOrderedField K] [FloorRing K]
    (r : SimpleReverb K) (op : ReverbOp K) :
    (op.apply r).channels = r.channels ∧ (op.apply r).sampleRate = r.sampleRate := by
  cases op with
  | setParameters wet decay tone room echo => exact ⟨rfl, rfl⟩
  | process interleaved frames =>
    exact ⟨(process_fields r interleaved frames).1, (process_fields r interleaved frames).2.1⟩

theorem setParameters_delayInRange {K : Type} [LinearOrderedField K] [FloorRing K]
    (r : SimpleReverb K) (hs0 : 0 ≤ r.sampleRate) (hs1 : r.sampleRate < 2147483648)
    (wet decay tone room echo : K) (hecho : echo ≤ 1099511627776) :
    DelayInRange { r with
      wet := clamp wet 0 1
      decay := clamp decay (1 / 10) 12
      tone := clamp tone 0 1
      room := clamp room 0 1
      echoMs := stdMax 0 echo } := by
  have hroom := clamp_range room (0 : K) 1 (by norm_num)
  refine ⟨hroom.1, hroom.2.1, ?_, ?_, hs0, hs1⟩
  · show (0 : K) ≤ stdMax 0 echo
    unfold stdMax
    split_ifs with c
    · exact le_of_lt c
    · exact le_refl _
  · show stdMax 0 echo ≤ (1099511627776 : K)
    unfold stdMax
    split_ifs with c
    · exact hecho
    · norm_num

theorem ReverbOp.apply_delayInRange {K : Type} [LinearOrderedField K] [FloorRing K]
    (r : SimpleReverb K) (op : ReverbOp K) (hr : DelayInRange r)
    (hop : op.EchoAtMost 1099511627776) : DelayInRange (op.apply r) := by
  cases op with
  | setParameters wet decay tone room echo =>
    exact setParameters_delayInRange r hr.2.2.2.2.1 hr.2.2.2.2.2 wet decay tone room echo hop
  | process interleaved frames =>
    unfold DelayInRange
    show 0 ≤ (SlowReverb.process r interleaved frames).1.room ∧
      (SlowReverb.process r interleaved frames).1.room ≤ 1 ∧
      0 ≤ (SlowReverb.process r interleaved frames).1.echoMs ∧
      (SlowReverb.process r interleaved frames).1.echoMs ≤ 1099511627776 ∧
      0 ≤ (SlowReverb.process r interleaved frames).1.sampleRate ∧
      (SlowReverb.process r interleaved frames).1.sampleRate < 2147483648
    rw [(process_delay_fields r interleaved frames).1,
      (process_delay_fields r interleaved frames).2,
      (process_fields r interleaved frames).2.1]
    exact hr

theorem ReverbOp.apply_linesOk {K : Type} [LinearOrderedField K] [FloorRing K]
    (r : SimpleReverb K) (op : ReverbOp K) (h0 : 0 ≤ r.channels) (h1 : r.channels < 536870912)
    (hr : DelayInRange r) (hop : op.EchoAtMost 1099511627776)
    (h : LinesOk r) : LinesOk (op.apply r) := by
  cases op with
  | setParameters wet decay tone room echo =>
    exact ensureLines_linesOk _ h0 h1
      (setParameters_delayInRange r hr.2.2.2.2.1 hr.2.2.2.2.2 wet decay tone room echo hop)
  | process interleaved frames => exact process_linesOk r interleaved frames h

theorem runReverb_linesOk {K : Type} [LinearOrderedField K] [FloorRing K]
    (ops : List (ReverbOp K)) (r : SimpleReverb K) (h0 : 0 ≤ r.channels)
    (h1 : r.channels < 536870912) (hr : DelayInRange r)
    (hops : ∀ op ∈ ops, op.EchoAtMost 1099511627776) (h : LinesOk r) :
    LinesOk (runReverb r ops) ∧ (runReverb r ops).channels = r.channels ∧
      (runReverb r ops).sampleRate = r.sampleRate := by
  induction ops generalizing r with
  | nil => exact ⟨h, rfl, rfl⟩
  | cons op ops ih =>
    obtain ⟨hc, hs⟩ := ReverbOp.apply_channels r op
    have hop := hops op (List.mem_cons_self _ _)
    have := ih (op.apply r) (by rw [hc]; exact h0) (by rw [hc]; exact h1)
      (ReverbOp.apply_delayInRange r op hr hop)
      (fun o ho => hops o (List.mem_cons_of_mem _ ho))
      (ReverbOp.apply_linesOk r op h0 h1 hr hop h)
    exact ⟨this.1, this.2.1.trans hc, this.2.2.trans hs⟩

theorem configure_fields {K : Type} [LinearOrderedField K] [FloorRing K] (r : SimpleReverb K)
    (sampleRate channels : Int) :
    (configure r sampleRate channels).channels = max 1 channels ∧
    (configure r sampleRate channels).sampleRate = max 1 sampleRate := by
  unfold configure
  rw [(ensureLines_fields _).1, (ensureLines_fields _).2.1]
  unfold stdMax
  dsimp only
  constructor <;> split_ifs <;> omega

/-- Where every conversion to `size_t` in `ensureLines` is defined, the delay lines stay
well formed: once `configure` has been called on a reverb whose room size is in `[0, 1]` and
whose echo time is in `[0, 2^40]` ms (the member initialisers are), with an `int32_t` sample
rate and fewer than 2^29 channels, then after every sequence of `process` calls and of
`setParameters` calls with an echo time of at most 2^40 ms (any room size, any frame
counts) there are exactly `channels * 4` comb lines and `channels * 2` echo lines, every
delay line has a buffer of length at least 1 and a cursor strictly below its buffer length;
the same holds after each per-sample step inside `process` (`processSample_linesOk`). -/
theorem delay_line_cursors_in_range {K : Type} [LinearOrderedField K] [FloorRing K]
    (r0 : SimpleReverb K) (sampleRate channels : Int) (hch : channels < 536870912)
    (hsr : sampleRate < 2147483648) (hroom : 0 ≤ r0.room ∧ r0.room ≤ 1)
    (hecho : 0 ≤ r0.echoMs ∧ r0.echoMs ≤ 1099511627776)
    (ops : List (ReverbOp K)) (hops : ∀ op ∈ ops, op.EchoAtMost 1099511627776) :
    (runReverb (configure r0 sampleRate channels) ops).channels = max 1 channels ∧
    (runReverb (configure r0 sampleRate channels) ops).combLines.length
      = (max 1 channels).toNat * 4 ∧
    (runReverb (configure r0 sampleRate channels) ops).echoLines.length
      = (max 1 channels).toNat * 2 ∧
    (∀ line ∈ (runReverb (configure r0 sampleRate channels) ops).combLines,
      1 ≤ line.buffer.length ∧ line.index < line.buffer.length) ∧
    (∀ line ∈ (runReverb (configure r0 sampleRate channels) ops).echoLines,
      1 ≤ line.buffer.length ∧ line.index < line.buffer.length) := by
  obtain ⟨hc, hs⟩ := configure_fields r0 sampleRate channels
  have h0 : 0 ≤ (configure r0 sampleRate channels).channels := by rw [hc]; omega
  have h1 : (configure r0 sampleRate channels).channels < 536870912 := by rw [hc]; omega
  have hs0 : 0 ≤ (configure r0 sampleRate channels).sampleRate := by rw [hs]; omega
  have hs1 : (configure r0 sampleRate channels).sampleRate < 2147483648 := by rw [hs]; omega
  have hr0 : DelayInRange
      { r0 with sampleRate := stdMax 1 sampleRate, channels := stdMax 1 channels } :=
    ⟨hroom.1, hroom.2, hecho.1, hecho.2, hs0, hs1⟩
  have hr : DelayInRange (configure r0 sampleRate channels) :=
    ⟨hroom.1, hroom.2, hecho.1, hecho.2, hs0, hs1⟩
  have hok : LinesOk (configure r0 sampleRate channels) := by
    unfold configure
    exact ensureLines_linesOk _ (by rw [← (ensureLines_fields _).1]; exact h0)
      (by rw [← (ensureLines_fields _).1]; exact h1) hr0
  obtain ⟨⟨a1, a2, a3, a4⟩, hch2, -⟩ := runReverb_linesOk ops _ h0 h1 hr hops hok
  rw [hch2, hc] at a1 a2
  exact ⟨hch2.trans hc, a1, a2, a3, a4⟩

/-- An instance of `delay_line_cursors_in_range`: configured at 1000 Hz with two channels,
then `setParameters` with room size 1 and echo 30 ms, a `process` call and `setParameters`
with room size 0 and echo 0. -/
theorem delay_line_cursors_in_range_example :
    (runReverb (configure (SimpleReverb.initial : SimpleReverb ℚ) 1000 2)
      [ReverbOp.setParameters 1 12 (1 / 2) 1 30, ReverbOp.process [1, 1, 1, 1] 2,
        ReverbOp.setParameters 1 12 (1 / 2) 0 0]).combLines.length = 8 ∧
    (∀ line ∈ (runReverb (configure (SimpleReverb.initial : SimpleReverb ℚ) 1000 2)
      [ReverbOp.setParameters 1 12 (1 / 2) 1 30, ReverbOp.process [1, 1, 1, 1] 2,
        ReverbOp.setParameters 1 12 (1 / 2) 0 0]).echoLines,
      1 ≤ line.buffer.length ∧ line.index < line.buffer.length) := by
  have h := delay_line_cursors_in_range (SimpleReverb.initial : SimpleReverb ℚ) 1000 2
    (by decide) (by decide) (by norm_num [SimpleReverb.initial])
    (by norm_num [SimpleReverb.initial])
    [ReverbOp.setParameters 1 12 (1 / 2) 1 30, ReverbOp.process [1, 1, 1, 1] 2,
        ReverbOp.setParameters 1 12 (1 / 2) 0 0]
    (by
      intro op hop
      simp only [List.mem_cons, List.mem_singleton, List.not_mem_nil, or_false] at hop
      rcases hop with rfl | rfl | rfl
      · show (30 : ℚ) ≤ 1099511627776
        norm_num
      · trivial
      · show (0 : ℚ) ≤ 1099511627776
        norm_num)
  exact ⟨h.2.1, h.2.2.2.2⟩

/-- The echo delay outruns `size_t`: with a sample rate of at least 1, a `setParameters`
call with an echo time of 2^74 ms or more leaves a state in which the `float` operand of
`static_cast<size_t>` in the echo loop of `ensureLines` is at least 2^64. -/
theorem echoDelaySamples_ge {K : Type} [LinearOrderedField K] [FloorRing K]
    (r : SimpleReverb K) (hsr : 1 ≤ r.sampleRate) (wet decay tone room echo : K)
    (hecho : 18889465931478580854784 ≤ echo) (i : Nat) :
    (18446744073709551616 : K) ≤
      echoDelaySamples (setParameters r wet decay tone room echo) i := by
  have hmax : echo ≤ stdMax 0 echo := by
    unfold stdMax
    split_ifs with c
    · exact le_refl _
    · exact le_trans (not_lt.mp c) (le_refl _)
  have hd : (2 : K) ^ (74 : Int) ≤ roundF32 ((echoBaseMs i : K) + stdMax 0 echo) := by
    apply roundF32_ge_two_zpow _ _ (by norm_num)
    have hb : (0 : K) ≤ (echoBaseMs i : K) := Nat.cast_nonneg _
    calc (2 : K) ^ (74 : Int) = 18889465931478580854784 := by norm_num
      _ ≤ echo := hecho
      _ ≤ stdMax 0 echo := hmax
      _ ≤ (echoBaseMs i : K) + stdMax 0 echo := by linarith
  have hs : (2 : K) ^ (0 : Int) ≤ roundF32 (r.sampleRate : K) := by
    apply roundF32_ge_two_zpow _ _ (by norm_num)
    have : ((1 : Int) : K) ≤ (r.sampleRate : K) := Int.cast_le.mpr hsr
    simpa using this
  have hp : (2 : K) ^ (74 : Int) ≤
      roundF32 (roundF32 ((echoBaseMs i : K) + stdMax 0 echo) * roundF32 (r.sampleRate : K)) := by
    apply roundF32_ge_two_zpow _ _ (by norm_num)
    have := mul_le_mul hd hs (by positivity) (le_trans (by positivity) hd)
    simpa using this
  have hq : (2 : K) ^ (64 : Int) ≤
      roundF32 (roundF32 (roundF32 ((echoBaseMs i : K) + stdMax 0 echo)
        * roundF32 (r.sampleRate : K)) / 1000) := by
    apply roundF32_ge_two_zpow _ _ (by norm_num)
    rw [le_div_iff₀ (by norm_num)]
    calc (2 : K) ^ (64 : Int) * 1000 ≤ (2 : K) ^ (74 : Int) := by norm_num
      _ ≤ _ := hp
  calc (18446744073709551616 : K) = (2 : K) ^ (64 : Int) := by norm_num
    _ ≤ _ := hq

/-- Claim C9, refuted for large echo times.  `setParameters` stores `std::max(0.0f, echo)`
with no upper bound, and `ensureLines` converts the echo delay in samples to `size_t`.
For every reverb with a sample rate of at least 1 and every `setParameters` call with an
echo time of 2^74 ms or more (a finite `float`), the operand of that conversion is at least
2^64 for both echo taps: it is outside the range in which `static_cast<size_t>` of a `float`
is defined, so the call has no defined buffer length or cursor to offer. -/
theorem echo_delay_outside_size_t {K : Type} [LinearOrderedField K] [FloorRing K]
    (r : SimpleReverb K) (hsr : 1 ≤ r.sampleRate) (wet decay tone room echo : K)
    (hecho : 18889465931478580854784 ≤ echo) (i : Nat) :
    (setParameters r wet decay tone room echo).echoMs = echo ∧
    ¬ SizeTConvertible (echoDelaySamples (setParameters r wet decay tone room echo) i) := by
  constructor
  · show stdMax 0 echo = echo
    unfold stdMax
    rw [if_pos (lt_of_lt_of_le (by norm_num) hecho)]
  · intro h
    exact absurd h.2 (not_lt.mpr (echoDelaySamples_ge r hsr wet decay tone room echo hecho i))

/-- The echo time reaches the reverb through the control API: after `setEcho(1e24)` on the
initial state, the next `updateSmoothedParameters` calls `setParameters` on the reverb with
the echo time `0 + 1e24 * 0.08 = 8e22` ms. -/
theorem setEcho_reaches_setParameters :
    (updateSmoothedParameters
      (setEcho (SmootherState.initial : SmootherState ℚ) 1000000000000000000000000)).2
      = [DownstreamCall.setParameters (25 / 100) 6 (6 / 10) (8 / 10)
          80000000000000000000000] := by
  unfold updateSmoothedParameters setEcho SmootherState.initial smoothTowards stdMax
  norm_num [abs_lt, abs_of_nonneg, abs_of_pos]

/-- Witness for claim C9: the reverb configured at 48000 Hz with two channels, then the
`setParameters` call that `updateSmoothedParameters` makes after `setEcho(1e24)`, with the
echo time 8e22 ms. -/
theorem echo_delay_outside_size_t_witness :
    ¬ SizeTConvertible (echoDelaySamples
      (setParameters (configure (SimpleReverb.initial : SimpleReverb ℚ) 48000 2)
        (25 / 100) 6 (6 / 10) (8 / 10) 80000000000000000000000) 0) :=
  (echo_delay_outside_size_t (configure (SimpleReverb.initial : SimpleReverb ℚ) 48000 2)
    (by show (1 : Int) ≤ stdMax 1 48000; decide) (25 / 100) 6 (6 / 10) (8 / 10)
    80000000000000000000000 (by norm_num) 0).2

/-! ## Theorems: reverb pass-through and stability -/

/-- C7: with the wet mix equal to 0, `process` returns at once: the interleaved buffer
and the reverb are exactly as before, for every buffer, frame count and delay-line
state. -/
theorem process_wet_zero_passthrough {K : Type} [LinearOrderedField K] (r : SimpleReverb K)
    (hwet : r.wet = 0) (interleaved : List K) (frames : Int) :
    (process r interleaved frames).2 = interleaved ∧ (process r interleaved frames).1 = r := by
  unfold process
  rw [if_pos (Or.inr (le_of_eq hwet))]
  exact ⟨rfl, rfl⟩

theorem process_wet_zero_passthrough_witness :
    (setParameters (configure (SimpleReverb.initial : SimpleReverb ℚ) 1000 2) 0 6 (1 / 2)
      (1 / 2) 0).wet = 0 ∧
    (process (setParameters (configure (SimpleReverb.initial : SimpleReverb ℚ) 1000 2) 0 6
        (1 / 2) (1 / 2) 0) [1, -2, 3, 4] 2).2 = [1, -2, 3, 4] ∧
    (process (setParameters (configure (SimpleReverb.initial : SimpleReverb ℚ) 1000 2) 0 6
        (1 / 2) (1 / 2) 0) [1, -2, 3, 4] 2).1
      = setParameters (configure (SimpleReverb.initial : SimpleReverb ℚ) 1000 2) 0 6 (1 / 2)
        (1 / 2) 0 :=
  have hw : (setParameters (configure (SimpleReverb.initial : SimpleReverb ℚ) 1000 2) 0 6
      (1 / 2) (1 / 2) 0).wet = 0 := by
    show clamp (0 : ℚ) 0 1 = 0
    unfold clamp
    norm_num
  ⟨hw, process_wet_zero_passthrough _ hw [1, -2, 3, 4] 2⟩

theorem ensureLines_comb_line {K : Type} [LinearOrderedField K] [FloorRing K]
    (r : SimpleReverb K) (h0 : 0 ≤ r.channels) (h1 : r.channels < 536870912) (m : Nat)
    (hm : m < r.channels.toNat * kCombCount) :
    (ensureLines r).combLines.getD m default
      = resizeLine (combSamples r (m % kCombCount)) (r.combLines.getD m default) := by
  rw [List.getD_eq_getElem?_getD, (ensureLines_comb r h0 h1).2 m, if_pos hm]
  rfl

theorem ensureLines_echo_line {K : Type} [LinearOrderedField K] [FloorRing K]
    (r : SimpleReverb K) (h0 : 0 ≤ r.channels) (h1 : r.channels < 536870912) (m : Nat)
    (hm : m < r.channels.toNat * kEchoCount) :
    (ensureLines r).echoLines.getD m default
      = resizeLine (echoSamples r (m % kEchoCount)) (r.echoLines.getD m default) := by
  rw [List.getD_eq_getElem?_getD, (ensureLines_echo r h0 h1).2 m, if_pos hm]
  rfl

theorem resizeLine_samples {K : Type} [Zero K] (samples : Nat) (line : DelayLine K) :
    (resizeLine samples line).buffer.length = samples ∧
    (resizeLine samples line).index = line.index % samples ∧
    ∀ j, j < samples → (resizeLine samples line).buffer[j]? = some (line.buffer.getD j 0) := by
  unfold resizeLine
  dsimp only
  refine ⟨vectorResize_length _ _ _, rfl, fun j hj => ?_⟩
  rw [vectorResize_getElemOpt, if_pos hj]

theorem roundHalfEven_tie {K : Type} [LinearOrderedField K] [FloorRing K] (y : K) (n : Int)
    (h : y = (n : K) + 1 / 2) : roundHalfEven y = if n % 2 = 0 then n else n + 1 := by
  have hfl : Int.floor y = n := by
    rw [Int.floor_eq_iff, h]
    constructor <;> norm_num
  have hfrac : y - (n : K) = 1 / 2 := by rw [h]; ring
  unfold roundHalfEven
  rw [hfl, hfrac, if_neg (lt_irrefl _), if_neg (lt_irrefl _)]

/-- Evaluation of a rounding from the binade of the argument and the rounded significand. -/
theorem roundF32_eq {K : Type} [LinearOrderedField K] [FloorRing K] (x : K) (e m : Int)
    (he : -126 ≤ e) (h1 : (2 : K) ^ e ≤ |x|) (h2 : |x| < (2 : K) ^ (e + 1))
    (h3 : roundHalfEven (x / (2 : K) ^ (e - 23)) = m) :
    roundF32 x = (m : K) * (2 : K) ^ (e - 23) := by
  unfold roundF32
  rw [binary32Exponent_eq x e he h1 h2, h3]

theorem roundF32_eight_tenths : roundF32 (8 / 10 : ℚ) = 13421773 / 16777216 := by
  rw [roundF32_eq_of_near (8 / 10 : ℚ) (-1) 13421773 (by norm_num)
    (by rw [abs_of_pos] <;> norm_num) (by rw [abs_of_pos] <;> norm_num)
    (by rw [abs_lt]; constructor <;> norm_num)]
  norm_num

theorem roundF32_room_product : roundF32 (157 / 256 * (13421773 / 16777216) : ℚ) = 16462643 / 33554432 := by
  rw [roundF32_eq_of_near _ (-2) 16462643 (by norm_num)
    (by rw [abs_of_pos] <;> norm_num) (by rw [abs_of_pos] <;> norm_num)
    (by rw [abs_lt]; constructor <;> norm_num)]
  norm_num

theorem roundF32_room_scale : roundF32 (1 / 2 + 16462643 / 33554432 : ℚ) = 8309965 / 8388608 := by
  rw [roundF32_eq _ (-1) 16619930 (by norm_num)
    (by rw [abs_of_pos] <;> norm_num) (by rw [abs_of_pos] <;> norm_num)
    (by rw [roundHalfEven_tie _ 16619929 (by norm_num)]; decide)]
  norm_num

theorem roundF32_comb_delay : roundF32 (67 * (8309965 / 8388608) : ℚ) = 8699495 / 131072 := by
  rw [roundF32_eq_of_near _ 6 8699495 (by norm_num)
    (by rw [abs_of_pos] <;> norm_num) (by rw [abs_of_pos] <;> norm_num)
    (by rw [abs_lt]; constructor <;> norm_num)]
  norm_num

theorem roundF32_comb_product : roundF32 (8699495 / 131072 * 44100 : ℚ) = 2927000 := by
  rw [roundF32_eq_of_near _ 21 11708000 (by norm_num)
    (by rw [abs_of_pos] <;> norm_num) (by rw [abs_of_pos] <;> norm_num)
    (by rw [abs_lt]; constructor <;> norm_num)]
  norm_num
theorem setParameters_comb_length {K : Type} [LinearOrderedField K] [FloorRing K]
    (r : SimpleReverb K) (h0 : 0 ≤ r.channels) (h1 : r.channels < 536870912)
    (wet decay tone room echo : K) (m : Nat) (hm : m < r.channels.toNat * kCombCount) :
    ((setParameters r wet decay tone room echo).combLines.getD m default).buffer.length
      = combSamples (setParameters r wet decay tone room echo) (m % kCombCount) := by
  have hl := ensureLines_comb_line
    { r with wet := clamp wet 0 1, decay := clamp decay (1 / 10) 12, tone := clamp tone 0 1,
             room := clamp room 0 1, echoMs := stdMax 0 echo } h0 h1 m hm
  have hl2 : (setParameters r wet decay tone room echo).combLines.getD m default
      = resizeLine (combSamples (setParameters r wet decay tone room echo) (m % kCombCount))
          (r.combLines.getD m default) := hl
  rw [hl2]
  exact (resizeLine_samples _ _).1

theorem setParameters_inRange {K : Type} [LinearOrderedField K] [FloorRing K]
    (r : SimpleReverb K) (hs0 : 0 ≤ r.sampleRate) (hs1 : r.sampleRate < 2147483648)
    (wet decay tone room echo : K) (hecho : echo ≤ 1099511627776) :
    DelayInRange (setParameters r wet decay tone room echo) :=
  setParameters_delayInRange r hs0 hs1 wet decay tone room echo hecho

theorem roundF32_half : roundF32 (1 / 2 : ℚ) = 1 / 2 := by
  have := roundF32_of_representable (K := ℚ) 1 (-1) (by decide) (by norm_num)
  norm_num at this
  exact this

theorem roundF32_ofNat (n : Nat) (hn : n < 16777216) : roundF32 ((n : Int) : ℚ) = n := by
  have := roundF32_natCast (K := ℚ) n hn
  simpa using this

/-- At 1000 Hz with room size 0 the `float` delay of the 58 ms comb tap is exactly 29. -/
theorem combDelaySamples_room_zero (r : SimpleReverb ℚ) (hroom : r.room = 0)
    (hsr : r.sampleRate = 1000) : combDelaySamples r 2 = 29 := by
  have hb : ((combBaseMs 2 : Nat) : ℚ) = 58 := by
    show (((58 : Nat) : Nat) : ℚ) = 58
    norm_num
  have h29 : roundF32 (29 : ℚ) = 29 := by
    have := roundF32_natCast (K := ℚ) 29 (by norm_num)
    simpa using this
  have h1000 : roundF32 (((1000 : Int) : ℚ)) = 1000 := by
    have := roundF32_natCast (K := ℚ) 1000 (by norm_num)
    simpa using this
  have h29000 : roundF32 (29000 : ℚ) = 29000 := by
    have := roundF32_natCast (K := ℚ) 29000 (by norm_num)
    simpa using this
  unfold combDelaySamples
  dsimp only
  rw [hroom, hsr, zero_mul, roundF32_zero, add_zero, roundF32_half, hb]
  have e1 : (58 : ℚ) * (1 / 2) = 29 := by norm_num
  rw [e1, h29, h1000]
  have e2 : (29 : ℚ) * 1000 = 29000 := by norm_num
  rw [e2, h29000]
  have e3 : (29000 : ℚ) / 1000 = 29 := by norm_num
  rw [e3, h29]

/-- C14 (counterexample): at sample rate 1000 with room size 0 (room scale 0.5) the third
comb line, base delay 58 ms, gets a buffer of 30 samples, while
`58 * roomScale * 1000 / 1000 = 29`. -/
theorem comb_line_length_is_not_the_nominal_delay :
    ((setParameters (configure (SimpleReverb.initial : SimpleReverb ℚ) 1000 1)
        1 6 (1 / 2) 0 0).combLines.getD 2 default).buffer.length = 30 ∧
    ((30 : Nat) : ℚ) ≠ 58 * (5 / 10 + 0 * (8 / 10)) * 1000 / 1000 := by
  have hroom : (setParameters (configure (SimpleReverb.initial : SimpleReverb ℚ) 1000 1)
      1 6 (1 / 2) 0 0).room = 0 := by
    show clamp (0 : ℚ) 0 1 = 0
    unfold clamp
    norm_num
  have hsr : (setParameters (configure (SimpleReverb.initial : SimpleReverb ℚ) 1000 1)
      1 6 (1 / 2) 0 0).sampleRate = 1000 := by
    show stdMax (1 : Int) 1000 = 1000
    decide
  have hin : DelayInRange (setParameters
      (configure (SimpleReverb.initial : SimpleReverb ℚ) 1000 1) 1 6 (1 / 2) 0 0) :=
    setParameters_inRange _ (by show (0 : Int) ≤ stdMax 1 1000; decide)
      (by show stdMax (1 : Int) 1000 < 2147483648; decide) _ _ _ _ _ (by norm_num)
  rw [setParameters_comb_length _ (by show (0 : Int) ≤ stdMax 1 1; decide)
    (by show stdMax (1 : Int) 1 < 536870912; decide) _ _ _ _ _ 2
    (by show 2 < (stdMax (1 : Int) 1).toNat * 4; decide)]
  have hmod : 2 % kCombCount = 2 := by decide
  rw [hmod, combSamples_eq _ hin, combDelaySamples_room_zero _ hroom hsr]
  constructor
  · have : Nat.floor (29 : ℚ) = 29 := by simp
    rw [this]
  · norm_num

/-- At 44100 Hz with room size 157/256 the `float` delay of the 67 ms comb tap is exactly
2927: the product `delayMs * sampleRate_` rounds up to 2927000. -/
theorem combDelaySamples_rounding_example (r : SimpleReverb ℚ) (hroom : r.room = 157 / 256)
    (hsr : r.sampleRate = 44100) : combDelaySamples r 3 = 2927 := by
  have hb : ((combBaseMs 3 : Nat) : ℚ) = 67 := by
    show (((67 : Nat) : Nat) : ℚ) = 67
    norm_num
  have h44100 : roundF32 (((44100 : Int) : ℚ)) = 44100 := by
    have := roundF32_natCast (K := ℚ) 44100 (by norm_num)
    simpa using this
  have h2927 : roundF32 (2927 : ℚ) = 2927 := by
    have := roundF32_natCast (K := ℚ) 2927 (by norm_num)
    simpa using this
  unfold combDelaySamples
  dsimp only
  rw [hroom, hsr, roundF32_eight_tenths, roundF32_room_product, roundF32_room_scale, hb, roundF32_comb_delay, h44100, roundF32_comb_product]
  have e3 : (2927000 : ℚ) / 1000 = 2927 := by norm_num
  rw [e3, h2927]

/-- The length of a comb line follows the `float` arithmetic of the code: at 44100 Hz with
room size 157/256 the fourth comb line (67 ms) gets 2928 samples, one more than
`floor(67 * roomScale * 44100 / 1000) + 1 = 2927` in exact arithmetic. -/
theorem comb_line_length_follows_float_rounding :
    ((setParameters (configure (SimpleReverb.initial : SimpleReverb ℚ) 44100 1)
        1 6 (1 / 2) (157 / 256) 0).combLines.getD 3 default).buffer.length = 2928 ∧
    Nat.floor ((67 : ℚ) * (5 / 10 + 157 / 256 * (8 / 10)) * 44100 / 1000) + 1 = 2927 := by
  have hroom : (setParameters (configure (SimpleReverb.initial : SimpleReverb ℚ) 44100 1)
      1 6 (1 / 2) (157 / 256) 0).room = 157 / 256 := by
    show clamp (157 / 256 : ℚ) 0 1 = 157 / 256
    unfold clamp
    norm_num
  have hsr : (setParameters (configure (SimpleReverb.initial : SimpleReverb ℚ) 44100 1)
      1 6 (1 / 2) (157 / 256) 0).sampleRate = 44100 := by
    show stdMax (1 : Int) 44100 = 44100
    decide
  have hin : DelayInRange (setParameters
      (configure (SimpleReverb.initial : SimpleReverb ℚ) 44100 1) 1 6 (1 / 2) (157 / 256) 0) :=
    setParameters_inRange _ (by show (0 : Int) ≤ stdMax 1 44100; decide)
      (by show stdMax (1 : Int) 44100 < 2147483648; decide) _ _ _ _ _ (by norm_num)
  rw [setParameters_comb_length _ (by show (0 : Int) ≤ stdMax 1 1; decide)
    (by show stdMax (1 : Int) 1 < 536870912; decide) _ _ _ _ _ 3
    (by show 3 < (stdMax (1 : Int) 1).toNat * 4; decide)]
  have hmod : 3 % kCombCount = 3 := by decide
  rw [hmod, combSamples_eq _ hin, combDelaySamples_rounding_example _ hroom hsr]
  constructor
  · have : Nat.floor (2927 : ℚ) = 2927 := by simp
    rw [this]
  · have : Nat.floor ((67 : ℚ) * (5 / 10 + 157 / 256 * (8 / 10)) * 44100 / 1000) = 2926 := by
      rw [Nat.floor_eq_iff (by norm_num)]
      norm_num
    rw [this]

theorem setParameters_echo_length {K : Type} [LinearOrderedField K] [FloorRing K]
    (r : SimpleReverb K) (h0 : 0 ≤ r.channels) (h1 : r.channels < 536870912)
    (wet decay tone room echo : K) (m : Nat) (hm : m < r.channels.toNat * kEchoCount) :
    ((setParameters r wet decay tone room echo).echoLines.getD m default).buffer.length
      = echoSamples (setParameters r wet decay tone room echo) (m % kEchoCount) := by
  have hl := ensureLines_echo_line
    { r with wet := clamp wet 0 1, decay := clamp decay (1 / 10) 12, tone := clamp tone 0 1,
             room := clamp room 0 1, echoMs := stdMax 0 echo } h0 h1 m hm
  have hl2 : (setParameters r wet decay tone room echo).echoLines.getD m default
      = resizeLine (echoSamples (setParameters r wet decay tone room echo) (m % kEchoCount))
          (r.echoLines.getD m default) := hl
  rw [hl2]
  exact (resizeLine_samples _ _).1

theorem roundF32_echo_delay : roundF32 (180 + 5137367 / 65536 : ℚ) = 2116731 / 8192 := by
  rw [roundF32_eq _ 8 8466924 (by norm_num)
    (by rw [abs_of_pos] <;> norm_num) (by rw [abs_of_pos] <;> norm_num)
    (by rw [roundHalfEven_tie _ 8466923 (by norm_num)]; decide)]
  norm_num

theorem roundF32_echo_product : roundF32 (2116731 / 8192 * 44100 : ℚ) = 11395000 := by
  rw [roundF32_eq_of_near _ 23 11395000 (by norm_num)
    (by rw [abs_of_pos] <;> norm_num) (by rw [abs_of_pos] <;> norm_num)
    (by rw [abs_lt]; constructor <;> norm_num)]
  norm_num

/-- At 44100 Hz with the echo time 78.39f (the `float` 5137367/65536) the `float` delay of
the 180 ms echo tap is exactly 11395: the sum rounds up on a tie and the product rounds up
to 11395000. -/
theorem echoDelaySamples_rounding_example (r : SimpleReverb ℚ)
    (hecho : r.echoMs = 5137367 / 65536) (hsr : r.sampleRate = 44100) :
    echoDelaySamples r 1 = 11395 := by
  have hb : ((echoBaseMs 1 : Nat) : ℚ) = 180 := by
    show (((180 : Nat) : Nat) : ℚ) = 180
    norm_num
  have h44100 : roundF32 (((44100 : Int) : ℚ)) = 44100 := by
    have := roundF32_natCast (K := ℚ) 44100 (by norm_num)
    simpa using this
  have h11395 : roundF32 (11395 : ℚ) = 11395 := by
    have := roundF32_natCast (K := ℚ) 11395 (by norm_num)
    simpa using this
  unfold echoDelaySamples
  dsimp only
  rw [hecho, hsr, hb, roundF32_echo_delay, h44100, roundF32_echo_product]
  have e3 : (11395000 : ℚ) / 1000 = 11395 := by norm_num
  rw [e3, h11395]

/-- The length of an echo line follows the `float` arithmetic of the code: at 44100 Hz with
the echo time 78.39f the second echo line (180 ms) gets 11396 samples, one more than
`floor((180 + echoMs) * 44100 / 1000) + 1 = 11395` in exact arithmetic. -/
theorem echo_line_length_follows_float_rounding :
    ((setParameters (configure (SimpleReverb.initial : SimpleReverb ℚ) 44100 1)
        1 6 (1 / 2) (1 / 2) (5137367 / 65536)).echoLines.getD 1 default).buffer.length
      = 11396 ∧
    Nat.floor ((180 + 5137367 / 65536 : ℚ) * 44100 / 1000) + 1 = 11395 := by
  have hecho : (setParameters (configure (SimpleReverb.initial : SimpleReverb ℚ) 44100 1)
      1 6 (1 / 2) (1 / 2) (5137367 / 65536)).echoMs = 5137367 / 65536 := by
    show stdMax (0 : ℚ) (5137367 / 65536) = 5137367 / 65536
    unfold stdMax
    norm_num
  have hsr : (setParameters (configure (SimpleReverb.initial : SimpleReverb ℚ) 44100 1)
      1 6 (1 / 2) (1 / 2) (5137367 / 65536)).sampleRate = 44100 := by
    show stdMax (1 : Int) 44100 = 44100
    decide
  have hin : DelayInRange (setParameters
      (configure (SimpleReverb.initial : SimpleReverb ℚ) 44100 1) 1 6 (1 / 2) (1 / 2)
        (5137367 / 65536)) :=
    setParameters_inRange _ (by show (0 : Int) ≤ stdMax 1 44100; decide)
      (by show stdMax (1 : Int) 44100 < 2147483648; decide) _ _ _ _ _ (by norm_num)
  rw [setParameters_echo_length _ (by show (0 : Int) ≤ stdMax 1 1; decide)
    (by show stdMax (1 : Int) 1 < 536870912; decide) _ _ _ _ _ 1
    (by show 1 < (stdMax (1 : Int) 1).toNat * 2; decide)]
  have hmod : 1 % kEchoCount = 1 := by decide
  rw [hmod, echoSamples_eq _ hin, echoDelaySamples_rounding_example _ hecho hsr]
  constructor
  · have : Nat.floor (11395 : ℚ) = 11395 := by simp
    rw [this]
  · have : Nat.floor ((180 + 5137367 / 65536 : ℚ) * 44100 / 1000) = 11394 := by
      rw [Nat.floor_eq_iff (by norm_num)]
      norm_num
    rw [this]

/-- The `float` nearest to 78.39 is 5137367/65536. -/
theorem roundF32_echo_literal : roundF32 (7839 / 100 : ℚ) = 5137367 / 65536 := by
  rw [roundF32_eq_of_near _ 6 10274734 (by norm_num)
    (by rw [abs_of_pos] <;> norm_num) (by rw [abs_of_pos] <;> norm_num)
    (by rw [abs_lt]; constructor <;> norm_num)]
  norm_num

/-- C14 (amended): after `ensureLines`, with fewer than 2^29 channels, an `int32_t` sample
rate, a room size in `[0, 1]` and an echo time in `[0, 2^40]` ms, for every channel `ch`,
comb line `i` of that channel (base delays 35, 47, 58, 67 ms) has a buffer of
`trunc(d) + 1` samples, where `d` is the `float` the code computes for
`baseDelayMs(i) * roomScale * sampleRate / 1000` with `roomScale = 0.5 + roomSize * 0.8`:
every operation, the literal `0.8f` and the conversion of the sample rate rounded to
binary32.  Echo line `i` (base delays 120, 180 ms) has a buffer of `trunc(d) + 1` samples
with `d` the `float` computed for `(baseDelayMs(i) + echoMs) * sampleRate / 1000`. -/
theorem delay_line_length_is_truncation_plus_one {K : Type} [LinearOrderedField K]
    [FloorRing K] (r : SimpleReverb K) (h0 : 0 ≤ r.channels) (h1 : r.channels < 536870912)
    (hsr : 0 ≤ r.sampleRate ∧ r.sampleRate < 2147483648) (hroom : 0 ≤ r.room ∧ r.room ≤ 1)
    (hecho : 0 ≤ r.echoMs ∧ r.echoMs ≤ 1099511627776) :
    (∀ ch i, ch < r.channels.toNat → i < 4 →
      ((ensureLines r).combLines.getD (ch * 4 + i) default).buffer.length
        = Nat.floor (roundF32 (roundF32 (roundF32
            (((([35, 47, 58, 67] : List Nat).getD i 0 : Nat) : K)
              * roundF32 (1 / 2 + roundF32 (r.room * roundF32 (8 / 10))))
            * roundF32 (r.sampleRate : K)) / 1000)) + 1) ∧
    (∀ ch i, ch < r.channels.toNat → i < 2 →
      ((ensureLines r).echoLines.getD (ch * 2 + i) default).buffer.length
        = Nat.floor (roundF32 (roundF32 (roundF32
            ((((([120, 180] : List Nat).getD i 0 : Nat) : K)) + r.echoMs)
            * roundF32 (r.sampleRate : K)) / 1000)) + 1) := by
  have hin : DelayInRange r := ⟨hroom.1, hroom.2, hecho.1, hecho.2, hsr.1, hsr.2⟩
  constructor
  · intro ch i hch hi
    have hm : ch * 4 + i < r.channels.toNat * kCombCount := by
      show ch * 4 + i < r.channels.toNat * 4
      omega
    have hmod : (ch * 4 + i) % kCombCount = i := by
      show (ch * 4 + i) % 4 = i
      omega
    rw [ensureLines_comb_line r h0 h1 _ hm, (resizeLine_samples _ _).1, hmod,
      combSamples_eq r hin]
    rfl
  · intro ch i hch hi
    have hm : ch * 2 + i < r.channels.toNat * kEchoCount := by
      show ch * 2 + i < r.channels.toNat * 2
      omega
    have hmod : (ch * 2 + i) % kEchoCount = i := by
      show (ch * 2 + i) % 2 = i
      omega
    rw [ensureLines_echo_line r h0 h1 _ hm, (resizeLine_samples _ _).1, hmod,
      echoSamples_eq r hin]
    rfl

/-- The expression of the amended claim is the `float` delay `combDelaySamples`. -/
theorem combDelaySamples_formula {K : Type} [LinearOrderedField K] [FloorRing K]
    (r : SimpleReverb K) (i : Nat) :
    roundF32 (roundF32 (roundF32
      (((([35, 47, 58, 67] : List Nat).getD i 0 : Nat) : K)
        * roundF32 (1 / 2 + roundF32 (r.room * roundF32 (8 / 10))))
      * roundF32 (r.sampleRate : K)) / 1000) = combDelaySamples r i := rfl

/-- Witness for claim C14: the reverb configured at 44100 Hz with one channel and set to
room size 157/256; its fourth comb line (67 ms) has 2928 samples, the truncated `float`
delay 2927 plus one. -/
theorem delay_line_length_is_truncation_plus_one_witness :
    ((ensureLines (setParameters (configure (SimpleReverb.initial : SimpleReverb ℚ) 44100 1)
        1 6 (1 / 2) (157 / 256) 0)).combLines.getD (0 * 4 + 3) default).buffer.length
      = 2928 := by
  have hroom : (setParameters (configure (SimpleReverb.initial : SimpleReverb ℚ) 44100 1)
      1 6 (1 / 2) (157 / 256) 0).room = 157 / 256 := by
    show clamp (157 / 256 : ℚ) 0 1 = 157 / 256
    unfold clamp
    norm_num
  have hsr : (setParameters (configure (SimpleReverb.initial : SimpleReverb ℚ) 44100 1)
      1 6 (1 / 2) (157 / 256) 0).sampleRate = 44100 := by
    show stdMax (1 : Int) 44100 = 44100
    decide
  have hin : DelayInRange (setParameters
      (configure (SimpleReverb.initial : SimpleReverb ℚ) 44100 1) 1 6 (1 / 2) (157 / 256) 0) :=
    setParameters_inRange _ (by show (0 : Int) ≤ stdMax 1 44100; decide)
      (by show stdMax (1 : Int) 44100 < 2147483648; decide) _ _ _ _ _ (by norm_num)
  have h := (delay_line_length_is_truncation_plus_one
    (setParameters (configure (SimpleReverb.initial : SimpleReverb ℚ) 44100 1)
      1 6 (1 / 2) (157 / 256) 0)
    (by show (0 : Int) ≤ stdMax 1 1; decide) (by show stdMax (1 : Int) 1 < 536870912; decide)
    ⟨hin.2.2.2.2.1, hin.2.2.2.2.2⟩ ⟨hin.1, hin.2.1⟩ ⟨hin.2.2.1, hin.2.2.2.1⟩).1 0 3
    (by show 0 < (stdMax (1 : Int) 1).toNat; decide) (by decide)
  rw [h, combDelaySamples_formula, combDelaySamples_rounding_example _ hroom hsr]
  have : Nat.floor (2927 : ℚ) = 2927 := by simp
  rw [this]

/-! ## Theorems: render callback -/

theorem applyDownstream_frame {ST K : Type} [LinearOrderedField K] [FloorRing K]
    (ts : TimeStretch ST K) (e : AudioEngine ST K) (c : DownstreamCall K) :
    (applyDownstream ts e c).ring = e.ring ∧ (applyDownstream ts e c).tempBuffer = e.tempBuffer ∧
    (applyDownstream ts e c).playedFrames = e.playedFrames ∧
    (applyDownstream ts e c).ringScratch = e.ringScratch := by
  cases c <;> exact ⟨rfl, rfl, rfl, rfl⟩

theorem updateEngine_frame {ST K : Type} [LinearOrderedField K] [FloorRing K]
    (ts : TimeStretch ST K) (e : AudioEngine ST K) :
    (updateEngine ts e).ring = e.ring ∧ (updateEngine ts e).tempBuffer = e.tempBuffer ∧
    (updateEngine ts e).playedFrames = e.playedFrames ∧
    (updateEngine ts e).ringScratch = e.ringScratch := by
  unfold updateEngine
  dsimp only
  generalize (updateSmoothedParameters e.params).2 = calls
  have key : ∀ (cs : List (DownstreamCall K)) (x : AudioEngine ST K),
      (cs.foldl (applyDownstream ts) x).ring = x.ring ∧
      (cs.foldl (applyDownstream ts) x).tempBuffer = x.tempBuffer ∧
      (cs.foldl (applyDownstream ts) x).playedFrames = x.playedFrames ∧
      (cs.foldl (applyDownstream ts) x).ringScratch = x.ringScratch := by
    intro cs
    induction cs with
    | nil => intro x; exact ⟨rfl, rfl, rfl, rfl⟩
    | cons c rest ih =>
      intro x
      obtain ⟨a1, a2, a3, a4⟩ := applyDownstream_frame ts x c
      obtain ⟨b1, b2, b3, b4⟩ := ih (applyDownstream ts x c)
      exact ⟨b1.trans a1, b2.trans a2, b3.trans a3, b4.trans a4⟩
  exact key calls _

theorem drainLoop_playedFrames {ST K : Type} (ts : TimeStretch ST K) (n : Nat) :
    ∀ e : AudioEngine ST K, (e.ring.ringWriteIndex - e.ring.ringReadIndex).toNat ≤ n →
      (drainLoop ts e).playedFrames = e.playedFrames := by
  induction n with
  | zero =>
    intro e he
    rw [drainLoop]
    have hpop : (popFromRing e.ring e.ringScratch 1024).2.2 ≤ 0 := by
      unfold popFromRing
      dsimp only
      split_ifs with c1 c2
      · exact le_refl (0 : Int)
      · exact le_refl (0 : Int)
      · omega
    rw [if_pos hpop]
  | succ k ih =>
    intro e he
    rw [drainLoop]
    split_ifs with c1 c2
    · rfl
    · rfl
    · rw [ih]
      dsimp only
      have hw := (popFromRing_read e.ring e.ringScratch 1024).2
      have hr := (popFromRing_read e.ring e.ringScratch 1024).1
      rw [hw, hr]
      omega

theorem drainRing_playedFrames {ST K : Type} [Zero K] (ts : TimeStretch ST K)
    (e : AudioEngine ST K) : (drainRing ts e).playedFrames = e.playedFrames := by
  unfold drainRing
  split_ifs
  · dsimp only
    rw [drainLoop_playedFrames ts _ _ (le_refl _)]
  · rfl

theorem popFromRing_empty {α : Type} (s : RingState α) (dst : List α) (maxFrames : Int)
    (h : s.ringWriteIndex = s.ringReadIndex) : popFromRing s dst maxFrames = (s, dst, 0) := by
  unfold popFromRing
  dsimp only
  split_ifs with c1 c2
  · rfl
  · rfl
  · exact absurd (by rw [h]; omega : s.ringWriteIndex - s.ringReadIndex ≤ 0) c2

theorem drainRing_empty {ST K : Type} [Zero K] (ts : TimeStretch ST K)
    (e : AudioEngine ST K) (h : e.ring.ringWriteIndex = e.ring.ringReadIndex) :
    (drainRing ts e).soundTouch = e.soundTouch ∧ (drainRing ts e).tempBuffer = e.tempBuffer ∧
    (drainRing ts e).ring = e.ring ∧ (drainRing ts e).reverb = e.reverb := by
  unfold drainRing
  split_ifs
  · dsimp only
    rw [drainLoop]
    dsimp only
    rw [popFromRing_empty _ _ _ h, if_pos (le_refl _)]
    exact ⟨rfl, rfl, rfl, rfl⟩
  · exact ⟨rfl, rfl, rfl, rfl⟩

theorem updateEngine_soundTouch_inert {ST K : Type} [LinearOrderedField K] [FloorRing K]
    (ts : TimeStretch ST K) (e : AudioEngine ST K)
    (h1 : ∀ st k, ts.setTempo st k = st) (h2 : ∀ st k, ts.setPitchSemiTones st k = st) :
    (updateEngine ts e).soundTouch = e.soundTouch := by
  unfold updateEngine
  dsimp only
  generalize (updateSmoothedParameters e.params).2 = calls
  have key : ∀ (cs : List (DownstreamCall K)) (x : AudioEngine ST K),
      (cs.foldl (applyDownstream ts) x).soundTouch = x.soundTouch := by
    intro cs
    induction cs with
    | nil => intro x; rfl
    | cons c rest ih =>
      intro x
      rw [List.foldl_cons, ih]
      cases c
      · exact h1 _ _
      · exact h2 _ _
      · rfl
  exact key calls _

/-- Claim C11.  One render callback `onAudioReady` adds exactly the requested frame count
`numFrames` to the played-frame counter, whatever the time-stretch engine produced; and for
`numFrames > 0`, if the ring buffer is empty and the first `receiveSamples` call yields no
frame, the output buffer is `numFrames * channelCount` samples that are exactly `0`, followed
by the untouched rest of the buffer. -/
theorem onAudioReady_silence_and_counter {ST K : Type} [LinearOrderedField K] [FloorRing K]
    (ts : TimeStretch ST K) (e : AudioEngine ST K) (audioData : List K) (numFrames : Int) :
    (onAudioReady ts e audioData numFrames).1.playedFrames = e.playedFrames + numFrames ∧
    (0 < numFrames → e.ring.ringWriteIndex = e.ring.ringReadIndex →
      (ts.receiveSamples (updateEngine ts e).soundTouch (updateEngine ts e).tempBuffer
        numFrames).2.2 ≤ 0 →
      (onAudioReady ts e audioData numFrames).2 =
        List.replicate (numFrames * e.ring.channelCount).toNat 0 ++
          audioData.drop (numFrames * e.ring.channelCount).toNat) := by
  constructor
  · unfold onAudioReady
    dsimp only
    rw [drainRing_playedFrames, (updateEngine_frame ts e).2.2.1]
  · intro hn hempty hrecv
    have hu := updateEngine_frame ts e
    have hempty1 : (updateEngine ts e).ring.ringWriteIndex =
        (updateEngine ts e).ring.ringReadIndex := by rw [hu.1]; exact hempty
    obtain ⟨d1, d2, d3, _⟩ := drainRing_empty ts (updateEngine ts e) hempty1
    unfold onAudioReady
    dsimp only
    rw [renderLoop]
    dsimp only
    rw [if_pos hn, d1, d2, if_pos hrecv, d3, hu.1]
    dsimp only
    unfold memcpy
    simp

/-- Witness for claim C11: an idle engine with an empty ring, asked for three stereo frames,
writes six zero samples, leaves the seventh sample of the buffer alone, and moves the
played-frame counter from 10 to 13. -/
theorem onAudioReady_silence_and_counter_witness :
    (onAudioReady countingStretch idleEngine [5, 5, 5, 5, 5, 5, 9] 3).1.playedFrames = 13 ∧
    (onAudioReady countingStretch idleEngine [5, 5, 5, 5, 5, 5, 9] 3).2 =
      [0, 0, 0, 0, 0, 0, 9] := by
  have h := onAudioReady_silence_and_counter countingStretch idleEngine [5, 5, 5, 5, 5, 5, 9] 3
  refine ⟨h.1, ?_⟩
  rw [h.2 (by decide) rfl (by
    rw [updateEngine_soundTouch_inert countingStretch idleEngine (fun _ _ => rfl)
      (fun _ _ => rfl)]
    decide)]
  rfl

/-! ## Theorems: producer and consumer interleaved -/

theorem producerStep_inductive (s : SpscState) (frames : Int)
    (hcap : s.ringCapacityFrames < 2147483648) (h : SpscInductive s) :
    SpscInductive (producerStep s frames) := by
  rcases s with ⟨cap, w, r, p, c⟩
  dsimp only at hcap
  cases p <;> cases c <;>
    simp only [SpscInductive, ConsumerOk, ProducerOk, producerStep, consumerPending,
      castInt32, castSizeT, castInt64, true_and] at h ⊢ <;>
    (try split_ifs) <;>
    (try simp only [SpscInductive, ConsumerOk, ProducerOk, producerStep, consumerPending,
      castInt32, castSizeT, castInt64, true_and]) <;>
    omega

theorem consumerStep_inductive (s : SpscState) (maxFrames : Int)
    (hcap : s.ringCapacityFrames < 2147483648) (h : SpscInductive s) :
    SpscInductive (consumerStep s maxFrames) := by
  rcases s with ⟨cap, w, r, p, c⟩
  dsimp only at hcap
  cases p <;> cases c <;>
    simp only [SpscInductive, ConsumerOk, ProducerOk, consumerStep, consumerPending,
      castInt32, castSizeT, castInt64, true_and] at h ⊢ <;>
    (try split_ifs) <;>
    (try simp only [SpscInductive, ConsumerOk, ProducerOk, consumerStep, consumerPending,
      castInt32, castSizeT, castInt64, true_and]) <;>
    omega

theorem runSchedule_capacity (schedule : List Thread) :
    ∀ s : SpscState, (runSchedule s schedule).ringCapacityFrames = s.ringCapacityFrames := by
  induction schedule with
  | nil => intro s; rfl
  | cons t rest ih =>
    intro s
    show (runSchedule (spscStep s t) rest).ringCapacityFrames = _
    rw [ih]
    rcases s with ⟨cap, w, r, p, c⟩
    cases t <;> cases p <;> cases c <;>
      simp only [spscStep, producerStep, consumerStep] <;> (try split_ifs) <;> rfl

theorem runSchedule_inductive (schedule : List Thread) :
    ∀ s : SpscState, s.ringCapacityFrames < 2147483648 → SpscInductive s →
      SpscInductive (runSchedule s schedule) := by
  induction schedule with
  | nil => intro s _ h; exact h
  | cons t rest ih =>
    intro s hcap h
    show SpscInductive (runSchedule (spscStep s t) rest)
    have hc : (spscStep s t).ringCapacityFrames = s.ringCapacityFrames :=
      runSchedule_capacity [t] s
    apply ih
    · rw [hc]; exact hcap
    · cases t
      · exact producerStep_inductive s _ hcap h
      · exact consumerStep_inductive s _ hcap h

theorem spscInit_inductive (capacity : Nat) : SpscInductive (spscInit capacity) := by
  simp only [SpscInductive, ConsumerOk, ProducerOk, spscInit, consumerPending, true_and]
  omega

/-- In every state the interleaving reaches from the initial state, whatever the capacity
(as long as it fits an `int`) and the chunk sizes, `write − read ≤ capacity`; and
`0 ≤ write − read` as long as the producer is not between the `fetch_add` on the read
cursor and the store of the write cursor of a push that drops frames. -/
theorem spsc_upper_bound_in_every_reachable_state (capacity : Nat)
    (hcap : capacity < 2147483648) (schedule : List Thread) :
    (runSchedule (spscInit capacity) schedule).ringWriteIndex -
        (runSchedule (spscInit capacity) schedule).ringReadIndex ≤ (capacity : Int) ∧
    ((∀ frames write, (runSchedule (spscInit capacity) schedule).producer ≠
        .dropped frames write) →
      0 ≤ (runSchedule (spscInit capacity) schedule).ringWriteIndex -
        (runSchedule (spscInit capacity) schedule).ringReadIndex) := by
  have h := runSchedule_inductive schedule (spscInit capacity) hcap (spscInit_inductive capacity)
  have hc := runSchedule_capacity schedule (spscInit capacity)
  generalize runSchedule (spscInit capacity) schedule = s at h hc ⊢
  rcases s with ⟨cap, w, r, p, c⟩
  have hc1 : cap = capacity := hc
  subst hc1
  cases p <;> cases c <;>
    simp only [SpscInductive, ConsumerOk, ProducerOk, consumerPending, true_and] at h ⊢ <;>
    refine ⟨by omega, ?_⟩ <;> intro hp <;>
    first
      | omega
      | exact absurd rfl (hp _ _)

theorem producerStep_start (cap : Nat) (w r : Int) (c : ConsumerPc) (f : Int)
    (h0 : 0 < f) (h1 : f ≤ cap) (hcap : cap < 2147483648) :
    producerStep ⟨cap, w, r, .idle, c⟩ f = ⟨cap, w, r, .loadedWrite f w, c⟩ := by
  have e1 : castInt32 (cap : Int) = cap := by unfold castInt32; omega
  have e2 : ¬ (cap = 0 ∨ f ≤ 0) := by omega
  have e3 : ¬ (f > (cap : Int)) := by omega
  simp only [producerStep, e1, if_neg e2, if_neg e3]

theorem producerStep_loadRead (cap : Nat) (w r : Int) (c : ConsumerPc) (f wl g : Int) :
    producerStep ⟨cap, w, r, .loadedWrite f wl, c⟩ g = ⟨cap, w, r, .loadedRead f wl r, c⟩ :=
  rfl

theorem producerStep_store (cap : Nat) (w r : Int) (c : ConsumerPc) (f wl rl g : Int)
    (h0 : 0 ≤ f) (h1 : 0 ≤ wl - rl) (h2 : wl - rl + f ≤ cap) (hcap : cap < 2147483648) :
    producerStep ⟨cap, w, r, .loadedRead f wl rl, c⟩ g = ⟨cap, wl + f, r, .idle, c⟩ := by
  have e : ¬ (castSizeT f >
      if cap > castSizeT (wl - rl) then cap - castSizeT (wl - rl) else 0) := by
    unfold castSizeT
    split_ifs <;> omega
  simp only [producerStep, if_neg e]

theorem producerStep_drop (cap : Nat) (w r : Int) (c : ConsumerPc) (f wl rl g : Int)
    (h0 : 0 ≤ f) (h1 : 0 ≤ wl - rl) (h2 : wl - rl ≤ cap) (h3 : (cap : Int) < wl - rl + f)
    (hf : f < 2147483648) (hcap : cap < 2147483648) :
    producerStep ⟨cap, w, r, .loadedRead f wl rl, c⟩ g =
      ⟨cap, w, r + (f - (cap - (wl - rl))), .dropped f wl, c⟩ := by
  have e : castSizeT f >
      if cap > castSizeT (wl - rl) then cap - castSizeT (wl - rl) else 0 := by
    unfold castSizeT
    split_ifs <;> omega
  have e2 : castInt64 ((castSizeT f -
      (if cap > castSizeT (wl - rl) then cap - castSizeT (wl - rl) else 0 : Nat) : Nat) : Int)
      = f - (cap - (wl - rl)) := by
    unfold castInt64 castSizeT
    split_ifs <;> omega
  simp only [producerStep, if_pos e, e2]

theorem producerStep_finish (cap : Nat) (w r : Int) (c : ConsumerPc) (f wl g : Int) :
    producerStep ⟨cap, w, r, .dropped f wl, c⟩ g = ⟨cap, wl + f, r, .idle, c⟩ :=
  rfl

theorem consumerStep_start (cap : Nat) (w r : Int) (p : ProducerPc) (m : Int)
    (h0 : 0 < m) (h1 : 0 < cap) :
    consumerStep ⟨cap, w, r, p, .idle⟩ m = ⟨cap, w, r, p, .loadedWrite m w⟩ := by
  have e2 : ¬ (cap = 0 ∨ m ≤ 0) := by omega
  simp only [consumerStep, if_neg e2]

theorem consumerStep_loadRead (cap : Nat) (w r : Int) (p : ProducerPc) (m wl g : Int)
    (h0 : 0 < wl - r) (h1 : wl - r < 2147483648) :
    consumerStep ⟨cap, w, r, p, .loadedWrite m wl⟩ g =
      ⟨cap, w, r, p, .loadedRead (min m (wl - r))⟩ := by
  have e1 : castInt32 (wl - r) = wl - r := by unfold castInt32; omega
  have e2 : ¬ (wl - r ≤ 0) := by omega
  simp only [consumerStep, if_neg e2, e1]

theorem consumerStep_empty (cap : Nat) (w r : Int) (p : ProducerPc) (m wl g : Int)
    (h0 : wl - r ≤ 0) :
    consumerStep ⟨cap, w, r, p, .loadedWrite m wl⟩ g = ⟨cap, w, r, p, .idle⟩ := by
  simp only [consumerStep, if_pos h0]

theorem consumerStep_finish (cap : Nat) (w r : Int) (p : ProducerPc) (f g : Int) :
    consumerStep ⟨cap, w, r, p, .loadedRead f⟩ g = ⟨cap, w, r + f, p, .idle⟩ :=
  rfl

/-- For every capacity that fits an `int`, the schedule `overtakingSchedule` drives the
read cursor one frame past the write cursor. -/
theorem overtaking_at_every_capacity (capacity : Nat) (h0 : 0 < capacity)
    (hcap : capacity < 2147483648) :
    runSchedule (spscInit capacity) (overtakingSchedule capacity) =
      ⟨capacity, capacity, capacity + 1, .dropped 1 capacity, .idle⟩ := by
  simp only [runSchedule, overtakingSchedule, spscInit, List.foldl_cons, List.foldl_nil,
    spscStep]
  rw [producerStep_start _ _ _ _ _ (by omega) (le_refl _) hcap, producerStep_loadRead,
    producerStep_store _ _ _ _ _ _ _ _ (by omega) (by omega) (by omega) hcap,
    producerStep_start _ _ _ _ _ (by omega) (by omega) hcap, producerStep_loadRead,
    consumerStep_start _ _ _ _ _ (by omega) h0,
    consumerStep_loadRead _ _ _ _ _ _ _ (by omega) (by omega),
    consumerStep_finish,
    producerStep_drop _ _ _ _ _ _ _ _ (by omega) (by omega) (by omega) (by omega) (by omega) hcap]
  have e : min (capacity : Int) (0 + capacity - 0) = capacity := by omega
  simp only [e]
  have e2 : (0 : Int) + capacity = capacity := by omega
  have e3 : (capacity : Int) + (1 - ((capacity : Int) - ((capacity : Int) - 0))) =
      capacity + 1 := by omega
  rw [e2, e3]

/-- With no consumer step in between, the atomic steps of one push change the cursors
exactly as the method `pushToRing` run to completion does. -/
theorem runProducerCall_eq_pushToRing {α : Type} (r : RingState α) (data : List α)
    (frames : Int) :
    runProducerCall (spscOfRing r) frames = spscOfRing (pushToRing r data frames).1 := by
  unfold runProducerCall pushToRing spscOfRing
  by_cases h : r.ringCapacityFrames = 0 ∨ frames ≤ 0
  · simp only [producerStep, if_pos h]
    rfl
  · simp only [producerStep, if_neg h, reduceCtorEq, if_false, decide_eq_true_eq]
    generalize (if frames > castInt32 ↑r.ringCapacityFrames then castInt32 ↑r.ringCapacityFrames
      else frames) = f1
    generalize (if r.ringCapacityFrames > castSizeT (r.ringWriteIndex - r.ringReadIndex) then
      r.ringCapacityFrames - castSizeT (r.ringWriteIndex - r.ringReadIndex) else 0) = free
    by_cases c : castSizeT f1 > free
    · simp only [if_pos c, reduceCtorEq, if_false, writeFrames_cursors]
    · simp only [if_neg c, writeFrames_cursors, if_true]

/-- With no producer step in between, the atomic steps of one pop change the cursors
exactly as the method `popFromRing` run to completion does. -/
theorem runConsumerCall_eq_popFromRing {α : Type} (r : RingState α) (dst : List α)
    (maxFrames : Int) :
    runConsumerCall (spscOfRing r) maxFrames =
      spscOfRing (popFromRing r dst maxFrames).1 := by
  unfold runConsumerCall popFromRing spscOfRing
  by_cases h : r.ringCapacityFrames = 0 ∨ maxFrames ≤ 0
  · simp only [consumerStep, if_pos h]
    rfl
  · simp only [consumerStep, if_neg h, reduceCtorEq, if_false]
    by_cases c : r.ringWriteIndex - r.ringReadIndex ≤ 0
    · simp only [if_pos c, if_true]
    · simp only [if_neg c, reduceCtorEq, if_false]

/-- Claim C12, refuted.  With one producer in `pushToRing` and one consumer in
`popFromRing`, each atomic load, store and `fetch_add` being one step, the cursor invariant
`0 ≤ write − read ≤ capacity` does not hold in every reachable state: for every capacity
that fits an `int`, the schedule `overtakingSchedule` (chunk sizes `capacity` and 1) reaches
a state with `write − read = −1`.  The producer computes the number of frames to drop from a
read cursor the consumer has moved since. -/
theorem concurrent_drop_breaks_cursor_invariant (capacity : Nat) (h0 : 0 < capacity)
    (hcap : capacity < 2147483648) :
    (runSchedule (spscInit capacity) (overtakingSchedule capacity)).ringWriteIndex -
        (runSchedule (spscInit capacity) (overtakingSchedule capacity)).ringReadIndex = -1 ∧
    ¬ SpscCursorInv (runSchedule (spscInit capacity) (overtakingSchedule capacity)) := by
  rw [overtaking_at_every_capacity capacity h0 hcap]
  unfold SpscCursorInv
  dsimp only
  omega

/-- Witness for claim C12 at capacity 2: the producer pushes 2 frames, starts a push of 1
frame and loads `write = 2`, `read = 0`; the consumer pops 2 frames; the producer then adds
its stale drop count 1 to the read cursor, which leaves `write = 2` and `read = 3`. -/
theorem concurrent_drop_breaks_cursor_invariant_witness :
    (runSchedule (spscInit 2) (overtakingSchedule 2)).ringWriteIndex = 2 ∧
    (runSchedule (spscInit 2) (overtakingSchedule 2)).ringReadIndex = 3 ∧
    ¬ SpscCursorInv (runSchedule (spscInit 2) (overtakingSchedule 2)) :=
  ⟨by decide, by decide,
    (concurrent_drop_breaks_cursor_invariant 2 (by decide) (by decide)).2⟩

end SlowReverb
